import Mathlib

/-!
Verification of the interface ingestion and completion core of the types2
package (file interface.go): interface declarations are ingested into an
interface value holding explicit methods and embedded elements, and a
completion pass computes the canonical method closure (allMethods) and the
intersected type-term constraint (allTypes).

Machine integers, positions and abstract identities are modelled as Nat,
package paths and names as String.  Helpers that the excerpt calls but that
are defined elsewhere in the package (object identity and ordering, objset,
parseUnion, Identical, intersect, markComplete) are modelled from the spec
and marked as such in their doc comments.
-/

set_option maxHeartbeats 1000000

deriving instance DecidableEq for Except

namespace Types2

/-- a type term of a union: a concrete type together with the approximation
(tilde) flag meaning any type sharing its underlying representation. -/
structure Term where
  tilde : Bool
  typ : Nat
deriving DecidableEq

/-- Modelled from the spec: the type-term set carried by allTypes.  The
intersect helper of the source is not part of the excerpt; the spec gives its
semantics as plain set intersection with unconstrained as identity, so term
collections are modelled as finite sets. -/
abbrev TermSet := Finset Term

/-- a method object (the types2 Func restricted to the fields the excerpt
reads): declaration position, owning package path, name, and an abstract
signature identity standing for its signature (structural identity of
signatures is modelled as equality of this field). -/
structure Func where
  pos : Nat
  pkg : String
  name : String
  sig : Nat
deriving DecidableEq

/-- Modelled from the spec: a name is exported exactly when its first
character is upper case; unexported names are package scoped. -/
def isExported (name : String) : Bool :=
  match name.toList with
  | [] => false
  | c :: _ => c.isUpper

/-- Modelled from the spec: the identity key used for duplicate detection.
Exported names are global; unexported names are qualified by the owning
package path. -/
def Id (m : Func) : String :=
  if isExported m.name then m.name else m.pkg ++ "." ++ m.name

/-- Modelled from the spec: the canonical method ordering, primarily by
name, with unexported names disambiguated by the owning package. -/
def Func.less (a b : Func) : Bool :=
  if a.name = b.name then
    if isExported a.name then false else decide (a.pkg < b.pkg)
  else decide (a.name < b.name)

/-- the non-strict order guaranteed by sortMethods: a may precede b when b is
not strictly less than a. -/
def mLe (a b : Func) : Prop := Func.less b a = false

instance : DecidableRel mLe := fun _ _ => by unfold mLe; infer_instance

/-- sortMethods sorts a method list by the canonical method ordering; the
library sort of the source is realized as an insertion sort. -/
def sortMethods (list : List Func) : List Func := list.insertionSort mLe

/-- an object sort key of a named type: its name and owning package. -/
structure ObjKey where
  name : String
  pkg : String
deriving DecidableEq

/-- an embedded element as resolved by the type resolver: an embedded
interface (an index into the interface store), a union of terms, a type
parameter carrying its own term set, the invalid placeholder, or any other
type.  Named shapes carry the sort key of their type name. -/
inductive EType where
  | iface (key : Option ObjKey) (j : Nat)
  | union (ts : List Term)
  | typeParam (ts : List Term)
  | invalid
  | other (key : Option ObjKey) (t : Nat)
deriving DecidableEq

/-- sortObj yields the object of the underlying named type when there is
one. -/
def sortObj : EType → Option ObjKey
  | .iface k _ => k
  | .other k _ => k
  | _ => none

/-- Modelled from the spec: ordering of named-type sort keys, primarily by
name, unexported names disambiguated by package. -/
def keyLess (a b : ObjKey) : Bool :=
  if a.name = b.name then
    if isExported a.name then false else decide (a.pkg < b.pkg)
  else decide (a.name < b.name)

/-- Modelled from the spec: the byUniqueTypeName ordering on embedded
elements; elements without a named key compare equal among themselves (and
before keyed ones), so the stable sort leaves them in relative source
order. -/
def tLess (a b : EType) : Bool :=
  match sortObj a, sortObj b with
  | none, some _ => true
  | some ka, some kb => keyLess ka kb
  | _, _ => false

/-- the non-strict order guaranteed by sortTypes. -/
def tLe (a b : EType) : Prop := tLess b a = false

instance : DecidableRel tLe := fun _ _ => by unfold tLe; infer_instance

/-- sortTypes stable-sorts embedded elements by unique type name. -/
def sortTypes (list : List EType) : List EType := list.insertionSort tLe

/-- one interface value of the store.  allMethods is none while the closure
is unresolved; some [] is the complete sentinel (markComplete) as well as
the complete-empty closure; allTypes none means unconstrained. -/
structure Iface where
  methods : List Func := []
  embeddeds : List EType := []
  embPos : List Nat := []
  allMethods : Option (List Func) := none
  allTypes : Option TermSet := none
deriving DecidableEq

/-- a syntax type expression, as far as the excerpt inspects it: an or of
two expressions (inline union), a tilde expression, or an atomic type
reference; every node carries its source position. -/
inductive SExpr where
  | or (x y : SExpr) (pos : Nat)
  | tilde (x : SExpr) (pos : Nat)
  | atom (t : Nat) (pos : Nat)
deriving DecidableEq

/-- the source position of a syntax expression. -/
def SExpr.pos : SExpr → Nat
  | .or _ _ p => p
  | .tilde _ p => p
  | .atom _ p => p

/-- the result of resolving a method member type expression: a signature
(with a flag for its own type parameters and an abstract identity), the
invalid placeholder, or a non-signature type. -/
inductive RType where
  | sig (tparams : Bool) (id : Nat)
  | invalid
  | nonsig (t : Nat)
deriving DecidableEq

/-- one member of an interface declaration: an optional name (none for an
embedded element), the name position, and the member type expression. -/
structure Member where
  name : Option String
  namePos : Nat
  typ : SExpr
deriving DecidableEq

/-- the checker context consumed by ingestion and completion: the current
package, configuration flags, the version gates, the type resolver for
method members, and the resolver of atomic embedded type references. -/
structure Checker where
  pkg : String
  compilerErrorMessages : Bool
  go118 : Bool
  go114 : String → Bool
  typOf : SExpr → RType
  resolveEmbed : Nat → EType

/-- a reported diagnostic. -/
inductive Err where
  | blankMethodName (pos : Nat) (compilerMsg : Bool)
  | multipleTypeLists (pos : Nat)
  | notAMethodSignature (pos : Nat)
  | methodTypeParams (pos : Nat)
  | dupMethod (pos : Nat) (name : String) (otherPos : Nat)
  | typeParamNotIface (pos : Nat)
  | notAnIface (pos : Nat)
deriving DecidableEq

/-- a deferred duplicate-method signature check scheduled by completion when
a diagnostics sink is available. -/
structure DelayedDup where
  pos : Nat
  m : Func
  other : Func
  otherPos : Nat
deriving DecidableEq

/-- the global state threaded through ingestion and completion: the
interface store, the reported diagnostics, and the deferred checks. -/
structure CompState where
  store : List Iface
  errs : List Err := []
  delayed : List DelayedDup := []
deriving DecidableEq

/-- a fatal outcome: either the recursion fuel ran out (never happens with
enough fuel, see the termination theorem) or an internal-invariant panic of
the source. -/
inductive Failure where
  | fuel
  | fatal (msg : String)
deriving DecidableEq

/-- flattenUnion flattens an inline union written with the or combinator
into a flat expression list. -/
def flattenUnion (list : List SExpr) (x : SExpr) : List SExpr :=
  match x with
  | .or a b _ => flattenUnion list a ++ [b]
  | _ => list ++ [x]

/-- the term denoted by one union element expression. -/
def toTerm : SExpr → Term
  | .tilde (.atom t _) _ => ⟨true, t⟩
  | .atom t _ => ⟨false, t⟩
  | _ => ⟨false, 0⟩

/-- Modelled from the spec: parseUnion turns a flattened embedding
expression list into its resolved embedded element; a single plain type
resolves through the embedded-type resolver, anything else becomes a union
of (possibly approximate) terms. -/
def parseUnion (check : Checker) (xs : List SExpr) : EType :=
  match xs with
  | [.atom t _] => check.resolveEmbed t
  | _ => .union (xs.map toTerm)

/-- Modelled from the spec: method type parameters are not enabled. -/
def acceptMethodTypeParams : Bool := false

/-- the accumulator of the member loop of interfaceType. -/
structure IngestSt where
  tlist : List SExpr := []
  tname : Option Nat := none
  methods : List Func := []
  embeddeds : List EType := []
  embPos : List Nat := []
  errs : List Err := []

/-- one iteration of the member loop of interfaceType; idx is the position
of the member in the declaration (standing in for the identity of its name
node). -/
def ingestMember (check : Checker) (st : IngestSt) (idx : Nat) (f : Member) : IngestSt :=
  match f.name with
  | none =>
    -- an embedded type, possibly a union of types
    { st with
      embeddeds := st.embeddeds ++ [parseUnion check (flattenUnion [] f.typ)],
      embPos := st.embPos ++ [f.typ.pos] }
  | some name =>
    if name = "_" then
      { st with errs := st.errs ++ [.blankMethodName f.namePos check.compilerErrorMessages] }
    else if name = "type" then
      -- collect all type list entries as a single union of tilde terms;
      -- the synthesized tilde operation has no position of its own
      let op : SExpr := .tilde f.typ 0
      let errs1 := if st.tname ≠ none ∧ st.tname ≠ some idx then
          st.errs ++ [.multipleTypeLists f.namePos]
        else st.errs
      { st with tlist := st.tlist ++ [op], errs := errs1, tname := some idx }
    else
      match check.typOf f.typ with
      | .sig tparams sid =>
        let errs1 := if tparams && !acceptMethodTypeParams then
            st.errs ++ [.methodTypeParams f.typ.pos]
          else st.errs
        -- receiver assignment and definition recording are bookkeeping for
        -- collaborators outside the excerpt
        { st with
          errs := errs1,
          methods := st.methods ++ [⟨f.namePos, check.pkg, name, sid⟩] }
      | .invalid => st
      | .nonsig _ => { st with errs := st.errs ++ [.notAMethodSignature f.typ.pos] }

/-- the position recorded for the synthetic type-list union: the position of
the first type of the list (the tilde operation has none). -/
def tlistPos : List SExpr → Nat
  | .tilde x _ :: _ => x.pos
  | e :: _ => e.pos
  | [] => 0

/-- interfaceType ingests the member list of the interface declared at store
index i; the returned flag tells whether completion was scheduled (an empty
interface is marked complete immediately instead). -/
def interfaceType (check : Checker) (i : Nat) (members : List Member) (s : CompState) :
    CompState × Bool :=
  let st := (members.enum).foldl (fun st p => ingestMember check st p.1 p.2) {}
  let st :=
    if st.tlist ≠ [] then
      { st with
        embeddeds := st.embeddeds ++ [parseUnion check st.tlist],
        embPos := st.embPos ++ [tlistPos st.tlist] }
    else st
  if st.methods = [] ∧ st.embeddeds = [] then
    -- empty interface: mark complete
    let ityp : Iface :=
      { methods := [], embeddeds := [], embPos := [],
        allMethods := some [], allTypes := none }
    ({ s with store := s.store.set i ityp, errs := s.errs ++ st.errs }, false)
  else
    -- sort for API stability, then schedule completion
    let ityp : Iface :=
      { methods := sortMethods st.methods, embeddeds := sortTypes st.embeddeds,
        embPos := st.embPos, allMethods := none, allTypes := none }
    ({ s with store := s.store.set i ityp, errs := s.errs ++ st.errs }, true)

/-- Modelled from the spec: intersect folds two type-term constraints, with
unconstrained (none) as the identity element and plain set intersection
otherwise; an empty result is a valid unsatisfiable constraint, not an
error. -/
def intersect (x y : Option TermSet) : Option TermSet :=
  match x, y with
  | none, y => y
  | some a, none => some a
  | some a, some b => some (a ∩ b)

/-- the completion-local accumulator: the objset of seen identity keys, the
collected method slots, the position bookkeeping for diagnostics, and the
signature checks postponed while no checker is available. -/
structure AddSt where
  seen : List (String × Func) := []
  methods : List Func := []
  mpos : List (Func × Nat) := []
  todo : List (Func × Func) := []
deriving DecidableEq

/-- Modelled from the spec: objset lookup by identity key. -/
def seenLookup (seen : List (String × Func)) (id : String) : Option Func :=
  match seen.find? (fun p => decide (p.1 = id)) with
  | some p => some p.2
  | none => none

/-- lookup in the completion-local position map. -/
def mposGet (mpos : List (Func × Nat)) (m : Func) : Nat :=
  match mpos.find? (fun p => decide (p.1 = m)) with
  | some p => p.2
  | none => 0

/-- addMethod inserts one method slot: a fresh identity key is recorded; an
explicit collision is an immediate duplicate-method error (a panic without a
checker); an inherited collision defers a signature comparison (or, without
a checker, queues it for the synchronous check at the end of the call). -/
def addMethod (check : Option Checker) (a : AddSt) (s : CompState)
    (pos : Nat) (m : Func) (explicit : Bool) : Except Failure (AddSt × CompState) :=
  match seenLookup a.seen (Id m) with
  | none =>
    .ok ({ a with
           seen := a.seen ++ [(Id m, m)],
           methods := a.methods ++ [m],
           mpos := a.mpos ++ [(m, pos)] }, s)
  | some other =>
    if explicit then
      match check with
      | none => .error (.fatal (toString m.pos ++ ": duplicate method " ++ m.name))
      | some _ =>
        .ok (a, { s with errs := s.errs ++ [.dupMethod pos m.name (mposGet a.mpos other)] })
    else
      match check with
      | none => .ok ({ a with todo := a.todo ++ [(m, other)] }, s)
      | some _ =>
        .ok (a, { s with delayed := s.delayed ++ [⟨pos, m, other, mposGet a.mpos other⟩] })

/-- the loop adding every explicit method, each at its own position. -/
def addExplicits (check : Option Checker) :
    List Func → AddSt → CompState → Except Failure (AddSt × CompState)
  | [], a, s => .ok (a, s)
  | m :: ms, a, s =>
    match addMethod check a s m.pos m true with
    | .error e => .error e
    | .ok (a1, s1) => addExplicits check ms a1 s1

/-- the loop adding the closure methods of one embedded interface, each at
the embedding position. -/
def addInherited (check : Option Checker) (pos : Nat) :
    List Func → AddSt → CompState → Except Failure (AddSt × CompState)
  | [], a, s => .ok (a, s)
  | m :: ms, a, s =>
    match addMethod check a s pos m false with
    | .error e => .error e
    | .ok (a1, s1) => addInherited check pos ms a1 s1

/-- the synchronous processing of queued duplicate pairs (only populated
when no checker is available): structurally different signatures are an
internal-invariant panic. -/
def processTodo : List (Func × Func) → Option Failure
  | [] => none
  | (m, other) :: rest =>
    if m.sig = other.sig then processTodo rest
    else some (.fatal (toString m.pos ++ ": duplicate method " ++ m.name))

/-- the deferred signature check scheduled for a duplicate inherited method:
report unless overlapping identical signatures are allowed (go1.14 and
later) and the signatures are structurally identical. -/
def runDelayed (check : Checker) (d : DelayedDup) : Option Err :=
  if ¬ check.go114 d.m.pkg ∨ ¬ d.m.sig = d.other.sig then
    some (.dupMethod d.pos d.m.name d.otherPos)
  else none

/-- completeEmbeds folds the embedded elements of an interface under
completion: an embedded interface is completed first if needed (through
recur, the recursive completion call at the remaining fuel), its closure
methods are added at the embedding position and its constraint intersected;
unions and (gated) type parameters and other types contribute their term
sets; the invalid placeholder is skipped. -/
def completeEmbeds (check : Option Checker)
    (recur : Nat → Nat → CompState → Except Failure CompState) :
    List (EType × Nat) → AddSt → Option TermSet → CompState →
    Except Failure (AddSt × Option TermSet × CompState)
  | [], a, allT, s => .ok (a, allT, s)
  | (t, pos) :: rest, a, allT, s =>
    match t with
    | .iface _ j =>
      match (if (s.store.getD j {}).allMethods = none
             then recur pos j s else .ok s) with
      | .error e => .error e
      | .ok s1 =>
        let tj := s1.store.getD j {}
        match addInherited check pos (tj.allMethods.getD []) a s1 with
        | .error e => .error e
        | .ok (a1, s2) =>
          completeEmbeds check recur rest a1 (intersect allT tj.allTypes) s2
    | .union ts =>
      completeEmbeds check recur rest a (intersect allT (some ts.toFinset)) s
    | .typeParam ts =>
      match check with
      | some c =>
        if c.go118 then
          completeEmbeds check recur rest a (intersect allT (some ts.toFinset)) s
        else
          completeEmbeds check recur rest a allT
            { s with errs := s.errs ++ [.typeParamNotIface pos] }
      | none => completeEmbeds check recur rest a (intersect allT (some ts.toFinset)) s
    | .invalid => completeEmbeds check recur rest a allT s
    | .other _ u =>
      match check with
      | some c =>
        if c.go118 then
          completeEmbeds check recur rest a (intersect allT (some ({⟨false, u⟩} : TermSet))) s
        else
          completeEmbeds check recur rest a allT
            { s with errs := s.errs ++ [.notAnIface pos] }
      | none =>
        completeEmbeds check recur rest a (intersect allT (some ({⟨false, u⟩} : TermSet))) s

/-- the write of the complete sentinel (markComplete) into the interface at
index i, done before any recursion to avoid infinite recursion on cycles. -/
def markSt (s : CompState) (i : Nat) : CompState :=
  { s with store := s.store.set i ({ s.store.getD i {} with allMethods := some [] }) }

/-- the embedded elements paired with their recorded positions; without a
checker the position map is unavailable and positions stay unknown. -/
def pairsOf (check : Option Checker) (it : Iface) : List (EType × Nat) :=
  match check with
  | some _ => it.embeddeds.zip it.embPos
  | none => it.embeddeds.map (fun t => (t, 0))

/-- the final write of completion: the sorted closure (when any methods were
collected; otherwise the sentinel remains as the complete-empty closure) and
the intersected constraint. -/
def finalize (s3 : CompState) (i : Nat) (a2 : AddSt) (allT : Option TermSet) : CompState :=
  let it2 := s3.store.getD i {}
  let it3 := if a2.methods = [] then it2
             else { it2 with allMethods := some (sortMethods a2.methods) }
  let it4 : Iface := { it3 with allTypes := allT }
  { s3 with store := s3.store.set i it4 }

/-- completeInterface computes the closure of the interface stored at index
i.  The complete sentinel is stored before any recursion; fuel bounds the
recursion through embedded interfaces (the source relies on the sentinel for
termination, which the fuel theorems make precise). -/
def completeInterface (check : Option Checker) : Nat → Nat → Nat → CompState →
    Except Failure CompState
  | 0, _, _, _ => .error .fuel
  | fuel + 1, _, i, s =>
    let it := s.store.getD i {}
    if it.allMethods = none then
      match addExplicits check it.methods {} (markSt s i) with
      | .error e => .error e
      | .ok (a, s2) =>
        match completeEmbeds check (completeInterface check fuel) (pairsOf check it) a none s2 with
        | .error e => .error e
        | .ok (a2, allT, s3) =>
          match processTodo a2.todo with
          | some e => .error e
          | none => .ok (finalize s3 i a2 allT)
    else .error (.fatal "assertion failed")

/-- the guarded entry point of completion (the Checker method): a completed
interface returns unchanged, and a missing checker on an incomplete
interface is an internal error. -/
def checkerCompleteInterface (check : Option Checker) (fuel pos i : Nat) (s : CompState) :
    Except Failure CompState :=
  if (s.store.getD i {}).allMethods = none then
    match check with
    | none => .error (.fatal "internal error: incomplete interface")
    | some c => completeInterface (some c) fuel pos i s
  else .ok s

/-! Basic list lemmas about indexed reads and writes of the store. -/

theorem getD_set_self {α : Type} (l : List α) (i : Nat) (x d : α) (h : i < l.length) :
    (l.set i x).getD i d = x := by
  induction l generalizing i with
  | nil => simp at h
  | cons a l ih =>
    cases i with
    | zero => simp
    | succ n => simpa using ih n (by simpa using h)

theorem getD_set_ne {α : Type} (l : List α) (i j : Nat) (x d : α) (h : i ≠ j) :
    (l.set i x).getD j d = l.getD j d := by
  induction l generalizing i j with
  | nil => simp
  | cons a l ih =>
    cases i with
    | zero => cases j with
      | zero => exact absurd rfl h
      | succ n => simp
    | succ n => cases j with
      | zero => simp
      | succ k => simpa using ih n k (by omega)

theorem getD_default {α : Type} (l : List α) (i : Nat) (d : α) (h : l.length ≤ i) :
    l.getD i d = d := by
  induction l generalizing i with
  | nil => simp
  | cons a l ih =>
    cases i with
    | zero => simp at h
    | succ n => simpa using ih n (by simpa using h)

/-! Order theory for the canonical method ordering: Func.less is a strict
weak order, made precise through a lexicographic key. -/

/-- the sort key realizing Func.less as a lexicographic comparison: the
name, then (for unexported names) the package path. -/
def mKey (a : Func) : String ×ₗ String :=
  toLex (a.name, if isExported a.name then "" else a.pkg)

theorem less_iff_lt {a b : Func} : Func.less a b = true ↔ mKey a < mKey b := by
  unfold Func.less mKey
  rcases eq_or_ne a.name b.name with h | h
  · rw [h, Prod.Lex.lt_iff]
    cases hx : isExported b.name <;> simp [h, hx]
  · rw [Prod.Lex.lt_iff]
    simp [h]

theorem mLe_iff {a b : Func} : mLe a b ↔ mKey a ≤ mKey b := by
  unfold mLe
  rw [← not_lt]
  constructor
  · intro h hk
    rw [← less_iff_lt] at hk
    simp [h] at hk
  · intro h
    by_contra hc
    exact h (less_iff_lt.mp (by simpa using hc))

instance : IsTotal Func mLe :=
  ⟨fun a b => by
    rw [mLe_iff, mLe_iff]
    exact le_total _ _⟩

instance : IsTrans Func mLe :=
  ⟨fun a b c h1 h2 => by
    rw [mLe_iff] at h1 h2 ⊢
    exact le_trans h1 h2⟩

theorem id_eq_of_mKey_eq {a b : Func} (h : mKey a = mKey b) : Id a = Id b := by
  unfold mKey at h
  have h' : a.name = b.name ∧
      (if isExported a.name = true then "" else a.pkg) =
      (if isExported b.name = true then "" else b.pkg) := by
    simpa [toLex, Prod.ext_iff] using h
  obtain ⟨h1, h2⟩ := h'
  unfold Id
  rw [h1] at h2 ⊢
  cases hx : isExported b.name
  · simp [hx] at h2 ⊢
    simp [h2]
  · simp [hx]

theorem id_eq_of_mLe {a b : Func} (h1 : mLe a b) (h2 : mLe b a) : Id a = Id b := by
  rw [mLe_iff] at h1 h2
  exact id_eq_of_mKey_eq (le_antisymm h1 h2)

/-- two sorted lists that are permutations of each other and have pairwise
distinct identity keys are equal. -/
theorem sorted_perm_eq : ∀ {l₁ l₂ : List Func}, l₁.Perm l₂ →
    l₁.Sorted mLe → l₂.Sorted mLe →
    l₁.Pairwise (fun x y => Id x ≠ Id y) → l₁ = l₂
  | [], l₂, p, _, _, _ => by simpa using p.symm.eq_nil
  | a :: t₁, [], p, _, _, _ => by simpa using p.eq_nil
  | a :: t₁, b :: t₂, p, s₁, s₂, h => by
    have hab : a = b := by
      by_contra hne
      have hb : b ∈ a :: t₁ := p.symm.subset (by simp)
      have hbt : b ∈ t₁ := by
        rcases List.mem_cons.mp hb with h' | h'
        · exact absurd h'.symm hne
        · exact h'
      have ha : a ∈ b :: t₂ := p.subset (by simp)
      have hat : a ∈ t₂ := by
        rcases List.mem_cons.mp ha with h' | h'
        · exact absurd h' hne
        · exact h'
      have h1 : mLe a b := (List.sorted_cons.mp s₁).1 b hbt
      have h2 : mLe b a := (List.sorted_cons.mp s₂).1 a hat
      have := id_eq_of_mLe h1 h2
      exact ((List.pairwise_cons.mp h).1 b hbt) this
    subst hab
    have p' := p.cons_inv
    have := sorted_perm_eq p' (List.sorted_cons.mp s₁).2 (List.sorted_cons.mp s₂).2
      (List.pairwise_cons.mp h).2
    rw [this]

theorem sortMethods_sorted (l : List Func) : (sortMethods l).Sorted mLe :=
  List.sorted_insertionSort mLe l

theorem sortMethods_perm (l : List Func) : (sortMethods l).Perm l :=
  List.perm_insertionSort mLe l

theorem sortMethods_eq_of_perm {l₁ l₂ : List Func} (p : l₁.Perm l₂)
    (h : l₁.Pairwise (fun x y => Id x ≠ Id y)) : sortMethods l₁ = sortMethods l₂ := by
  have p' : (sortMethods l₁).Perm (sortMethods l₂) :=
    (sortMethods_perm l₁).trans (p.trans (sortMethods_perm l₂).symm)
  refine sorted_perm_eq p' (sortMethods_sorted l₁) (sortMethods_sorted l₂) ?_
  exact ((sortMethods_perm l₁).pairwise_iff (by intro x y h e; exact h e.symm)).mpr h

/-! Characterization of the objset insertion and of the add loops. -/

theorem completeInterface_succ (check : Option Checker) (fuel pos i : Nat) (s : CompState) :
    completeInterface check (fuel + 1) pos i s =
      (if (s.store.getD i {}).allMethods = none then
        match addExplicits check (s.store.getD i {}).methods {} (markSt s i) with
        | .error e => .error e
        | .ok (a, s2) =>
          match completeEmbeds check (completeInterface check fuel)
              (pairsOf check (s.store.getD i {})) a none s2 with
          | .error e => .error e
          | .ok (a2, allT, s3) =>
            match processTodo a2.todo with
            | some e => .error e
            | none => .ok (finalize s3 i a2 allT)
      else .error (.fatal "assertion failed")) := rfl

theorem seenLookup_none_iff {seen : List (String × Func)} {id : String} :
    seenLookup seen id = none ↔ id ∉ seen.map Prod.fst := by
  unfold seenLookup
  rcases hf : List.find? (fun p => decide (p.1 = id)) seen with _ | p
  · rw [hf]
    simp only [List.find?_eq_none, decide_eq_true_eq] at hf
    constructor
    · intro _
      simp only [List.mem_map, not_exists]
      rintro q ⟨hq, he⟩
      exact hf q hq he
    · intro _
      rfl
  · rw [hf]
    have h2 := List.find?_some hf
    have h3 := List.mem_of_find?_eq_some hf
    simp only [decide_eq_true_eq] at h2
    constructor
    · intro hc
      exact absurd hc (by simp)
    · intro hc
      exact absurd (List.mem_map.mpr ⟨p, h3, h2⟩) hc

theorem addMethod_fresh {check : Option Checker} {a : AddSt} {s : CompState} {pos : Nat}
    {m : Func} {explicit : Bool} (h : seenLookup a.seen (Id m) = none) :
    addMethod check a s pos m explicit =
      .ok ({ a with
             seen := a.seen ++ [(Id m, m)],
             methods := a.methods ++ [m],
             mpos := a.mpos ++ [(m, pos)] }, s) := by
  unfold addMethod
  rw [h]

theorem addMethod_dup_explicit_checked {c : Checker} {a : AddSt} {s : CompState}
    {pos : Nat} {m other : Func} (h : seenLookup a.seen (Id m) = some other) :
    addMethod (some c) a s pos m true =
      .ok (a, { s with errs := s.errs ++ [.dupMethod pos m.name (mposGet a.mpos other)] }) := by
  unfold addMethod
  rw [h]
  simp

theorem addMethod_dup_explicit_nochecker {a : AddSt} {s : CompState}
    {pos : Nat} {m other : Func} (h : seenLookup a.seen (Id m) = some other) :
    addMethod none a s pos m true =
      .error (.fatal (toString m.pos ++ ": duplicate method " ++ m.name)) := by
  unfold addMethod
  rw [h]
  simp

theorem addMethod_dup_inherited_checked {c : Checker} {a : AddSt} {s : CompState}
    {pos : Nat} {m other : Func} (h : seenLookup a.seen (Id m) = some other) :
    addMethod (some c) a s pos m false =
      .ok (a, { s with delayed := s.delayed ++ [⟨pos, m, other, mposGet a.mpos other⟩] }) := by
  unfold addMethod
  rw [h]
  simp

theorem addMethod_dup_inherited_nochecker {a : AddSt} {s : CompState}
    {pos : Nat} {m other : Func} (h : seenLookup a.seen (Id m) = some other) :
    addMethod none a s pos m false =
      .ok ({ a with todo := a.todo ++ [(m, other)] }, s) := by
  unfold addMethod
  rw [h]
  simp

theorem addMethod_ok_store {check : Option Checker} {a : AddSt} {s : CompState} {pos : Nat}
    {m : Func} {x : Bool} {a1 : AddSt} {s1 : CompState}
    (h : addMethod check a s pos m x = .ok (a1, s1)) : s1.store = s.store := by
  cases hl : seenLookup a.seen (Id m) with
  | none =>
    rw [addMethod_fresh hl] at h
    simp only [Except.ok.injEq, Prod.mk.injEq] at h
    rw [← h.2]
  | some other =>
    cases x with
    | false =>
      cases check with
      | none =>
        rw [addMethod_dup_inherited_nochecker hl] at h
        simp only [Except.ok.injEq, Prod.mk.injEq] at h
        rw [← h.2]
      | some c =>
        rw [addMethod_dup_inherited_checked hl] at h
        simp only [Except.ok.injEq, Prod.mk.injEq] at h
        rw [← h.2]
    | true =>
      cases check with
      | none =>
        rw [addMethod_dup_explicit_nochecker hl] at h
        simp at h
      | some c =>
        rw [addMethod_dup_explicit_checked hl] at h
        simp only [Except.ok.injEq, Prod.mk.injEq] at h
        rw [← h.2]

theorem addMethod_ok_methods {check : Option Checker} {a : AddSt} {s : CompState} {pos : Nat}
    {m : Func} {x : Bool} {a1 : AddSt} {s1 : CompState}
    (h : addMethod check a s pos m x = .ok (a1, s1)) :
    a1.methods = a.methods ∨ a1.methods = a.methods ++ [m] := by
  cases hl : seenLookup a.seen (Id m) with
  | none =>
    rw [addMethod_fresh hl] at h
    simp only [Except.ok.injEq, Prod.mk.injEq] at h
    right
    rw [← h.1]
  | some other =>
    cases x with
    | false =>
      cases check with
      | none =>
        rw [addMethod_dup_inherited_nochecker hl] at h
        simp only [Except.ok.injEq, Prod.mk.injEq] at h
        left
        rw [← h.1]
      | some c =>
        rw [addMethod_dup_inherited_checked hl] at h
        simp only [Except.ok.injEq, Prod.mk.injEq] at h
        left
        rw [← h.1]
    | true =>
      cases check with
      | none =>
        rw [addMethod_dup_explicit_nochecker hl] at h
        simp at h
      | some c =>
        rw [addMethod_dup_explicit_checked hl] at h
        simp only [Except.ok.injEq, Prod.mk.injEq] at h
        left
        rw [← h.1]

/-- the completion-local invariant: collected methods have pairwise distinct
identity keys, and every collected identity key is recorded in the objset. -/
def addInv (a : AddSt) : Prop :=
  a.methods.Pairwise (fun x y => Id x ≠ Id y) ∧
  ∀ m ∈ a.methods, Id m ∈ a.seen.map Prod.fst

theorem addMethod_ok_inv {check : Option Checker} {a : AddSt} {s : CompState} {pos : Nat}
    {m : Func} {x : Bool} {a1 : AddSt} {s1 : CompState}
    (hi : addInv a) (h : addMethod check a s pos m x = .ok (a1, s1)) : addInv a1 := by
  cases hl : seenLookup a.seen (Id m) with
  | none =>
    rw [addMethod_fresh hl] at h
    simp only [Except.ok.injEq, Prod.mk.injEq] at h
    have hnm := seenLookup_none_iff.mp hl
    rw [← h.1]
    constructor
    · show (a.methods ++ [m]).Pairwise _
      rw [List.pairwise_append]
      refine ⟨hi.1, by simp, ?_⟩
      intro x hx y hy
      simp only [List.mem_singleton] at hy
      subst hy
      intro he
      exact hnm (he ▸ hi.2 x hx)
    · show ∀ m' ∈ a.methods ++ [m], Id m' ∈ (a.seen ++ [(Id m, m)]).map Prod.fst
      intro m' hm'
      simp only [List.map_append, List.mem_append]
      rcases List.mem_append.mp hm' with h' | h'
      · exact Or.inl (hi.2 m' h')
      · simp only [List.mem_singleton] at h'
        subst h'
        simp
  | some other =>
    cases x with
    | false =>
      cases check with
      | none =>
        rw [addMethod_dup_inherited_nochecker hl] at h
        simp only [Except.ok.injEq, Prod.mk.injEq] at h
        rw [← h.1]
        exact hi
      | some c =>
        rw [addMethod_dup_inherited_checked hl] at h
        simp only [Except.ok.injEq, Prod.mk.injEq] at h
        rw [← h.1]
        exact hi
    | true =>
      cases check with
      | none =>
        rw [addMethod_dup_explicit_nochecker hl] at h
        simp at h
      | some c =>
        rw [addMethod_dup_explicit_checked hl] at h
        simp only [Except.ok.injEq, Prod.mk.injEq] at h
        rw [← h.1]
        exact hi

theorem addExplicits_ok_store {check : Option Checker} :
    ∀ {ms : List Func} {a : AddSt} {s : CompState} {a1 : AddSt} {s1 : CompState},
    addExplicits check ms a s = .ok (a1, s1) → s1.store = s.store
  | [], a, s, a1, s1, h => by
    simp only [addExplicits, Except.ok.injEq, Prod.mk.injEq] at h
    rw [← h.2]
  | m :: ms, a, s, a1, s1, h => by
    simp only [addExplicits] at h
    cases hm : addMethod check a s m.pos m true <;> rw [hm] at h
    · simp at h
    · obtain ⟨a', s'⟩ := ‹AddSt × CompState›
      rw [addExplicits_ok_store h, addMethod_ok_store hm]

theorem addExplicits_ok_inv {check : Option Checker} :
    ∀ {ms : List Func} {a : AddSt} {s : CompState} {a1 : AddSt} {s1 : CompState},
    addInv a → addExplicits check ms a s = .ok (a1, s1) → addInv a1
  | [], a, s, a1, s1, hi, h => by
    simp only [addExplicits, Except.ok.injEq, Prod.mk.injEq] at h
    rw [← h.1]
    exact hi
  | m :: ms, a, s, a1, s1, hi, h => by
    simp only [addExplicits] at h
    cases hm : addMethod check a s m.pos m true <;> rw [hm] at h
    · simp at h
    · obtain ⟨a', s'⟩ := ‹AddSt × CompState›
      exact addExplicits_ok_inv (addMethod_ok_inv hi hm) h

theorem addInherited_ok_store {check : Option Checker} {pos : Nat} :
    ∀ {ms : List Func} {a : AddSt} {s : CompState} {a1 : AddSt} {s1 : CompState},
    addInherited check pos ms a s = .ok (a1, s1) → s1.store = s.store
  | [], a, s, a1, s1, h => by
    simp only [addInherited, Except.ok.injEq, Prod.mk.injEq] at h
    rw [← h.2]
  | m :: ms, a, s, a1, s1, h => by
    simp only [addInherited] at h
    cases hm : addMethod check a s pos m false <;> rw [hm] at h
    · simp at h
    · obtain ⟨a', s'⟩ := ‹AddSt × CompState›
      rw [addInherited_ok_store h, addMethod_ok_store hm]

theorem addInherited_ok_inv {check : Option Checker} {pos : Nat} :
    ∀ {ms : List Func} {a : AddSt} {s : CompState} {a1 : AddSt} {s1 : CompState},
    addInv a → addInherited check pos ms a s = .ok (a1, s1) → addInv a1
  | [], a, s, a1, s1, hi, h => by
    simp only [addInherited, Except.ok.injEq, Prod.mk.injEq] at h
    rw [← h.1]
    exact hi
  | m :: ms, a, s, a1, s1, hi, h => by
    simp only [addInherited] at h
    cases hm : addMethod check a s pos m false <;> rw [hm] at h
    · simp at h
    · obtain ⟨a', s'⟩ := ‹AddSt × CompState›
      exact addInherited_ok_inv (addMethod_ok_inv hi hm) h

/-! Preservation: completion never changes the static fields of any stored
interface, never touches an interface that was already complete, and
preserves the store length. -/

structure Pres (s t : CompState) : Prop where
  len : t.store.length = s.store.length
  static : ∀ j, (t.store.getD j {}).methods = (s.store.getD j {}).methods ∧
    (t.store.getD j {}).embeddeds = (s.store.getD j {}).embeddeds ∧
    (t.store.getD j {}).embPos = (s.store.getD j {}).embPos
  mono : ∀ j, (s.store.getD j {}).allMethods ≠ none →
    t.store.getD j {} = s.store.getD j {}

theorem Pres.refl (s : CompState) : Pres s s :=
  ⟨rfl, fun _ => ⟨rfl, rfl, rfl⟩, fun _ _ => rfl⟩

theorem Pres.comp {s t u : CompState} (h1 : Pres s t) (h2 : Pres t u) : Pres s u := by
  refine ⟨h2.len.trans h1.len, ?_, ?_⟩
  · intro j
    obtain ⟨m2, e2, p2⟩ := h2.static j
    obtain ⟨m1, e1, p1⟩ := h1.static j
    exact ⟨m2.trans m1, e2.trans e1, p2.trans p1⟩
  · intro j hj
    have h1' := h1.mono j hj
    have h2' := h2.mono j (by rw [h1']; exact hj)
    rw [h2', h1']

theorem Pres.of_store_eq {s t : CompState} (h : t.store = s.store) : Pres s t :=
  ⟨by rw [h], fun _ => by rw [h]; exact ⟨rfl, rfl, rfl⟩, fun _ _ => by rw [h]⟩

theorem markSt_pres {s : CompState} {i : Nat}
    (h : (s.store.getD i {}).allMethods = none) : Pres s (markSt s i) := by
  refine ⟨by simp [markSt], ?_, ?_⟩
  · intro j
    rcases eq_or_ne i j with rfl | hne
    · rcases lt_or_le i s.store.length with hlt | hle
      · rw [markSt, getD_set_self _ _ _ _ hlt]
        exact ⟨rfl, rfl, rfl⟩
      · rw [markSt]
        simp only []
        rw [List.set_eq_of_length_le hle]
        exact ⟨rfl, rfl, rfl⟩
    · rw [markSt]
      simp only []
      rw [getD_set_ne _ _ _ _ _ hne]
      exact ⟨rfl, rfl, rfl⟩
  · intro j hj
    have hne : i ≠ j := by
      rintro rfl
      exact hj h
    rw [markSt]
    simp only []
    rw [getD_set_ne _ _ _ _ _ hne]

theorem markSt_getD_self {s : CompState} {i : Nat} (hlt : i < s.store.length) :
    (markSt s i).store.getD i {} = { s.store.getD i {} with allMethods := some [] } := by
  rw [markSt]
  exact getD_set_self _ _ _ _ hlt

theorem finalize_static {s3 : CompState} {i : Nat} {a2 : AddSt} {allT : Option TermSet} :
    ∀ j, ((finalize s3 i a2 allT).store.getD j {}).methods = (s3.store.getD j {}).methods ∧
      ((finalize s3 i a2 allT).store.getD j {}).embeddeds = (s3.store.getD j {}).embeddeds ∧
      ((finalize s3 i a2 allT).store.getD j {}).embPos = (s3.store.getD j {}).embPos := by
  intro j
  rcases eq_or_ne i j with rfl | hne
  · rcases lt_or_le i s3.store.length with hlt | hle
    · rw [finalize]
      simp only []
      rw [getD_set_self _ _ _ _ hlt]
      split <;> exact ⟨rfl, rfl, rfl⟩
    · rw [finalize]
      simp only []
      rw [List.set_eq_of_length_le hle]
      exact ⟨rfl, rfl, rfl⟩
  · rw [finalize]
    simp only []
    rw [getD_set_ne _ _ _ _ _ hne]
    exact ⟨rfl, rfl, rfl⟩

theorem finalize_getD_ne {s3 : CompState} {i j : Nat} {a2 : AddSt} {allT : Option TermSet}
    (hne : i ≠ j) : (finalize s3 i a2 allT).store.getD j {} = s3.store.getD j {} := by
  rw [finalize]
  simp only []
  rw [getD_set_ne _ _ _ _ _ hne]

theorem finalize_getD_self_allMethods {s3 : CompState} {i : Nat} {a2 : AddSt}
    {allT : Option TermSet} (hlt : i < s3.store.length) :
    ((finalize s3 i a2 allT).store.getD i {}).allMethods =
      (if a2.methods = [] then (s3.store.getD i {}).allMethods
       else some (sortMethods a2.methods)) := by
  unfold finalize
  simp only []
  rw [getD_set_self _ _ _ _ hlt]
  by_cases hm : a2.methods = [] <;> simp [hm]

theorem finalize_getD_self_allTypes {s3 : CompState} {i : Nat} {a2 : AddSt}
    {allT : Option TermSet} (hlt : i < s3.store.length) :
    ((finalize s3 i a2 allT).store.getD i {}).allTypes = allT := by
  unfold finalize
  simp only []
  rw [getD_set_self _ _ _ _ hlt]

theorem finalize_len {s3 : CompState} {i : Nat} {a2 : AddSt} {allT : Option TermSet} :
    (finalize s3 i a2 allT).store.length = s3.store.length := by
  simp [finalize]

theorem completeEmbeds_pres {check : Option Checker}
    {recur : Nat → Nat → CompState → Except Failure CompState}
    (hrec : ∀ pos j sa sb, recur pos j sa = .ok sb → Pres sa sb) :
    ∀ {pairs : List (EType × Nat)} {a : AddSt} {allT : Option TermSet} {s : CompState}
      {a1 : AddSt} {allT1 : Option TermSet} {s1 : CompState},
    completeEmbeds check recur pairs a allT s = .ok (a1, allT1, s1) → Pres s s1
  | [], a, allT, s, a1, allT1, s1, h => by
    simp only [completeEmbeds, Except.ok.injEq, Prod.mk.injEq] at h
    rw [← h.2.2]
    exact Pres.refl s
  | (t, pos) :: rest, a, allT, s, a1, allT1, s1, h => by
    cases t with
    | iface k j =>
      simp only [completeEmbeds] at h
      split at h
      next e heq => simp at h
      next sI heq =>
        have hpres1 : Pres s sI := by
          by_cases hg : (s.store.getD j {}).allMethods = none
          · rw [if_pos hg] at heq
            exact hrec pos j s sI heq
          · rw [if_neg hg] at heq
            cases heq
            exact Pres.refl s
        split at h
        next e heq2 => simp at h
        next a' s2 heq2 =>
          have hpres2 : Pres sI s2 := Pres.of_store_eq (addInherited_ok_store heq2)
          exact (hpres1.comp hpres2).comp (completeEmbeds_pres hrec h)
    | union ts =>
      simp only [completeEmbeds] at h
      exact completeEmbeds_pres hrec h
    | typeParam ts =>
      simp only [completeEmbeds] at h
      split at h
      next c =>
        split at h
        · exact completeEmbeds_pres hrec h
        · refine Pres.comp (Pres.of_store_eq ?_) (completeEmbeds_pres hrec h)
          rfl
      next =>
        exact completeEmbeds_pres hrec h
    | invalid =>
      simp only [completeEmbeds] at h
      exact completeEmbeds_pres hrec h
    | other k u =>
      simp only [completeEmbeds] at h
      split at h
      next c =>
        split at h
        · exact completeEmbeds_pres hrec h
        · refine Pres.comp (Pres.of_store_eq ?_) (completeEmbeds_pres hrec h)
          rfl
      next =>
        exact completeEmbeds_pres hrec h

theorem completeInterface_pres : ∀ (fuel : Nat) {check : Option Checker} {pos i : Nat}
    {s s' : CompState}, completeInterface check fuel pos i s = .ok s' →
    Pres s s' ∧ (i < s.store.length → (s'.store.getD i {}).allMethods ≠ none)
  | 0, check, pos, i, s, s', h => by simp [completeInterface] at h
  | fuel + 1, check, pos, i, s, s', h => by
    rw [completeInterface_succ] at h
    split at h
    case isFalse => simp at h
    case isTrue hnone =>
      split at h
      next e hE => simp at h
      next a s2 hE =>
        split at h
        next e hC => simp at h
        next a2 allT s3 hC =>
          split at h
          next e hT => simp at h
          next hT =>
            simp only [Except.ok.injEq] at h
            subst h
            have pres1 : Pres s (markSt s i) := markSt_pres hnone
            have pres2 : Pres (markSt s i) s2 := Pres.of_store_eq (addExplicits_ok_store hE)
            have pres3 : Pres s2 s3 :=
              completeEmbeds_pres (fun p j sa sb hh => (completeInterface_pres fuel hh).1) hC
            have presAll : Pres s s3 := (pres1.comp pres2).comp pres3
            have hlen3 : s3.store.length = s.store.length := presAll.len
            constructor
            · refine ⟨?_, ?_, ?_⟩
              · rw [finalize_len, hlen3]
              · intro j
                obtain ⟨f1, f2, f3⟩ := @finalize_static s3 i a2 allT j
                obtain ⟨g1, g2, g3⟩ := presAll.static j
                exact ⟨f1.trans g1, f2.trans g2, f3.trans g3⟩
              · intro j hj
                have hne : i ≠ j := by
                  rintro rfl
                  exact hj hnone
                rw [finalize_getD_ne hne, presAll.mono j hj]
            · intro hlt
              have hltm : i < (markSt s i).store.length := by
                simpa [markSt] using hlt
              have hcomp : ((markSt s i).store.getD i {}).allMethods = some [] := by
                rw [markSt_getD_self hlt]
              have h23 : Pres (markSt s i) s3 := pres2.comp pres3
              have hs3i : s3.store.getD i {} = (markSt s i).store.getD i {} :=
                h23.mono i (by rw [hcomp]; simp)
              have hlt3 : i < s3.store.length := by rw [hlen3]; exact hlt
              rw [finalize_getD_self_allMethods hlt3, hs3i, hcomp]
              split <;> simp

/-! Idempotence of the guarded completion entry point. -/

/-- C3: a second call to complete on an already-completed interface value is
a no-op returning the state unchanged. -/
theorem completion_idempotent {check check2 : Option Checker} {fuel fuel2 pos pos2 i : Nat}
    {s s' : CompState} (hlt : i < s.store.length)
    (h : checkerCompleteInterface check fuel pos i s = .ok s') :
    checkerCompleteInterface check2 fuel2 pos2 i s' = .ok s' := by
  unfold checkerCompleteInterface at h ⊢
  split at h
  · cases check with
    | none => simp at h
    | some c =>
      cases fuel with
      | zero => simp [completeInterface] at h
      | succ fuel =>
        have hcompl := (completeInterface_pres (fuel + 1) h).2 hlt
        rw [if_neg hcompl]
  · next hcompl =>
    simp only [Except.ok.injEq] at h
    subst h
    rw [if_neg hcompl]

/-! Sortedness and key-uniqueness of completed closures. -/

/-- a store entry is good when its closure, if resolved, is canonically
sorted and free of duplicate identity keys. -/
def goodIface (it : Iface) : Prop :=
  match it.allMethods with
  | none => True
  | some ms => ms.Sorted mLe ∧ ms.Pairwise (fun x y => Id x ≠ Id y)

instance (it : Iface) : Decidable (goodIface it) :=
  match h : it.allMethods with
  | none => .isTrue (by unfold goodIface; rw [h]; trivial)
  | some ms =>
    decidable_of_iff (ms.Sorted mLe ∧ ms.Pairwise (fun x y => Id x ≠ Id y))
      (by unfold goodIface; rw [h])

/-- every entry of the store is good. -/
def goodStore (s : CompState) : Prop := ∀ it ∈ s.store, goodIface it

instance (s : CompState) : Decidable (goodStore s) :=
  inferInstanceAs (Decidable (∀ it ∈ s.store, goodIface it))

theorem goodStore_getD {s : CompState} (hg : goodStore s) (i : Nat) :
    goodIface (s.store.getD i {}) := by
  rcases lt_or_le i s.store.length with hlt | hle
  · have : s.store.getD i {} ∈ s.store := by
      rw [List.getD_eq_getElem _ _ hlt]
      exact List.getElem_mem _
    exact hg _ this
  · rw [getD_default _ _ _ hle]
    trivial

theorem goodIface_sentinel (it : Iface) : goodIface { it with allMethods := some [] } := by
  unfold goodIface
  exact ⟨List.sorted_nil, List.Pairwise.nil⟩

theorem goodStore_set {s : CompState} {i : Nat} {x : Iface}
    (hg : goodStore s) (hx : goodIface x) :
    goodStore { s with store := s.store.set i x } := by
  intro it hit
  rcases List.mem_or_eq_of_mem_set hit with h' | h'
  · exact hg it h'
  · rw [h']
    exact hx

theorem completeEmbeds_good {check : Option Checker}
    {recur : Nat → Nat → CompState → Except Failure CompState}
    (hrec : ∀ pos j sa sb, recur pos j sa = .ok sb → goodStore sa → goodStore sb) :
    ∀ {pairs : List (EType × Nat)} {a : AddSt} {allT : Option TermSet} {s : CompState}
      {a1 : AddSt} {allT1 : Option TermSet} {s1 : CompState},
    completeEmbeds check recur pairs a allT s = .ok (a1, allT1, s1) →
    goodStore s → addInv a → goodStore s1 ∧ addInv a1
  | [], a, allT, s, a1, allT1, s1, h, hg, ha => by
    simp only [completeEmbeds, Except.ok.injEq, Prod.mk.injEq] at h
    obtain ⟨h1, _, h3⟩ := h
    rw [← h1, ← h3]
    exact ⟨hg, ha⟩
  | (t, pos) :: rest, a, allT, s, a1, allT1, s1, h, hg, ha => by
    cases t with
    | iface k j =>
      simp only [completeEmbeds] at h
      split at h
      next e heq => simp at h
      next sI heq =>
        have hgI : goodStore sI := by
          by_cases hgd : (s.store.getD j {}).allMethods = none
          · rw [if_pos hgd] at heq
            exact hrec pos j s sI heq hg
          · rw [if_neg hgd] at heq
            cases heq
            exact hg
        split at h
        next e heq2 => simp at h
        next a' s2 heq2 =>
          have hg2 : goodStore s2 := by
            intro it hit
            rw [addInherited_ok_store heq2] at hit
            exact hgI it hit
          exact completeEmbeds_good hrec h hg2 (addInherited_ok_inv ha heq2)
    | union ts =>
      simp only [completeEmbeds] at h
      exact completeEmbeds_good hrec h hg ha
    | typeParam ts =>
      simp only [completeEmbeds] at h
      split at h
      next c =>
        split at h
        · exact completeEmbeds_good hrec h hg ha
        · exact completeEmbeds_good hrec h hg ha
      next =>
        exact completeEmbeds_good hrec h hg ha
    | invalid =>
      simp only [completeEmbeds] at h
      exact completeEmbeds_good hrec h hg ha
    | other k u =>
      simp only [completeEmbeds] at h
      split at h
      next c =>
        split at h
        · exact completeEmbeds_good hrec h hg ha
        · exact completeEmbeds_good hrec h hg ha
      next =>
        exact completeEmbeds_good hrec h hg ha

theorem addInv_empty : addInv ({} : AddSt) := by
  exact ⟨List.Pairwise.nil, by intro m hm; simp at hm⟩

theorem goodIface_of_allMethods_none {it : Iface} (h : it.allMethods = none) :
    goodIface it := by
  unfold goodIface
  rw [h]
  trivial

theorem goodIface_of_allMethods_some {it : Iface} {ms : List Func}
    (h : it.allMethods = some ms) (h1 : ms.Sorted mLe)
    (h2 : ms.Pairwise (fun x y => Id x ≠ Id y)) : goodIface it := by
  unfold goodIface
  rw [h]
  exact ⟨h1, h2⟩

theorem finalize_good {s3 : CompState} {i : Nat} {a2 : AddSt} {allT : Option TermSet}
    (hg : goodStore s3) (ha : addInv a2) : goodStore (finalize s3 i a2 allT) := by
  unfold finalize
  simp only []
  refine goodStore_set hg ?_
  by_cases hm : a2.methods = []
  · rw [if_pos hm]
    cases hAM : (s3.store.getD i {}).allMethods with
    | none => exact goodIface_of_allMethods_none rfl
    | some ms =>
      have hgi := goodStore_getD hg i
      unfold goodIface at hgi
      rw [hAM] at hgi
      obtain ⟨hs, hp⟩ := hgi
      exact goodIface_of_allMethods_some rfl hs hp
  · rw [if_neg hm]
    refine @goodIface_of_allMethods_some _ (sortMethods a2.methods) (by simp) ?_ ?_
    · exact sortMethods_sorted _
    · exact ((sortMethods_perm a2.methods).pairwise_iff
        (by intro x y h e; exact h e.symm)).mpr ha.1

theorem completeInterface_good : ∀ (fuel : Nat) {check : Option Checker} {pos i : Nat}
    {s s' : CompState}, completeInterface check fuel pos i s = .ok s' →
    goodStore s → goodStore s'
  | 0, check, pos, i, s, s', h, hg => by simp [completeInterface] at h
  | fuel + 1, check, pos, i, s, s', h, hg => by
    rw [completeInterface_succ] at h
    split at h
    case isFalse => simp at h
    case isTrue hnone =>
      split at h
      next e hE => simp at h
      next a s2 hE =>
        split at h
        next e hC => simp at h
        next a2 allT s3 hC =>
          split at h
          next e hT => simp at h
          next hT =>
            simp only [Except.ok.injEq] at h
            subst h
            have hgm : goodStore (markSt s i) :=
              goodStore_set hg (goodIface_sentinel _)
            have hg2 : goodStore s2 := by
              intro it hit
              rw [addExplicits_ok_store hE] at hit
              exact hgm it hit
            have ha2 := completeEmbeds_good
              (fun p j sa sb hh hga => completeInterface_good fuel hh hga) hC hg2
              (addExplicits_ok_inv addInv_empty hE)
            exact finalize_good ha2.1 ha2.2

/-- C4: after completion every resolved closure in the store, and in
particular the completed interface's own closure when non-empty, is sorted
by the canonical method ordering and contains no two entries with the same
identity key. -/
theorem closure_sorted_nodup {check : Option Checker} {fuel pos i : Nat}
    {s s' : CompState} (hg : goodStore s)
    (h : completeInterface check fuel pos i s = .ok s') :
    goodStore s' ∧ ∀ ms, (s'.store.getD i {}).allMethods = some ms →
      ms.Sorted mLe ∧ ms.Pairwise (fun x y => Id x ≠ Id y) := by
  have hgs := completeInterface_good fuel h hg
  refine ⟨hgs, ?_⟩
  intro ms hms
  have hgi := goodStore_getD hgs i
  unfold goodIface at hgi
  rw [hms] at hgi
  exact hgi

/-- C5: two explicit methods with the same identity key produce exactly one
duplicate-method diagnostic carrying both declaration positions, and the
later method is not added to the closure: the first occurrence wins. -/
theorem explicit_duplicate_first_wins {c : Checker} {fuel pos i : Nat} {s : CompState}
    {m1 m2 : Func} (hlt : i < s.store.length)
    (hentry : s.store.getD i {} = { methods := [m1, m2] })
    (hdup : Id m2 = Id m1) :
    ∃ s', completeInterface (some c) (fuel + 1) pos i s = .ok s' ∧
      s'.errs = s.errs ++ [.dupMethod m2.pos m2.name m1.pos] ∧
      (s'.store.getD i {}).allMethods = some [m1] ∧
      s'.delayed = s.delayed := by
  have hno : (s.store.getD i {}).allMethods = none := by rw [hentry]
  have hmeth : (s.store.getD i {}).methods = [m1, m2] := by rw [hentry]
  have hemb : pairsOf (some c) (s.store.getD i {}) = [] := by rw [hentry]; rfl
  have h1 : seenLookup ({} : AddSt).seen (Id m1) = none := rfl
  have h2 : seenLookup ((⟨[(Id m1, m1)], [m1], [(m1, m1.pos)], []⟩ : AddSt)).seen (Id m2) =
      some m1 := by
    simp [seenLookup, hdup]
  have hadd : addExplicits (some c) [m1, m2] {} (markSt s i) =
      .ok ((⟨[(Id m1, m1)], [m1], [(m1, m1.pos)], []⟩ : AddSt),
        { markSt s i with
          errs := (markSt s i).errs ++ [.dupMethod m2.pos m2.name m1.pos] }) := by
    show ((match addMethod (some c) {} (markSt s i) m1.pos m1 true with
      | Except.error e => Except.error e
      | Except.ok (a1, s1) => addExplicits (some c) [m2] a1 s1) :
        Except Failure (AddSt × CompState)) = _
    rw [addMethod_fresh h1]
    show ((match addMethod (some c) ⟨[(Id m1, m1)], [m1], [(m1, m1.pos)], []⟩ (markSt s i)
        m2.pos m2 true with
      | Except.error e => Except.error e
      | Except.ok (a1, s1) => addExplicits (some c) [] a1 s1) :
        Except Failure (AddSt × CompState)) = _
    rw [addMethod_dup_explicit_checked h2]
    simp [mposGet, addExplicits]
  refine ⟨finalize { markSt s i with
      errs := (markSt s i).errs ++ [.dupMethod m2.pos m2.name m1.pos] } i
      ⟨[(Id m1, m1)], [m1], [(m1, m1.pos)], []⟩ none, ?_, ?_, ?_, ?_⟩
  · rw [completeInterface_succ, if_pos hno, hmeth, hemb, hadd]
    rfl
  · rfl
  · have hlt2 : i < ({ markSt s i with
        errs := (markSt s i).errs ++ [.dupMethod m2.pos m2.name m1.pos] } :
        CompState).store.length := by
      simpa [markSt] using hlt
    rw [finalize_getD_self_allMethods hlt2]
    rw [if_neg (by simp)]
    rfl
  · rfl

/-- C6: without a diagnostics sink, an explicit duplicate identity key and
an inherited duplicate with structurally different signatures are both fatal
internal-invariant panics, the latter raised synchronously inside the same
completion call (queued pairs are checked before the call returns). -/
theorem nosink_conflicts_panic :
    (∀ (fuel pos i : Nat) (s : CompState) (m1 m2 : Func),
      (s.store.getD i {}).methods = [m1, m2] →
      (s.store.getD i {}).allMethods = none →
      Id m2 = Id m1 →
      completeInterface none (fuel + 1) pos i s =
        .error (.fatal (toString m2.pos ++ ": duplicate method " ++ m2.name))) ∧
    (∀ (fuel pos i j : Nat) (s : CompState) (m m' : Func) (k : Option ObjKey),
      s.store.getD i {} = { methods := [m], embeddeds := [.iface k j] } →
      j ≠ i →
      (s.store.getD j {}).allMethods = some [m'] →
      Id m' = Id m →
      ¬ m'.sig = m.sig →
      completeInterface none (fuel + 1) pos i s =
        .error (.fatal (toString m'.pos ++ ": duplicate method " ++ m'.name))) := by
  constructor
  · intro fuel pos i s m1 m2 hmeth hno hdup
    have h1 : seenLookup ({} : AddSt).seen (Id m1) = none := rfl
    have h2 : seenLookup ((⟨[(Id m1, m1)], [m1], [(m1, m1.pos)], []⟩ : AddSt)).seen (Id m2) =
        some m1 := by
      simp [seenLookup, hdup]
    have hadd : addExplicits none [m1, m2] {} (markSt s i) =
        .error (.fatal (toString m2.pos ++ ": duplicate method " ++ m2.name)) := by
      show ((match addMethod none {} (markSt s i) m1.pos m1 true with
        | Except.error e => Except.error e
        | Except.ok (a1, s1) => addExplicits none [m2] a1 s1) :
          Except Failure (AddSt × CompState)) = _
      rw [addMethod_fresh h1]
      show ((match addMethod none ⟨[(Id m1, m1)], [m1], [(m1, m1.pos)], []⟩ (markSt s i)
          m2.pos m2 true with
        | Except.error e => Except.error e
        | Except.ok (a1, s1) => addExplicits none [] a1 s1) :
          Except Failure (AddSt × CompState)) = _
      rw [addMethod_dup_explicit_nochecker h2]
    rw [completeInterface_succ, if_pos hno, hmeth, hadd]
  · intro fuel pos i j s m m' k hentry hji hj hdup hsig
    have hno : (s.store.getD i {}).allMethods = none := by rw [hentry]
    have hmeth : (s.store.getD i {}).methods = [m] := by rw [hentry]
    have hemb : pairsOf none (s.store.getD i {}) = [(.iface k j, 0)] := by
      rw [hentry]; rfl
    have h1 : seenLookup ({} : AddSt).seen (Id m) = none := rfl
    have hadd : addExplicits none [m] {} (markSt s i) =
        .ok ((⟨[(Id m, m)], [m], [(m, m.pos)], []⟩ : AddSt), markSt s i) := by
      show ((match addMethod none {} (markSt s i) m.pos m true with
        | Except.error e => Except.error e
        | Except.ok (a1, s1) => addExplicits none [] a1 s1) :
          Except Failure (AddSt × CompState)) = _
      rw [addMethod_fresh h1]
      rfl
    have hjm : ((markSt s i).store.getD j {}).allMethods = some [m'] := by
      rw [markSt]
      show ((s.store.set i _).getD j {}).allMethods = _
      rw [getD_set_ne _ _ _ _ _ (by omega)]
      exact hj
    have h2 : seenLookup ((⟨[(Id m, m)], [m], [(m, m.pos)], []⟩ : AddSt)).seen (Id m') =
        some m := by
      simp [seenLookup, hdup]
    have hinh : addInherited none 0 [m'] ⟨[(Id m, m)], [m], [(m, m.pos)], []⟩ (markSt s i) =
        .ok ((⟨[(Id m, m)], [m], [(m, m.pos)], [(m', m)]⟩ : AddSt), markSt s i) := by
      show ((match addMethod none ⟨[(Id m, m)], [m], [(m, m.pos)], []⟩ (markSt s i)
          0 m' false with
        | Except.error e => Except.error e
        | Except.ok (a1, s1) => addInherited none 0 [] a1 s1) :
          Except Failure (AddSt × CompState)) = _
      rw [addMethod_dup_inherited_nochecker h2]
      rfl
    have hembrun : completeEmbeds none (completeInterface none fuel) [(.iface k j, 0)]
        ⟨[(Id m, m)], [m], [(m, m.pos)], []⟩ none (markSt s i) =
        .ok ((⟨[(Id m, m)], [m], [(m, m.pos)], [(m', m)]⟩ : AddSt),
          intersect none ((markSt s i).store.getD j {}).allTypes, markSt s i) := by
      show ((match (if ((markSt s i).store.getD j {}).allMethods = none
          then completeInterface none fuel 0 j (markSt s i) else Except.ok (markSt s i)) with
        | Except.error e => Except.error e
        | Except.ok s1 =>
          match addInherited none 0 ((s1.store.getD j {}).allMethods.getD [])
              ⟨[(Id m, m)], [m], [(m, m.pos)], []⟩ s1 with
          | Except.error e => Except.error e
          | Except.ok (a1, s2) => completeEmbeds none (completeInterface none fuel) [] a1
              (intersect none ((s1.store.getD j {}).allTypes)) s2) :
          Except Failure (AddSt × Option TermSet × CompState)) = _
      rw [if_neg (by rw [hjm]; simp)]
      show ((match addInherited none 0 (((markSt s i).store.getD j {}).allMethods.getD [])
          ⟨[(Id m, m)], [m], [(m, m.pos)], []⟩ (markSt s i) with
        | Except.error e => Except.error e
        | Except.ok (a1, s2) => completeEmbeds none (completeInterface none fuel) [] a1
            (intersect none ((markSt s i).store.getD j {}).allTypes) s2) :
          Except Failure (AddSt × Option TermSet × CompState)) = _
      rw [hjm]
      show ((match addInherited none 0 [m']
          ⟨[(Id m, m)], [m], [(m, m.pos)], []⟩ (markSt s i) with
        | Except.error e => Except.error e
        | Except.ok (a1, s2) => completeEmbeds none (completeInterface none fuel) [] a1
            (intersect none ((markSt s i).store.getD j {}).allTypes) s2) :
          Except Failure (AddSt × Option TermSet × CompState)) = _
      rw [hinh]
      rfl
    have htodo : processTodo [(m', m)] =
        some (.fatal (toString m'.pos ++ ": duplicate method " ++ m'.name)) := by
      unfold processTodo
      rw [if_neg hsig]
    rw [completeInterface_succ, if_pos hno, hmeth, hadd, hemb]
    show ((match completeEmbeds none (completeInterface none fuel) [(.iface k j, 0)]
        ⟨[(Id m, m)], [m], [(m, m.pos)], []⟩ none (markSt s i) with
      | Except.error e => Except.error e
      | Except.ok (a2, allT, s3) =>
        match processTodo a2.todo with
        | some e => Except.error e
        | none => Except.ok (finalize s3 i a2 allT)) :
        Except Failure CompState) = _
    rw [hembrun]
    show ((match processTodo [(m', m)] with
      | some e => Except.error e
      | none => Except.ok (finalize (markSt s i) i ⟨[(Id m, m)], [m], [(m, m.pos)], [(m', m)]⟩
          (intersect none ((markSt s i).store.getD j {}).allTypes))) :
        Except Failure CompState) = _
    rw [htodo]

/-! Termination: with as much fuel as there are unresolved interfaces, the
sentinel discipline guarantees completion never runs out of fuel, even on
cyclic embedding graphs. -/

/-- the number of store entries whose closure is still unresolved. -/
def incompleteCount (s : CompState) : Nat :=
  s.store.countP (fun it => decide (it.allMethods = none))

/-- the index, if any, of the interface an embedded element points to. -/
def embOk (n : Nat) : EType → Prop
  | .iface _ j => j < n
  | _ => True

instance (n : Nat) (e : EType) : Decidable (embOk n e) :=
  match e with
  | .iface _ j => inferInstanceAs (Decidable (j < n))
  | .union _ => .isTrue trivial
  | .typeParam _ => .isTrue trivial
  | .invalid => .isTrue trivial
  | .other _ _ => .isTrue trivial

/-- a well-formed store: every embedded interface reference stays inside the
store. -/
def wfStore (s : CompState) : Prop :=
  ∀ it ∈ s.store, ∀ e ∈ it.embeddeds, embOk s.store.length e

instance (s : CompState) : Decidable (wfStore s) :=
  inferInstanceAs (Decidable (∀ it ∈ s.store, ∀ e ∈ it.embeddeds, embOk s.store.length e))

theorem countP_pointwise_le {α : Type} (p : α → Bool) (d : α) :
    ∀ {l₁ l₂ : List α}, l₂.length = l₁.length →
    (∀ j, j < l₁.length → p (l₂.getD j d) = true → p (l₁.getD j d) = true) →
    l₂.countP p ≤ l₁.countP p
  | [], [], _, _ => le_refl _
  | [], a :: l, hlen, _ => by simp at hlen
  | a :: l, [], hlen, _ => by simp [List.countP_nil]
  | a :: l₁, b :: l₂, hlen, hpt => by
    simp only [List.countP_cons]
    have h0 : p b = true → p a = true := by
      intro hb
      simpa using hpt 0 (by simp) (by simpa using hb)
    have ht : l₂.countP p ≤ l₁.countP p := by
      refine countP_pointwise_le p d (by simpa using hlen) ?_
      intro j hj hp
      simpa using hpt (j + 1) (by simpa using hj) (by simpa using hp)
    by_cases hb : p b = true
    · have ha := h0 hb
      simp only [hb, ha, if_true]
      omega
    · rw [if_neg hb]
      split <;> omega

theorem countP_set_plus_one {α : Type} (p : α → Bool) (d : α) :
    ∀ {l : List α} {i : Nat} {x : α}, i < l.length →
    p (l.getD i d) = true → p x = false →
    (l.set i x).countP p + 1 = l.countP p
  | [], i, x, hlt, _, _ => by simp at hlt
  | a :: l, 0, x, _, hold, hnew => by
    simp only [List.set, List.countP_cons]
    simp only [List.getD_cons_zero] at hold
    rw [hold, hnew]
    simp
  | a :: l, i + 1, x, hlt, hold, hnew => by
    simp only [List.set, List.countP_cons]
    have := countP_set_plus_one p d (l := l) (i := i) (x := x) (by simpa using hlt)
      (by simpa using hold) hnew
    omega

theorem countP_pos_of_getD {α : Type} (p : α → Bool) (d : α) {l : List α} {i : Nat}
    (hlt : i < l.length) (h : p (l.getD i d) = true) : 1 ≤ l.countP p := by
  have hm : l.getD i d ∈ l := by
    rw [List.getD_eq_getElem _ _ hlt]
    exact List.getElem_mem _
  have hp := (List.countP_pos_iff (p := p) (l := l)).mpr ⟨_, hm, h⟩
  omega

theorem Pres.wf {s t : CompState} (h : Pres s t) (hw : wfStore s) : wfStore t := by
  intro it hit e he
  obtain ⟨j, hj, hje⟩ := List.mem_iff_getElem.mp hit
  have hgd : t.store.getD j {} = it := by
    rw [List.getD_eq_getElem _ _ hj]
    exact hje
  have hjl : j < s.store.length := by
    rw [← h.len]
    exact hj
  have hemb := (h.static j).2.1
  have hsm : s.store.getD j {} ∈ s.store := by
    rw [List.getD_eq_getElem _ _ hjl]
    exact List.getElem_mem _
  have hin : e ∈ (s.store.getD j {}).embeddeds := by
    rw [← hemb, hgd]
    exact he
  have := hw _ hsm e hin
  rw [h.len]
  exact this

theorem Pres.count_le {s t : CompState} (h : Pres s t) :
    incompleteCount t ≤ incompleteCount s := by
  refine countP_pointwise_le _ ({} : Iface) h.len ?_
  intro j hj hp
  by_contra hc
  have hcompl : (s.store.getD j {}).allMethods ≠ none := by
    intro hn
    exact hc (decide_eq_true hn)
  have := h.mono j hcompl
  rw [this] at hp
  exact hc hp

theorem markSt_count {s : CompState} {i : Nat} (hlt : i < s.store.length)
    (hno : (s.store.getD i {}).allMethods = none) :
    incompleteCount (markSt s i) + 1 = incompleteCount s := by
  unfold incompleteCount markSt
  exact countP_set_plus_one _ {} hlt (by exact decide_eq_true hno) (by simp)

theorem addMethod_no_fuel {check : Option Checker} {a : AddSt} {s : CompState}
    {pos : Nat} {m : Func} {x : Bool} :
    addMethod check a s pos m x ≠ .error .fuel := by
  cases hl : seenLookup a.seen (Id m) with
  | none => rw [addMethod_fresh hl]; simp
  | some other =>
    cases x with
    | false =>
      cases check with
      | none => rw [addMethod_dup_inherited_nochecker hl]; simp
      | some c => rw [addMethod_dup_inherited_checked hl]; simp
    | true =>
      cases check with
      | none => rw [addMethod_dup_explicit_nochecker hl]; simp
      | some c => rw [addMethod_dup_explicit_checked hl]; simp

theorem addExplicits_no_fuel {check : Option Checker} :
    ∀ {ms : List Func} {a : AddSt} {s : CompState},
    addExplicits check ms a s ≠ .error .fuel
  | [], a, s => by simp [addExplicits]
  | m :: ms, a, s => by
    intro hbad
    simp only [addExplicits] at hbad
    split at hbad
    next e heq =>
      simp only [Except.error.injEq] at hbad
      exact addMethod_no_fuel (hbad ▸ heq)
    next a1 s1 heq =>
      exact addExplicits_no_fuel hbad

theorem addInherited_no_fuel {check : Option Checker} {pos : Nat} :
    ∀ {ms : List Func} {a : AddSt} {s : CompState},
    addInherited check pos ms a s ≠ .error .fuel
  | [], a, s => by simp [addInherited]
  | m :: ms, a, s => by
    intro hbad
    simp only [addInherited] at hbad
    split at hbad
    next e heq =>
      simp only [Except.error.injEq] at hbad
      exact addMethod_no_fuel (hbad ▸ heq)
    next a1 s1 heq =>
      exact addInherited_no_fuel hbad

theorem processTodo_no_fuel : ∀ {l : List (Func × Func)},
    processTodo l ≠ some .fuel
  | [] => by simp [processTodo]
  | (m, other) :: rest => by
    unfold processTodo
    split
    · exact processTodo_no_fuel
    · simp

theorem pairsOf_mem {check : Option Checker} {it : Iface} {tp : EType × Nat}
    (h : tp ∈ pairsOf check it) : tp.1 ∈ it.embeddeds := by
  unfold pairsOf at h
  cases check with
  | none =>
    simp only [List.mem_map] at h
    obtain ⟨t, ht, rfl⟩ := h
    exact ht
  | some c => exact (List.of_mem_zip h).1

theorem completeEmbeds_total {check : Option Checker} {fuel : Nat}
    {recur : Nat → Nat → CompState → Except Failure CompState}
    (hrecTot : ∀ pos j sa, wfStore sa → (sa.store.getD j {}).allMethods = none →
      j < sa.store.length → incompleteCount sa ≤ fuel → recur pos j sa ≠ .error .fuel)
    (hrecPres : ∀ pos j sa sb, recur pos j sa = .ok sb → Pres sa sb) :
    ∀ {pairs : List (EType × Nat)} {a : AddSt} {allT : Option TermSet} {s : CompState},
    wfStore s → incompleteCount s ≤ fuel →
    (∀ tp ∈ pairs, embOk s.store.length tp.1) →
    completeEmbeds check recur pairs a allT s ≠ .error .fuel
  | [], a, allT, s, hw, hcnt, hrange => by simp [completeEmbeds]
  | (t, pos) :: rest, a, allT, s, hw, hcnt, hrange => by
    intro hbad
    cases t with
    | iface k j =>
      have hjl : j < s.store.length := hrange (.iface k j, pos) (by simp)
      simp only [completeEmbeds] at hbad
      split at hbad
      next e heq =>
        simp only [Except.error.injEq] at hbad
        subst hbad
        by_cases hg : (s.store.getD j {}).allMethods = none
        · rw [if_pos hg] at heq
          exact hrecTot pos j s hw hg hjl hcnt heq
        · rw [if_neg hg] at heq
          simp at heq
      next sI heq =>
        have hpres : Pres s sI := by
          by_cases hg : (s.store.getD j {}).allMethods = none
          · rw [if_pos hg] at heq
            exact hrecPres pos j s sI heq
          · rw [if_neg hg] at heq
            cases heq
            exact Pres.refl s
        split at hbad
        next e heq2 =>
          simp only [Except.error.injEq] at hbad
          exact addInherited_no_fuel (hbad ▸ heq2)
        next a1 s2 heq2 =>
          have hpres2 : Pres s s2 :=
            hpres.comp (Pres.of_store_eq (addInherited_ok_store heq2))
          refine completeEmbeds_total hrecTot hrecPres (hpres2.wf hw)
            (le_trans hpres2.count_le hcnt) ?_ hbad
          intro tp htp
          have := hrange tp (by simp [htp])
          rw [hpres2.len]
          exact this
    | union ts =>
      simp only [completeEmbeds] at hbad
      exact completeEmbeds_total hrecTot hrecPres hw hcnt
        (fun tp htp => hrange tp (by simp [htp])) hbad
    | typeParam ts =>
      simp only [completeEmbeds] at hbad
      split at hbad
      next c =>
        split at hbad
        · exact completeEmbeds_total hrecTot hrecPres hw hcnt
            (fun tp htp => hrange tp (by simp [htp])) hbad
        · refine completeEmbeds_total hrecTot hrecPres ?_ ?_ ?_ hbad
          · intro it hit e he
            exact hw it hit e he
          · exact hcnt
          · intro tp htp
            exact hrange tp (by simp [htp])
      next =>
        exact completeEmbeds_total hrecTot hrecPres hw hcnt
          (fun tp htp => hrange tp (by simp [htp])) hbad
    | invalid =>
      simp only [completeEmbeds] at hbad
      exact completeEmbeds_total hrecTot hrecPres hw hcnt
        (fun tp htp => hrange tp (by simp [htp])) hbad
    | other k u =>
      simp only [completeEmbeds] at hbad
      split at hbad
      next c =>
        split at hbad
        · exact completeEmbeds_total hrecTot hrecPres hw hcnt
            (fun tp htp => hrange tp (by simp [htp])) hbad
        · refine completeEmbeds_total hrecTot hrecPres ?_ ?_ ?_ hbad
          · intro it hit e he
            exact hw it hit e he
          · exact hcnt
          · intro tp htp
            exact hrange tp (by simp [htp])
      next =>
        exact completeEmbeds_total hrecTot hrecPres hw hcnt
          (fun tp htp => hrange tp (by simp [htp])) hbad

theorem completeInterface_total : ∀ (fuel : Nat) {check : Option Checker} {pos i : Nat}
    {s : CompState}, wfStore s → (s.store.getD i {}).allMethods = none →
    i < s.store.length → incompleteCount s ≤ fuel →
    completeInterface check fuel pos i s ≠ .error .fuel
  | 0, check, pos, i, s, hw, hno, hlt, hcnt => by
    exfalso
    have := countP_pos_of_getD (fun it => decide (it.allMethods = none)) {} hlt
      (by exact decide_eq_true hno)
    unfold incompleteCount at hcnt
    omega
  | fuel + 1, check, pos, i, s, hw, hno, hlt, hcnt => by
    intro hbad
    rw [completeInterface_succ, if_pos hno] at hbad
    have hwm : wfStore (markSt s i) := (markSt_pres hno).wf hw
    have hcm : incompleteCount (markSt s i) ≤ fuel := by
      have := markSt_count hlt hno
      omega
    split at hbad
    next e hE =>
      simp only [Except.error.injEq] at hbad
      exact addExplicits_no_fuel (hbad ▸ hE)
    next a s2 hE =>
      have hs2 : s2.store = (markSt s i).store := addExplicits_ok_store hE
      have hw2 : wfStore s2 := by
        unfold wfStore
        rw [hs2]
        exact hwm
      have hc2 : incompleteCount s2 ≤ fuel := by
        unfold incompleteCount
        rw [hs2]
        exact hcm
      split at hbad
      next e hC =>
        simp only [Except.error.injEq] at hbad
        refine completeEmbeds_total
          (fun p j sa hwa hna hla hca => completeInterface_total fuel hwa hna hla hca)
          (fun p j sa sb hh => (completeInterface_pres fuel hh).1)
          hw2 hc2 ?_ (hbad ▸ hC)
        intro tp htp
        have h1 : tp.1 ∈ (s.store.getD i {}).embeddeds := pairsOf_mem htp
        have h2 : s.store.getD i {} ∈ s.store := by
          rw [List.getD_eq_getElem _ _ hlt]
          exact List.getElem_mem _
        have h3 := hw _ h2 _ h1
        rw [hs2]
        have hlen : (markSt s i).store.length = s.store.length := by simp [markSt]
        rw [hlen]
        exact h3
      next a2 allT s3 hC =>
        split at hbad
        next e hT =>
          simp only [Except.error.injEq] at hbad
          exact processTodo_no_fuel (hbad ▸ hT)
        next hT => simp at hbad

/-! Cycle safety: two states that agree everywhere except on the embedded
element list of one already-complete interface drive completion to related
results, and a self-referential embedding contributes nothing. -/

/-- agreement of two states up to the embedded-element list (and position
list) of the interface at index i: diagnostics, all other entries, and the
non-embedding fields of entry i coincide. -/
structure StEq (i : Nat) (s t : CompState) : Prop where
  errs : t.errs = s.errs
  delayed : t.delayed = s.delayed
  len : t.store.length = s.store.length
  agree : ∀ j, j ≠ i → t.store.getD j {} = s.store.getD j {}
  methods : (t.store.getD i {}).methods = (s.store.getD i {}).methods
  allM : (t.store.getD i {}).allMethods = (s.store.getD i {}).allMethods
  allT : (t.store.getD i {}).allTypes = (s.store.getD i {}).allTypes

theorem StEq.rfl' (i : Nat) (s : CompState) : StEq i s s :=
  ⟨rfl, rfl, rfl, fun _ _ => rfl, rfl, rfl, rfl⟩

theorem StEq.getD_allM {i : Nat} {s t : CompState} (h : StEq i s t) (j : Nat) :
    (t.store.getD j {}).allMethods = (s.store.getD j {}).allMethods := by
  rcases eq_or_ne j i with rfl | hne
  · exact h.allM
  · rw [h.agree j hne]

theorem StEq.getD_allT {i : Nat} {s t : CompState} (h : StEq i s t) (j : Nat) :
    (t.store.getD j {}).allTypes = (s.store.getD j {}).allTypes := by
  rcases eq_or_ne j i with rfl | hne
  · exact h.allT
  · rw [h.agree j hne]

theorem StEq.getD_closure {i : Nat} {s t : CompState} (h : StEq i s t) (j : Nat) :
    (t.store.getD j {}).allMethods.getD [] = (s.store.getD j {}).allMethods.getD [] := by
  rw [h.getD_allM j]

theorem StEq.append_err {i : Nat} {s t : CompState} (h : StEq i s t) (e : Err) :
    StEq i { s with errs := s.errs ++ [e] } { t with errs := t.errs ++ [e] } :=
  ⟨by rw [h.errs], h.delayed, h.len, h.agree, h.methods, h.allM, h.allT⟩

theorem StEq.append_delayed {i : Nat} {s t : CompState} (h : StEq i s t) (d : DelayedDup) :
    StEq i { s with delayed := s.delayed ++ [d] } { t with delayed := t.delayed ++ [d] } :=
  ⟨h.errs, by rw [h.delayed], h.len, h.agree, h.methods, h.allM, h.allT⟩

/-- result relation for the whole-state completion: equal failures, or
success states again agreeing up to the embeddings of entry i. -/
def resEqC (i : Nat) : Except Failure CompState → Except Failure CompState → Prop
  | .error e, .error e' => e' = e
  | .ok s, .ok t => StEq i s t
  | _, _ => False

/-- result relation for the add loops. -/
def resEqA (i : Nat) : Except Failure (AddSt × CompState) →
    Except Failure (AddSt × CompState) → Prop
  | .error e, .error e' => e' = e
  | .ok (a, s), .ok (a', t) => a' = a ∧ StEq i s t
  | _, _ => False

/-- result relation for the embedded-element fold. -/
def resEqE (i : Nat) : Except Failure (AddSt × Option TermSet × CompState) →
    Except Failure (AddSt × Option TermSet × CompState) → Prop
  | .error e, .error e' => e' = e
  | .ok (a, T, s), .ok (a', T', t) => a' = a ∧ T' = T ∧ StEq i s t
  | _, _ => False

theorem addMethod_bisim {i : Nat} {check : Option Checker} {a : AddSt} {pos : Nat}
    {m : Func} {x : Bool} {s t : CompState} (h : StEq i s t) :
    resEqA i (addMethod check a s pos m x) (addMethod check a t pos m x) := by
  cases hl : seenLookup a.seen (Id m) with
  | none =>
    rw [addMethod_fresh hl, addMethod_fresh hl]
    exact ⟨rfl, h⟩
  | some other =>
    cases x with
    | false =>
      cases check with
      | none =>
        rw [addMethod_dup_inherited_nochecker hl, addMethod_dup_inherited_nochecker hl]
        exact ⟨rfl, h⟩
      | some c =>
        rw [addMethod_dup_inherited_checked hl, addMethod_dup_inherited_checked hl]
        exact ⟨rfl, h.append_delayed _⟩
    | true =>
      cases check with
      | none =>
        rw [addMethod_dup_explicit_nochecker hl, addMethod_dup_explicit_nochecker hl]
        rfl
      | some c =>
        rw [addMethod_dup_explicit_checked hl, addMethod_dup_explicit_checked hl]
        exact ⟨rfl, h.append_err _⟩

theorem addExplicits_bisim {i : Nat} {check : Option Checker} :
    ∀ {ms : List Func} {a : AddSt} {s t : CompState}, StEq i s t →
    resEqA i (addExplicits check ms a s) (addExplicits check ms a t)
  | [], a, s, t, h => ⟨rfl, h⟩
  | m :: ms, a, s, t, h => by
    simp only [addExplicits]
    have hm := @addMethod_bisim i check a m.pos m true s t h
    cases hms : addMethod check a s m.pos m true with
    | error e =>
      cases hmt : addMethod check a t m.pos m true with
      | error e' =>
        rw [hms, hmt] at hm
        exact hm
      | ok q =>
        rw [hms, hmt] at hm
        exact hm.elim
    | ok p =>
      cases hmt : addMethod check a t m.pos m true with
      | error e' =>
        rw [hms, hmt] at hm
        exact hm.elim
      | ok q =>
        obtain ⟨a1, s1⟩ := p
        obtain ⟨a1', t1⟩ := q
        rw [hms, hmt] at hm
        obtain ⟨ha, hst⟩ := hm
        subst ha
        exact addExplicits_bisim hst

theorem addInherited_bisim {i : Nat} {check : Option Checker} {pos : Nat} :
    ∀ {ms : List Func} {a : AddSt} {s t : CompState}, StEq i s t →
    resEqA i (addInherited check pos ms a s) (addInherited check pos ms a t)
  | [], a, s, t, h => ⟨rfl, h⟩
  | m :: ms, a, s, t, h => by
    simp only [addInherited]
    have hm := @addMethod_bisim i check a pos m false s t h
    cases hms : addMethod check a s pos m false with
    | error e =>
      cases hmt : addMethod check a t pos m false with
      | error e' =>
        rw [hms, hmt] at hm
        exact hm
      | ok q =>
        rw [hms, hmt] at hm
        exact hm.elim
    | ok p =>
      cases hmt : addMethod check a t pos m false with
      | error e' =>
        rw [hms, hmt] at hm
        exact hm.elim
      | ok q =>
        obtain ⟨a1, s1⟩ := p
        obtain ⟨a1', t1⟩ := q
        rw [hms, hmt] at hm
        obtain ⟨ha, hst⟩ := hm
        subst ha
        exact addInherited_bisim hst

theorem markSt_bisim {i j : Nat} {s t : CompState} (h : StEq i s t) (hji : j ≠ i) :
    StEq i (markSt s j) (markSt t j) := by
  have hset : ∀ k, (markSt t j).store.getD k {} =
      (if k = j ∧ j < s.store.length
       then { t.store.getD j {} with allMethods := some [] }
       else t.store.getD k {}) := by
    intro k
    unfold markSt
    by_cases hk : k = j
    · subst hk
      rcases lt_or_le k s.store.length with hlt | hle
      · rw [getD_set_self _ _ _ _ (by rw [h.len]; exact hlt)]
        simp [hlt]
      · rw [List.set_eq_of_length_le (by rw [h.len]; exact hle)]
        simp [Nat.not_lt_of_le hle]
    · rw [getD_set_ne _ _ _ _ _ (fun hh => hk hh.symm)]
      simp [hk]
  have hset' : ∀ k, (markSt s j).store.getD k {} =
      (if k = j ∧ j < s.store.length
       then { s.store.getD j {} with allMethods := some [] }
       else s.store.getD k {}) := by
    intro k
    unfold markSt
    by_cases hk : k = j
    · subst hk
      rcases lt_or_le k s.store.length with hlt | hle
      · rw [getD_set_self _ _ _ _ hlt]
        simp [hlt]
      · rw [List.set_eq_of_length_le hle]
        simp [Nat.not_lt_of_le hle]
    · rw [getD_set_ne _ _ _ _ _ (fun hh => hk hh.symm)]
      simp [hk]
  refine ⟨h.errs, h.delayed, by simp [markSt, h.len], ?_, ?_, ?_, ?_⟩
  · intro k hk
    rw [hset k, hset' k]
    by_cases hkj : k = j ∧ j < s.store.length
    · rw [if_pos hkj, if_pos hkj, h.agree j hji]
    · rw [if_neg hkj, if_neg hkj, h.agree k hk]
  · rw [hset i, hset' i, if_neg (fun hh => hji hh.1.symm),
      if_neg (fun hh => hji hh.1.symm)]
    exact h.methods
  · rw [hset i, hset' i, if_neg (fun hh => hji hh.1.symm),
      if_neg (fun hh => hji hh.1.symm)]
    exact h.allM
  · rw [hset i, hset' i, if_neg (fun hh => hji hh.1.symm),
      if_neg (fun hh => hji hh.1.symm)]
    exact h.allT

theorem finalize_getD {s3 : CompState} {j : Nat} {a2 : AddSt} {allT : Option TermSet}
    (k : Nat) :
    (finalize s3 j a2 allT).store.getD k {} =
      (if k = j ∧ j < s3.store.length
       then { (if a2.methods = [] then s3.store.getD j {}
              else { s3.store.getD j {} with allMethods := some (sortMethods a2.methods) })
              with allTypes := allT }
       else s3.store.getD k {}) := by
  unfold finalize
  simp only []
  by_cases hk : k = j
  · subst hk
    rcases lt_or_le k s3.store.length with hlt | hle
    · rw [getD_set_self _ _ _ _ hlt]
      by_cases hm : a2.methods = [] <;> simp [hm, hlt]
    · rw [List.set_eq_of_length_le hle,
        if_neg (fun hh => absurd hh.2 (Nat.not_lt_of_le hle))]
  · rw [getD_set_ne _ _ _ _ _ (fun hh => hk hh.symm), if_neg (fun hh => hk hh.1)]

theorem finalize_bisim {i j : Nat} {a2 : AddSt} {allT : Option TermSet}
    {s3 t3 : CompState} (h : StEq i s3 t3) :
    StEq i (finalize s3 j a2 allT) (finalize t3 j a2 allT) := by
  have hcond : ∀ k : Nat, (k = j ∧ j < t3.store.length) ↔ (k = j ∧ j < s3.store.length) := by
    intro k
    rw [h.len]
  refine ⟨h.errs, h.delayed, by simp [finalize, h.len], ?_, ?_, ?_, ?_⟩
  · intro k hk
    rw [finalize_getD k, finalize_getD k]
    by_cases hc : k = j ∧ j < s3.store.length
    · rw [if_pos hc, if_pos ((hcond k).mpr hc)]
      have hji : j ≠ i := fun hh => hk (hc.1.trans hh)
      rw [h.agree j hji]
    · rw [if_neg hc, if_neg (fun hh => hc ((hcond k).mp hh))]
      exact h.agree k hk
  · rw [finalize_getD i, finalize_getD i]
    by_cases hc : i = j ∧ j < s3.store.length
    · rw [if_pos hc, if_pos ((hcond i).mpr hc)]
      obtain ⟨rfl, hlt⟩ := hc
      by_cases hm : a2.methods = []
      · rw [if_pos hm, if_pos hm]
        exact h.methods
      · rw [if_neg hm, if_neg hm]
        exact h.methods
    · rw [if_neg hc, if_neg (fun hh => hc ((hcond i).mp hh))]
      exact h.methods
  · rw [finalize_getD i, finalize_getD i]
    by_cases hc : i = j ∧ j < s3.store.length
    · rw [if_pos hc, if_pos ((hcond i).mpr hc)]
      obtain ⟨rfl, hlt⟩ := hc
      by_cases hm : a2.methods = []
      · rw [if_pos hm, if_pos hm]
        exact h.allM
      · rw [if_neg hm, if_neg hm]
    · rw [if_neg hc, if_neg (fun hh => hc ((hcond i).mp hh))]
      exact h.allM
  · rw [finalize_getD i, finalize_getD i]
    by_cases hc : i = j ∧ j < s3.store.length
    · rw [if_pos hc, if_pos ((hcond i).mpr hc)]
    · rw [if_neg hc, if_neg (fun hh => hc ((hcond i).mp hh))]
      exact h.allT

theorem completeEmbeds_bisim {i : Nat} {check : Option Checker}
    {recur : Nat → Nat → CompState → Except Failure CompState}
    (hrecB : ∀ pos j sa ta, StEq i sa ta → (sa.store.getD i {}).allMethods ≠ none →
      resEqC i (recur pos j sa) (recur pos j ta))
    (hrecPres : ∀ pos j sa sb, recur pos j sa = .ok sb → Pres sa sb) :
    ∀ {pairs : List (EType × Nat)} {a : AddSt} {allT : Option TermSet} {s t : CompState},
    StEq i s t → (s.store.getD i {}).allMethods ≠ none →
    resEqE i (completeEmbeds check recur pairs a allT s)
             (completeEmbeds check recur pairs a allT t)
  | [], a, allT, s, t, h, hc => ⟨rfl, rfl, h⟩
  | (ty, pos) :: rest, a, allT, s, t, h, hc => by
    cases ty with
    | iface k j =>
      simp only [completeEmbeds]
      have hgd := h.getD_allM j
      by_cases hg : (s.store.getD j {}).allMethods = none
      · rw [if_pos hg, if_pos (by rw [hgd]; exact hg)]
        have hr := hrecB pos j s t h hc
        cases hrs : recur pos j s with
        | error e =>
          cases hrt : recur pos j t with
          | error e' =>
            rw [hrs, hrt] at hr
            exact hr
          | ok tI =>
            rw [hrs, hrt] at hr
            exact hr.elim
        | ok sI =>
          cases hrt : recur pos j t with
          | error e' =>
            rw [hrs, hrt] at hr
            exact hr.elim
          | ok tI =>
            rw [hrs, hrt] at hr
            have hcI : (sI.store.getD i {}).allMethods ≠ none := by
              rw [(hrecPres pos j s sI hrs).mono i hc]
              exact hc
            show resEqE i
              (match addInherited check pos ((sI.store.getD j {}).allMethods.getD [])
                  a sI with
               | Except.error e => Except.error e
               | Except.ok (a1, s2) => completeEmbeds check recur rest a1
                   (intersect allT (sI.store.getD j {}).allTypes) s2)
              (match addInherited check pos ((tI.store.getD j {}).allMethods.getD [])
                  a tI with
               | Except.error e => Except.error e
               | Except.ok (a1, s2) => completeEmbeds check recur rest a1
                   (intersect allT (tI.store.getD j {}).allTypes) s2)
            rw [hr.getD_closure j, hr.getD_allT j]
            have ha := @addInherited_bisim i check pos
              ((sI.store.getD j {}).allMethods.getD []) a sI tI hr
            cases has : addInherited check pos ((sI.store.getD j {}).allMethods.getD [])
                a sI with
            | error e =>
              cases hat : addInherited check pos ((sI.store.getD j {}).allMethods.getD [])
                  a tI with
              | error e' =>
                rw [has, hat] at ha
                exact ha
              | ok q =>
                rw [has, hat] at ha
                exact ha.elim
            | ok p =>
              cases hat : addInherited check pos ((sI.store.getD j {}).allMethods.getD [])
                  a tI with
              | error e' =>
                rw [has, hat] at ha
                exact ha.elim
              | ok q =>
                obtain ⟨a1, s2⟩ := p
                obtain ⟨a1', t2⟩ := q
                rw [has, hat] at ha
                obtain ⟨rfl, hst2⟩ := ha
                have hc2 : (s2.store.getD i {}).allMethods ≠ none := by
                  have hss : s2.store = sI.store := addInherited_ok_store has
                  show ¬ _
                  rw [show s2.store.getD i {} = sI.store.getD i {} by rw [hss]]
                  exact hcI
                exact completeEmbeds_bisim hrecB hrecPres hst2 hc2
      · rw [if_neg hg, if_neg (by rw [hgd]; exact hg)]
        show resEqE i
          (match addInherited check pos ((s.store.getD j {}).allMethods.getD [])
              a s with
           | Except.error e => Except.error e
           | Except.ok (a1, s2) => completeEmbeds check recur rest a1
               (intersect allT (s.store.getD j {}).allTypes) s2)
          (match addInherited check pos ((t.store.getD j {}).allMethods.getD [])
              a t with
           | Except.error e => Except.error e
           | Except.ok (a1, s2) => completeEmbeds check recur rest a1
               (intersect allT (t.store.getD j {}).allTypes) s2)
        rw [h.getD_closure j, h.getD_allT j]
        have ha := @addInherited_bisim i check pos
          ((s.store.getD j {}).allMethods.getD []) a s t h
        cases has : addInherited check pos ((s.store.getD j {}).allMethods.getD [])
            a s with
        | error e =>
          cases hat : addInherited check pos ((s.store.getD j {}).allMethods.getD [])
              a t with
          | error e' =>
            rw [has, hat] at ha
            exact ha
          | ok q =>
            rw [has, hat] at ha
            exact ha.elim
        | ok p =>
          cases hat : addInherited check pos ((s.store.getD j {}).allMethods.getD [])
              a t with
          | error e' =>
            rw [has, hat] at ha
            exact ha.elim
          | ok q =>
            obtain ⟨a1, s2⟩ := p
            obtain ⟨a1', t2⟩ := q
            rw [has, hat] at ha
            obtain ⟨rfl, hst2⟩ := ha
            have hc2 : (s2.store.getD i {}).allMethods ≠ none := by
              have hss : s2.store = s.store := addInherited_ok_store has
              show ¬ _
              rw [show s2.store.getD i {} = s.store.getD i {} by rw [hss]]
              exact hc
            exact completeEmbeds_bisim hrecB hrecPres hst2 hc2
    | union ts =>
      simp only [completeEmbeds]
      exact completeEmbeds_bisim hrecB hrecPres h hc
    | typeParam ts =>
      simp only [completeEmbeds]
      cases check with
      | some c =>
        show resEqE i
          (if c.go118 = true
           then completeEmbeds (some c) recur rest a (intersect allT (some ts.toFinset)) s
           else completeEmbeds (some c) recur rest a allT
             { s with errs := s.errs ++ [Err.typeParamNotIface pos] })
          (if c.go118 = true
           then completeEmbeds (some c) recur rest a (intersect allT (some ts.toFinset)) t
           else completeEmbeds (some c) recur rest a allT
             { t with errs := t.errs ++ [Err.typeParamNotIface pos] })
        by_cases hg : c.go118 = true
        · rw [if_pos hg, if_pos hg]
          exact completeEmbeds_bisim hrecB hrecPres h hc
        · rw [if_neg hg, if_neg hg]
          exact completeEmbeds_bisim hrecB hrecPres (h.append_err _) hc
      | none => exact completeEmbeds_bisim hrecB hrecPres h hc
    | invalid =>
      simp only [completeEmbeds]
      exact completeEmbeds_bisim hrecB hrecPres h hc
    | other k u =>
      simp only [completeEmbeds]
      cases check with
      | some c =>
        show resEqE i
          (if c.go118 = true
           then completeEmbeds (some c) recur rest a
             (intersect allT (some ({⟨false, u⟩} : TermSet))) s
           else completeEmbeds (some c) recur rest a allT
             { s with errs := s.errs ++ [Err.notAnIface pos] })
          (if c.go118 = true
           then completeEmbeds (some c) recur rest a
             (intersect allT (some ({⟨false, u⟩} : TermSet))) t
           else completeEmbeds (some c) recur rest a allT
             { t with errs := t.errs ++ [Err.notAnIface pos] })
        by_cases hg : c.go118 = true
        · rw [if_pos hg, if_pos hg]
          exact completeEmbeds_bisim hrecB hrecPres h hc
        · rw [if_neg hg, if_neg hg]
          exact completeEmbeds_bisim hrecB hrecPres (h.append_err _) hc
      | none => exact completeEmbeds_bisim hrecB hrecPres h hc

theorem completeInterface_bisim : ∀ (fuel : Nat) {check : Option Checker} {pos j i : Nat}
    {s t : CompState}, StEq i s t → (s.store.getD i {}).allMethods ≠ none →
    resEqC i (completeInterface check fuel pos j s) (completeInterface check fuel pos j t)
  | 0, check, pos, j, i, s, t, h, hc => rfl
  | fuel + 1, check, pos, j, i, s, t, h, hc => by
    rw [completeInterface_succ, completeInterface_succ]
    have hgd := h.getD_allM j
    by_cases hg : (s.store.getD j {}).allMethods = none
    · have hji : j ≠ i := by
        rintro rfl
        exact hc hg
      rw [if_pos hg, if_pos (by rw [hgd]; exact hg)]
      rw [h.agree j hji]
      have hmark := markSt_bisim h hji
      have hE := @addExplicits_bisim i check
        ((s.store.getD j {}).methods) {} (markSt s j) (markSt t j) hmark
      cases hEs : addExplicits check (s.store.getD j {}).methods {} (markSt s j) with
      | error e =>
        cases hEt : addExplicits check (s.store.getD j {}).methods {} (markSt t j) with
        | error e' =>
          rw [hEs, hEt] at hE
          exact hE
        | ok q =>
          rw [hEs, hEt] at hE
          exact hE.elim
      | ok p =>
        cases hEt : addExplicits check (s.store.getD j {}).methods {} (markSt t j) with
        | error e' =>
          rw [hEs, hEt] at hE
          exact hE.elim
        | ok q =>
          obtain ⟨a, s2⟩ := p
          obtain ⟨a', t2⟩ := q
          rw [hEs, hEt] at hE
          obtain ⟨ha', hst2⟩ := hE
          have hc2 : (s2.store.getD i {}).allMethods ≠ none := by
            have hss : s2.store = (markSt s j).store := addExplicits_ok_store hEs
            have hmi : (markSt s j).store.getD i {} = s.store.getD i {} := by
              unfold markSt
              exact getD_set_ne _ _ _ _ _ hji
            show ¬ _
            rw [show s2.store.getD i {} = s.store.getD i {} by rw [hss]; exact hmi]
            exact hc
          show resEqC i
            (match completeEmbeds check (completeInterface check fuel)
                (pairsOf check (s.store.getD j {})) a none s2 with
             | Except.error e => Except.error e
             | Except.ok (a2, allT, s3) =>
               match processTodo a2.todo with
               | some e => Except.error e
               | none => Except.ok (finalize s3 j a2 allT))
            (match completeEmbeds check (completeInterface check fuel)
                (pairsOf check (s.store.getD j {})) a' none t2 with
             | Except.error e => Except.error e
             | Except.ok (a2, allT, s3) =>
               match processTodo a2.todo with
               | some e => Except.error e
               | none => Except.ok (finalize s3 j a2 allT))
          rw [ha']
          have hCe : resEqE i
              (completeEmbeds check (completeInterface check fuel)
                (pairsOf check (s.store.getD j {})) a none s2)
              (completeEmbeds check (completeInterface check fuel)
                (pairsOf check (s.store.getD j {})) a none t2) :=
            completeEmbeds_bisim
              (fun p' j' sa ta hsteq hcc => @completeInterface_bisim fuel check p' j' i sa ta hsteq hcc)
              (fun p' j' sa sb hh => (completeInterface_pres fuel hh).1)
              hst2 hc2
          cases hCs : completeEmbeds check (completeInterface check fuel)
              (pairsOf check (s.store.getD j {})) a none s2 with
          | error e =>
            cases hCt : completeEmbeds check (completeInterface check fuel)
                (pairsOf check (s.store.getD j {})) a none t2 with
            | error e' =>
              rw [hCs, hCt] at hCe
              exact hCe
            | ok q2 =>
              rw [hCs, hCt] at hCe
              exact hCe.elim
          | ok p2 =>
            cases hCt : completeEmbeds check (completeInterface check fuel)
                (pairsOf check (s.store.getD j {})) a none t2 with
            | error e' =>
              rw [hCs, hCt] at hCe
              exact hCe.elim
            | ok q2 =>
              obtain ⟨a2, allT, s3⟩ := p2
              obtain ⟨a2', allT', t3⟩ := q2
              rw [hCs, hCt] at hCe
              obtain ⟨h1, h2, hst3⟩ := hCe
              show resEqC i
                (match processTodo a2.todo with
                 | some e => Except.error e
                 | none => Except.ok (finalize s3 j a2 allT))
                (match processTodo a2'.todo with
                 | some e => Except.error e
                 | none => Except.ok (finalize t3 j a2' allT'))
              rw [h1, h2]
              cases hT : processTodo a2.todo with
              | some e => rfl
              | none => exact finalize_bisim hst3
    · rw [if_neg hg, if_neg (by rw [hgd]; exact hg)]
      rfl

/-- tells whether an embedded element (with its position) is a direct
self-reference to the interface at index i. -/
def isSelfPair (i : Nat) (tp : EType × Nat) : Bool :=
  match tp.1 with
  | .iface _ j => decide (j = i)
  | _ => false

/-- the interface entry with its self-referential embedded elements (and the
matching position entries) removed. -/
def dropSelf (i : Nat) (it : Iface) : Iface :=
  let z := (it.embeddeds.zip it.embPos).filter (fun tp => ! isSelfPair i tp)
  { it with embeddeds := z.map Prod.fst, embPos := z.map Prod.snd }

/-- the store with entry i replaced by its self-edge-free variant. -/
def dropSelfStore (s : CompState) (i : Nat) : CompState :=
  { s with store := s.store.set i (dropSelf i (s.store.getD i {})) }

theorem zip_map_fst_snd {α β : Type} : ∀ (l : List (α × β)),
    (l.map Prod.fst).zip (l.map Prod.snd) = l
  | [] => rfl
  | (a, b) :: l => by simp [zip_map_fst_snd l]

theorem map_fst_filter {α β : Type} (p : α → Bool) : ∀ (l : List (α × β)),
    (l.filter (fun tp => p tp.1)).map Prod.fst = (l.map Prod.fst).filter p
  | [] => rfl
  | (a, b) :: l => by
    by_cases h : p a <;> simp [List.filter_cons, h, map_fst_filter p l]

theorem map_pair0_filter (i : Nat) : ∀ (l : List EType),
    (l.filter (fun e => ! isSelfPair i (e, 0))).map (fun t => (t, (0 : Nat))) =
      (l.map (fun t => (t, (0 : Nat)))).filter (fun tp => ! isSelfPair i tp)
  | [] => rfl
  | e :: l => by
    by_cases h : isSelfPair i (e, 0) = true <;>
      simp [List.filter_cons, h, map_pair0_filter i l]

theorem pairsOf_dropSelf {check : Option Checker} {it : Iface} {i : Nat}
    (hlen : it.embeddeds.length = it.embPos.length) :
    pairsOf check (dropSelf i it) =
      (pairsOf check it).filter (fun tp => ! isSelfPair i tp) := by
  unfold pairsOf dropSelf
  cases check with
  | some c =>
    simp only []
    exact zip_map_fst_snd _
  | none =>
    simp only []
    have h1 : ((it.embeddeds.zip it.embPos).filter (fun tp => ! isSelfPair i tp)).map
        Prod.fst =
        ((it.embeddeds.zip it.embPos).map Prod.fst).filter (fun e => ! isSelfPair i (e, 0)) :=
      map_fst_filter (fun e => ! isSelfPair i (e, 0)) _
    rw [h1, List.map_fst_zip _ _ (le_of_eq hlen)]
    exact map_pair0_filter i it.embeddeds

theorem intersect_none_right : ∀ (x : Option TermSet), intersect x none = x
  | none => rfl
  | some _ => rfl

theorem completeEmbeds_dropSelf {i : Nat} {check : Option Checker}
    {recur : Nat → Nat → CompState → Except Failure CompState}
    (hrecB : ∀ pos j sa ta, StEq i sa ta → (sa.store.getD i {}).allMethods ≠ none →
      resEqC i (recur pos j sa) (recur pos j ta))
    (hrecPres : ∀ pos j sa sb, recur pos j sa = .ok sb → Pres sa sb) :
    ∀ {pairs : List (EType × Nat)} {a : AddSt} {allT : Option TermSet} {s t : CompState},
    StEq i s t →
    (s.store.getD i {}).allMethods = some [] →
    (s.store.getD i {}).allTypes = none →
    resEqE i (completeEmbeds check recur pairs a allT s)
             (completeEmbeds check recur (pairs.filter (fun tp => ! isSelfPair i tp)) a allT t)
  | [], a, allT, s, t, h, hM, hT => ⟨rfl, rfl, h⟩
  | (ty, pos) :: rest, a, allT, s, t, h, hM, hT => by
    by_cases hself : isSelfPair i (ty, pos) = true
    · rw [List.filter_cons_of_neg (by simp [hself])]
      cases ty with
      | iface k j =>
        have hji : j = i := by simpa [isSelfPair] using hself
        subst hji
        simp only [completeEmbeds]
        rw [if_neg (by rw [hM]; simp)]
        show resEqE j
          (match addInherited check pos ((s.store.getD j {}).allMethods.getD []) a s with
           | Except.error e => Except.error e
           | Except.ok (a1, s2) => completeEmbeds check recur rest a1
               (intersect allT (s.store.getD j {}).allTypes) s2)
          (completeEmbeds check recur (rest.filter (fun tp => ! isSelfPair j tp)) a allT t)
        rw [hM, hT, intersect_none_right]
        show resEqE j (completeEmbeds check recur rest a allT s)
          (completeEmbeds check recur (rest.filter (fun tp => ! isSelfPair j tp)) a allT t)
        exact completeEmbeds_dropSelf hrecB hrecPres h hM hT
      | union ts => simp [isSelfPair] at hself
      | typeParam ts => simp [isSelfPair] at hself
      | invalid => simp [isSelfPair] at hself
      | other k u => simp [isSelfPair] at hself
    · rw [List.filter_cons_of_pos (by simp [hself])]
      cases ty with
      | iface k j =>
        simp only [completeEmbeds]
        have hgd := h.getD_allM j
        by_cases hg : (s.store.getD j {}).allMethods = none
        · rw [if_pos hg, if_pos (by rw [hgd]; exact hg)]
          have hr := hrecB pos j s t h (by rw [hM]; simp)
          cases hrs : recur pos j s with
          | error e =>
            cases hrt : recur pos j t with
            | error e' =>
              rw [hrs, hrt] at hr
              exact hr
            | ok tI =>
              rw [hrs, hrt] at hr
              exact hr.elim
          | ok sI =>
            cases hrt : recur pos j t with
            | error e' =>
              rw [hrs, hrt] at hr
              exact hr.elim
            | ok tI =>
              rw [hrs, hrt] at hr
              have hiEq : sI.store.getD i {} = s.store.getD i {} :=
                (hrecPres pos j s sI hrs).mono i (by rw [hM]; simp)
              have hMI : (sI.store.getD i {}).allMethods = some [] := by
                rw [hiEq]
                exact hM
              have hTI : (sI.store.getD i {}).allTypes = none := by
                rw [hiEq]
                exact hT
              show resEqE i
                (match addInherited check pos ((sI.store.getD j {}).allMethods.getD [])
                    a sI with
                 | Except.error e => Except.error e
                 | Except.ok (a1, s2) => completeEmbeds check recur rest a1
                     (intersect allT (sI.store.getD j {}).allTypes) s2)
                (match addInherited check pos ((tI.store.getD j {}).allMethods.getD [])
                    a tI with
                 | Except.error e => Except.error e
                 | Except.ok (a1, s2) => completeEmbeds check recur
                     (rest.filter (fun tp => ! isSelfPair i tp)) a1
                     (intersect allT (tI.store.getD j {}).allTypes) s2)
              rw [hr.getD_closure j, hr.getD_allT j]
              have ha := @addInherited_bisim i check pos
                ((sI.store.getD j {}).allMethods.getD []) a sI tI hr
              cases has : addInherited check pos ((sI.store.getD j {}).allMethods.getD [])
                  a sI with
              | error e =>
                cases hat : addInherited check pos
                    ((sI.store.getD j {}).allMethods.getD []) a tI with
                | error e' =>
                  rw [has, hat] at ha
                  exact ha
                | ok q =>
                  rw [has, hat] at ha
                  exact ha.elim
              | ok p =>
                cases hat : addInherited check pos
                    ((sI.store.getD j {}).allMethods.getD []) a tI with
                | error e' =>
                  rw [has, hat] at ha
                  exact ha.elim
                | ok q =>
                  obtain ⟨a1, s2⟩ := p
                  obtain ⟨a1', t2⟩ := q
                  rw [has, hat] at ha
                  obtain ⟨rfl, hst2⟩ := ha
                  have hss : s2.store = sI.store := addInherited_ok_store has
                  have hM2 : (s2.store.getD i {}).allMethods = some [] := by
                    rw [show s2.store.getD i {} = sI.store.getD i {} by rw [hss]]
                    exact hMI
                  have hT2 : (s2.store.getD i {}).allTypes = none := by
                    rw [show s2.store.getD i {} = sI.store.getD i {} by rw [hss]]
                    exact hTI
                  exact completeEmbeds_dropSelf hrecB hrecPres hst2 hM2 hT2
        · rw [if_neg hg, if_neg (by rw [hgd]; exact hg)]
          show resEqE i
            (match addInherited check pos ((s.store.getD j {}).allMethods.getD [])
                a s with
             | Except.error e => Except.error e
             | Except.ok (a1, s2) => completeEmbeds check recur rest a1
                 (intersect allT (s.store.getD j {}).allTypes) s2)
            (match addInherited check pos ((t.store.getD j {}).allMethods.getD [])
                a t with
             | Except.error e => Except.error e
             | Except.ok (a1, s2) => completeEmbeds check recur
                 (rest.filter (fun tp => ! isSelfPair i tp)) a1
                 (intersect allT (t.store.getD j {}).allTypes) s2)
          rw [h.getD_closure j, h.getD_allT j]
          have ha := @addInherited_bisim i check pos
            ((s.store.getD j {}).allMethods.getD []) a s t h
          cases has : addInherited check pos ((s.store.getD j {}).allMethods.getD [])
              a s with
          | error e =>
            cases hat : addInherited check pos
                ((s.store.getD j {}).allMethods.getD []) a t with
            | error e' =>
              rw [has, hat] at ha
              exact ha
            | ok q =>
              rw [has, hat] at ha
              exact ha.elim
          | ok p =>
            cases hat : addInherited check pos
                ((s.store.getD j {}).allMethods.getD []) a t with
            | error e' =>
              rw [has, hat] at ha
              exact ha.elim
            | ok q =>
              obtain ⟨a1, s2⟩ := p
              obtain ⟨a1', t2⟩ := q
              rw [has, hat] at ha
              obtain ⟨rfl, hst2⟩ := ha
              have hss : s2.store = s.store := addInherited_ok_store has
              have hM2 : (s2.store.getD i {}).allMethods = some [] := by
                rw [show s2.store.getD i {} = s.store.getD i {} by rw [hss]]
                exact hM
              have hT2 : (s2.store.getD i {}).allTypes = none := by
                rw [show s2.store.getD i {} = s.store.getD i {} by rw [hss]]
                exact hT
              exact completeEmbeds_dropSelf hrecB hrecPres hst2 hM2 hT2
      | union ts =>
        simp only [completeEmbeds]
        exact completeEmbeds_dropSelf hrecB hrecPres h hM hT
      | typeParam ts =>
        simp only [completeEmbeds]
        cases check with
        | some c =>
          show resEqE i
            (if c.go118 = true
             then completeEmbeds (some c) recur rest a (intersect allT (some ts.toFinset)) s
             else completeEmbeds (some c) recur rest a allT
               { s with errs := s.errs ++ [Err.typeParamNotIface pos] })
            (if c.go118 = true
             then completeEmbeds (some c) recur (rest.filter (fun tp => ! isSelfPair i tp))
               a (intersect allT (some ts.toFinset)) t
             else completeEmbeds (some c) recur (rest.filter (fun tp => ! isSelfPair i tp))
               a allT { t with errs := t.errs ++ [Err.typeParamNotIface pos] })
          by_cases hg : c.go118 = true
          · rw [if_pos hg, if_pos hg]
            exact completeEmbeds_dropSelf hrecB hrecPres h hM hT
          · rw [if_neg hg, if_neg hg]
            exact completeEmbeds_dropSelf hrecB hrecPres (h.append_err _) hM hT
        | none => exact completeEmbeds_dropSelf hrecB hrecPres h hM hT
      | invalid =>
        simp only [completeEmbeds]
        exact completeEmbeds_dropSelf hrecB hrecPres h hM hT
      | other k u =>
        simp only [completeEmbeds]
        cases check with
        | some c =>
          show resEqE i
            (if c.go118 = true
             then completeEmbeds (some c) recur rest a
               (intersect allT (some ({⟨false, u⟩} : TermSet))) s
             else completeEmbeds (some c) recur rest a allT
               { s with errs := s.errs ++ [Err.notAnIface pos] })
            (if c.go118 = true
             then completeEmbeds (some c) recur (rest.filter (fun tp => ! isSelfPair i tp))
               a (intersect allT (some ({⟨false, u⟩} : TermSet))) t
             else completeEmbeds (some c) recur (rest.filter (fun tp => ! isSelfPair i tp))
               a allT { t with errs := t.errs ++ [Err.notAnIface pos] })
          by_cases hg : c.go118 = true
          · rw [if_pos hg, if_pos hg]
            exact completeEmbeds_dropSelf hrecB hrecPres h hM hT
          · rw [if_neg hg, if_neg hg]
            exact completeEmbeds_dropSelf hrecB hrecPres (h.append_err _) hM hT
        | none => exact completeEmbeds_dropSelf hrecB hrecPres h hM hT

theorem dropSelfStore_getD_self {s : CompState} {i : Nat} (hlt : i < s.store.length) :
    (dropSelfStore s i).store.getD i {} = dropSelf i (s.store.getD i {}) := by
  unfold dropSelfStore
  exact getD_set_self _ _ _ _ hlt

theorem dropSelfStore_getD_ne {s : CompState} {i j : Nat} (hne : i ≠ j) :
    (dropSelfStore s i).store.getD j {} = s.store.getD j {} := by
  unfold dropSelfStore
  exact getD_set_ne _ _ _ _ _ hne

theorem completeInterface_dropSelf (fuel : Nat) {check : Option Checker} {pos i : Nat}
    {s : CompState} (hno : (s.store.getD i {}).allMethods = none)
    (hTy : (s.store.getD i {}).allTypes = none)
    (hlen : (s.store.getD i {}).embeddeds.length = (s.store.getD i {}).embPos.length)
    (hlt : i < s.store.length) :
    resEqC i (completeInterface check fuel pos i s)
             (completeInterface check fuel pos i (dropSelfStore s i)) := by
  cases fuel with
  | zero => rfl
  | succ fuel =>
    rw [completeInterface_succ, completeInterface_succ]
    have hgt : ((dropSelfStore s i).store.getD i {}).allMethods = none := by
      rw [dropSelfStore_getD_self hlt]
      exact hno
    rw [if_pos hno, if_pos hgt, dropSelfStore_getD_self hlt]
    rw [show (dropSelf i (s.store.getD i {})).methods = (s.store.getD i {}).methods
      from rfl]
    rw [pairsOf_dropSelf hlen]
    have hltd : i < (dropSelfStore s i).store.length := by
      simpa [dropSelfStore] using hlt
    have hmark : StEq i (markSt s i) (markSt (dropSelfStore s i) i) := by
      refine ⟨rfl, rfl, by simp [markSt, dropSelfStore], ?_, ?_, ?_, ?_⟩
      · intro j hj
        have h1 : (markSt (dropSelfStore s i) i).store.getD j {} =
            (dropSelfStore s i).store.getD j {} := by
          unfold markSt
          exact getD_set_ne _ _ _ _ _ (fun hh => hj hh.symm)
        have h2 : (markSt s i).store.getD j {} = s.store.getD j {} := by
          unfold markSt
          exact getD_set_ne _ _ _ _ _ (fun hh => hj hh.symm)
        rw [h1, h2, dropSelfStore_getD_ne (fun hh => hj hh.symm)]
      · rw [markSt_getD_self hlt, markSt_getD_self hltd, dropSelfStore_getD_self hlt]
        exact rfl
      · rw [markSt_getD_self hlt, markSt_getD_self hltd]
      · rw [markSt_getD_self hlt, markSt_getD_self hltd, dropSelfStore_getD_self hlt]
        exact rfl
    have hE := @addExplicits_bisim i check ((s.store.getD i {}).methods) {}
      (markSt s i) (markSt (dropSelfStore s i) i) hmark
    cases hEs : addExplicits check ((s.store.getD i {}).methods) {} (markSt s i) with
    | error e =>
      cases hEt : addExplicits check ((s.store.getD i {}).methods) {}
          (markSt (dropSelfStore s i) i) with
      | error e' =>
        rw [hEs, hEt] at hE
        exact hE
      | ok q =>
        rw [hEs, hEt] at hE
        exact hE.elim
    | ok p =>
      cases hEt : addExplicits check ((s.store.getD i {}).methods) {}
          (markSt (dropSelfStore s i) i) with
      | error e' =>
        rw [hEs, hEt] at hE
        exact hE.elim
      | ok q =>
        obtain ⟨a, s2⟩ := p
        obtain ⟨a', t2⟩ := q
        rw [hEs, hEt] at hE
        obtain ⟨ha', hst2⟩ := hE
        have hsent : (s2.store.getD i {}).allMethods = some [] := by
          have hss : s2.store = (markSt s i).store := addExplicits_ok_store hEs
          rw [show s2.store.getD i {} = (markSt s i).store.getD i {} by rw [hss],
            markSt_getD_self hlt]
        have hTy2 : (s2.store.getD i {}).allTypes = none := by
          have hss : s2.store = (markSt s i).store := addExplicits_ok_store hEs
          rw [show s2.store.getD i {} = (markSt s i).store.getD i {} by rw [hss],
            markSt_getD_self hlt]
          exact hTy
        show resEqC i
          (match completeEmbeds check (completeInterface check fuel)
              (pairsOf check (s.store.getD i {})) a none s2 with
           | Except.error e => Except.error e
           | Except.ok (a2, allT, s3) =>
             match processTodo a2.todo with
             | some e => Except.error e
             | none => Except.ok (finalize s3 i a2 allT))
          (match completeEmbeds check (completeInterface check fuel)
              ((pairsOf check (s.store.getD i {})).filter (fun tp => ! isSelfPair i tp))
              a' none t2 with
           | Except.error e => Except.error e
           | Except.ok (a2, allT, s3) =>
             match processTodo a2.todo with
             | some e => Except.error e
             | none => Except.ok (finalize s3 i a2 allT))
        rw [ha']
        have hCe : resEqE i
            (completeEmbeds check (completeInterface check fuel)
              (pairsOf check (s.store.getD i {})) a none s2)
            (completeEmbeds check (completeInterface check fuel)
              ((pairsOf check (s.store.getD i {})).filter (fun tp => ! isSelfPair i tp))
              a none t2) :=
          completeEmbeds_dropSelf
            (fun p' j' sa ta hsteq hcc => @completeInterface_bisim fuel check p' j' i sa ta hsteq hcc)
            (fun p' j' sa sb hh => (completeInterface_pres fuel hh).1)
            hst2 hsent hTy2
        cases hCs : completeEmbeds check (completeInterface check fuel)
            (pairsOf check (s.store.getD i {})) a none s2 with
        | error e =>
          cases hCt : completeEmbeds check (completeInterface check fuel)
              ((pairsOf check (s.store.getD i {})).filter (fun tp => ! isSelfPair i tp))
              a none t2 with
          | error e' =>
            rw [hCs, hCt] at hCe
            exact hCe
          | ok q2 =>
            rw [hCs, hCt] at hCe
            exact hCe.elim
        | ok p2 =>
          cases hCt : completeEmbeds check (completeInterface check fuel)
              ((pairsOf check (s.store.getD i {})).filter (fun tp => ! isSelfPair i tp))
              a none t2 with
          | error e' =>
            rw [hCs, hCt] at hCe
            exact hCe.elim
          | ok q2 =>
            obtain ⟨a2, allT, s3⟩ := p2
            obtain ⟨a2', allT', t3⟩ := q2
            rw [hCs, hCt] at hCe
            obtain ⟨h1, h2, hst3⟩ := hCe
            show resEqC i
              (match processTodo a2.todo with
               | some e => Except.error e
               | none => Except.ok (finalize s3 i a2 allT))
              (match processTodo a2'.todo with
               | some e => Except.error e
               | none => Except.ok (finalize t3 i a2' allT'))
            rw [h1, h2]
            cases hT : processTodo a2.todo with
            | some e => rfl
            | none => exact finalize_bisim hst3

/-- a concrete checker used to instantiate the theorems on closed inputs. -/
def demoChecker : Checker where
  pkg := "p"
  compilerErrorMessages := false
  go118 := true
  go114 := fun _ => true
  typOf := fun e => match e with
    | .atom 10 _ => .sig false 100
    | .atom 11 _ => .sig false 200
    | _ => .invalid
  resolveEmbed := fun t => .other none t

/-- a one-entry store whose interface embeds itself. -/
def selfStore : CompState :=
  ⟨[{ methods := [⟨1, "p", "m", 100⟩], embeddeds := [.iface (some ⟨"S", "p"⟩) 0],
      embPos := [5] }], [], []⟩

/-- C2: cycle safety: completing an unresolved interface (closure and type
set still absent) in a well-formed store never runs out of fuel when given
at least one unit per unresolved entry, because the sentinel written before
the embedding recursion stops any cyclic revisit; moreover the outcome is
equivalent to completing the store with every self-referential embedded
edge of that entry removed: both runs fail identically or succeed with the
same diagnostics, the same delayed checks, the same closure and type set
for the entry, and identical remaining entries. -/
theorem cycle_safety {check : Option Checker} {fuel pos i : Nat} {s : CompState}
    (hw : wfStore s) (hno : (s.store.getD i {}).allMethods = none)
    (hTy : (s.store.getD i {}).allTypes = none)
    (hlen : (s.store.getD i {}).embeddeds.length = (s.store.getD i {}).embPos.length)
    (hlt : i < s.store.length) (hfuel : incompleteCount s ≤ fuel) :
    completeInterface check fuel pos i s ≠ .error .fuel ∧
    resEqC i (completeInterface check fuel pos i s)
             (completeInterface check fuel pos i (dropSelfStore s i)) :=
  ⟨completeInterface_total fuel hw hno hlt hfuel,
   completeInterface_dropSelf fuel hno hTy hlen hlt⟩

theorem cycle_safety_witness :
    completeInterface (some demoChecker) 1 0 0 selfStore ≠ Except.error .fuel ∧
    resEqC 0 (completeInterface (some demoChecker) 1 0 0 selfStore)
             (completeInterface (some demoChecker) 1 0 0 (dropSelfStore selfStore 0)) :=
  cycle_safety (by decide) (by decide) (by decide) (by decide) (by decide) (by decide)

/-- the state produced by completing the self-embedding store. -/
def selfCompleted : CompState :=
  match checkerCompleteInterface (some demoChecker) 1 0 0 selfStore with
  | .ok s => s
  | .error _ => selfStore

theorem completion_idempotent_witness :
    checkerCompleteInterface (some demoChecker) 1 0 0 selfCompleted =
      Except.ok selfCompleted :=
  @completion_idempotent (some demoChecker) (some demoChecker) 1 1 0 0 0 selfStore
    selfCompleted (by decide) (by decide)

theorem closure_sorted_nodup_witness :
    goodStore selfCompleted ∧
    ∀ ms, (selfCompleted.store.getD 0 {}).allMethods = some ms →
      ms.Sorted mLe ∧ ms.Pairwise (fun x y => Id x ≠ Id y) :=
  @closure_sorted_nodup (some demoChecker) 1 0 0 selfStore selfCompleted
    (by decide) (by decide)

/-- a store whose interface declares two methods with the same identity
key. -/
def dupStore : CompState :=
  ⟨[{ methods := [⟨1, "p", "m", 100⟩, ⟨2, "p", "m", 200⟩] }], [], []⟩

theorem explicit_duplicate_first_wins_witness :
    ∃ s', completeInterface (some demoChecker) 1 0 0 dupStore = .ok s' ∧
      s'.errs = dupStore.errs ++ [.dupMethod 2 "m" 1] ∧
      (s'.store.getD 0 {}).allMethods = some [⟨1, "p", "m", 100⟩] ∧
      s'.delayed = dupStore.delayed :=
  @explicit_duplicate_first_wins demoChecker 0 0 0 dupStore ⟨1, "p", "m", 100⟩
    ⟨2, "p", "m", 200⟩ (by decide) (by decide) (by decide)

/-- a store whose interface embeds an already-complete interface that
contributes a method colliding with an explicit one under a different
signature. -/
def nosinkStore : CompState :=
  ⟨[{ methods := [⟨1, "p", "m", 100⟩], embeddeds := [.iface none 1] },
    { allMethods := some [⟨7, "p", "m", 200⟩] }], [], []⟩

theorem nosink_conflicts_panic_witness :
    completeInterface none 1 0 0 dupStore =
      Except.error (.fatal "2: duplicate method m") ∧
    completeInterface none 1 0 0 nosinkStore =
      Except.error (.fatal "7: duplicate method m") :=
  ⟨nosink_conflicts_panic.1 0 0 0 dupStore ⟨1, "p", "m", 100⟩ ⟨2, "p", "m", 200⟩
      (by decide) (by decide) (by decide),
   nosink_conflicts_panic.2 0 0 0 1 nosinkStore ⟨1, "p", "m", 100⟩ ⟨7, "p", "m", 200⟩
      none (by decide) (by decide) (by decide) (by decide) (by decide)⟩

/-! Constraint intersection: its algebra and the completion fold. -/

theorem intersect_comm (x y : Option TermSet) : intersect x y = intersect y x := by
  cases x <;> cases y <;> simp [intersect, Finset.inter_comm]

theorem intersect_assoc (x y z : Option TermSet) :
    intersect (intersect x y) z = intersect x (intersect y z) := by
  cases x <;> cases y <;> cases z <;> simp [intersect, Finset.inter_assoc]

theorem foldl_intersect_perm {l1 l2 : List (Option TermSet)} (h : l1.Perm l2)
    (init : Option TermSet) : l1.foldl intersect init = l2.foldl intersect init :=
  h.foldl_eq' (fun a1 _ a2 _ b => by
    rw [intersect_assoc, intersect_assoc, intersect_comm a1 a2]) init

/-- the constraint contributed by one embedded element, read against a given
state, when the go1.18 gates are open. -/
def contrib (s : CompState) : EType → Option TermSet
  | .iface _ j => (s.store.getD j {}).allTypes
  | .union ts => some ts.toFinset
  | .typeParam ts => some ts.toFinset
  | .invalid => none
  | .other _ u => some ({⟨false, u⟩} : TermSet)

/-- an embedded element whose completion needs no recursion: any interface
it refers to is already complete. -/
def embReady (s : CompState) : EType → Prop
  | .iface _ j => (s.store.getD j {}).allMethods ≠ none
  | _ => True

instance (s : CompState) (e : EType) : Decidable (embReady s e) :=
  match e with
  | .iface _ j => inferInstanceAs (Decidable ((s.store.getD j {}).allMethods ≠ none))
  | .union _ => .isTrue trivial
  | .typeParam _ => .isTrue trivial
  | .invalid => .isTrue trivial
  | .other _ _ => .isTrue trivial

/-- an embedded element that refers neither to the interface being completed
nor to any incomplete interface. -/
def embReadyAway (s : CompState) (i : Nat) : EType → Prop
  | .iface _ j => j ≠ i ∧ (s.store.getD j {}).allMethods ≠ none
  | _ => True

instance (s : CompState) (i : Nat) (e : EType) : Decidable (embReadyAway s i e) :=
  match e with
  | .iface _ j =>
    inferInstanceAs (Decidable (j ≠ i ∧ (s.store.getD j {}).allMethods ≠ none))
  | .union _ => .isTrue trivial
  | .typeParam _ => .isTrue trivial
  | .invalid => .isTrue trivial
  | .other _ _ => .isTrue trivial

theorem foldl_contrib_congr : ∀ (pairs : List (EType × Nat)) (allT : Option TermSet)
    {s s2 : CompState}, (∀ p ∈ pairs, contrib s2 p.1 = contrib s p.1) →
    pairs.foldl (fun acc p => intersect acc (contrib s2 p.1)) allT =
    pairs.foldl (fun acc p => intersect acc (contrib s p.1)) allT
  | [], _, _, _, _ => rfl
  | p :: rest, allT, s, s2, h => by
    rw [List.foldl_cons, List.foldl_cons, h p (List.mem_cons_self _ _),
      foldl_contrib_congr rest _ (fun q hq => h q (List.mem_cons_of_mem _ hq))]

theorem foldl_contrib_as_map (s : CompState) : ∀ (l : List (EType × Nat))
    (init : Option TermSet),
    l.foldl (fun acc p => intersect acc (contrib s p.1)) init =
    (l.map (fun p => contrib s p.1)).foldl intersect init
  | [], _ => rfl
  | p :: rest, init => by
    rw [List.foldl_cons, List.map_cons, List.foldl_cons, foldl_contrib_as_map s rest]

theorem addMethod_some_ok (c : Checker) (a : AddSt) (s : CompState) (pos : Nat)
    (m : Func) (ex : Bool) : ∃ a1 s1,
    addMethod (some c) a s pos m ex = .ok (a1, s1) ∧ s1.store = s.store ∧
      a1.todo = a.todo := by
  unfold addMethod
  cases seenLookup a.seen (Id m) with
  | none => exact ⟨_, _, rfl, rfl, rfl⟩
  | some other =>
    cases ex with
    | true => exact ⟨_, _, rfl, rfl, rfl⟩
    | false => exact ⟨_, _, rfl, rfl, rfl⟩

theorem addInherited_some_ok (c : Checker) (pos : Nat) : ∀ (ms : List Func) (a : AddSt)
    (s : CompState), ∃ a1 s1,
    addInherited (some c) pos ms a s = .ok (a1, s1) ∧ s1.store = s.store ∧
      a1.todo = a.todo
  | [], a, s => ⟨a, s, rfl, rfl, rfl⟩
  | m :: ms, a, s => by
    obtain ⟨a1, s1, h1, hst1, htd1⟩ := addMethod_some_ok c a s pos m false
    obtain ⟨a2, s2, h2, hst2, htd2⟩ := addInherited_some_ok c pos ms a1 s1
    refine ⟨a2, s2, ?_, by rw [hst2, hst1], by rw [htd2, htd1]⟩
    show (match addMethod (some c) a s pos m false with
      | Except.error e => Except.error e
      | Except.ok (a1, s1) => addInherited (some c) pos ms a1 s1) = _
    rw [h1]
    exact h2

theorem addExplicits_some_ok (c : Checker) : ∀ (ms : List Func) (a : AddSt)
    (s : CompState), ∃ a1 s1,
    addExplicits (some c) ms a s = .ok (a1, s1) ∧ s1.store = s.store ∧
      a1.todo = a.todo
  | [], a, s => ⟨a, s, rfl, rfl, rfl⟩
  | m :: ms, a, s => by
    obtain ⟨a1, s1, h1, hst1, htd1⟩ := addMethod_some_ok c a s m.pos m true
    obtain ⟨a2, s2, h2, hst2, htd2⟩ := addExplicits_some_ok c ms a1 s1
    refine ⟨a2, s2, ?_, by rw [hst2, hst1], by rw [htd2, htd1]⟩
    show (match addMethod (some c) a s m.pos m true with
      | Except.error e => Except.error e
      | Except.ok (a1, s1) => addExplicits (some c) ms a1 s1) = _
    rw [h1]
    exact h2

theorem embReady_of_store_eq {s s2 : CompState} (h : s2.store = s.store) {e : EType}
    (he : embReady s e) : embReady s2 e := by
  cases e with
  | iface k j => simpa [embReady, h] using he
  | union ts => trivial
  | typeParam ts => trivial
  | invalid => trivial
  | other k u => trivial

theorem contrib_of_store_eq {s s2 : CompState} (h : s2.store = s.store) (e : EType) :
    contrib s2 e = contrib s e := by
  cases e <;> simp [contrib, h]

theorem completeEmbeds_fold {c : Checker} (hg : c.go118 = true)
    (recur : Nat → Nat → CompState → Except Failure CompState) :
    ∀ (pairs : List (EType × Nat)) (a : AddSt) (allT : Option TermSet) (s : CompState),
    (∀ p ∈ pairs, embReady s p.1) →
    ∃ a2 s2, completeEmbeds (some c) recur pairs a allT s =
      .ok (a2, pairs.foldl (fun acc p => intersect acc (contrib s p.1)) allT, s2) ∧
      s2.store = s.store ∧ a2.todo = a.todo
  | [], a, allT, s, _ => ⟨a, s, rfl, rfl, rfl⟩
  | (t, pos) :: rest, a, allT, s, h => by
    have hrest := fun p hp => h p (List.mem_cons_of_mem _ hp)
    cases t with
    | iface k j =>
      have hj : (s.store.getD j {}).allMethods ≠ none :=
        h (.iface k j, pos) (List.mem_cons_self _ _)
      obtain ⟨a1, s1, h1, hst1, htd1⟩ :=
        addInherited_some_ok c pos (((s.store.getD j {}).allMethods).getD []) a s
      obtain ⟨a2, s2, h2, hst2, htd2⟩ := completeEmbeds_fold hg recur rest a1
        (intersect allT ((s.store.getD j {}).allTypes)) s1
        (fun p hp => embReady_of_store_eq hst1 (hrest p hp))
      refine ⟨a2, s2, ?_, by rw [hst2, hst1], by rw [htd2, htd1]⟩
      show (match (if (s.store.getD j {}).allMethods = none
            then recur pos j s else Except.ok s) with
        | Except.error e => Except.error e
        | Except.ok s1 =>
          match addInherited (some c) pos (((s1.store.getD j {}).allMethods).getD [])
              a s1 with
          | Except.error e => Except.error e
          | Except.ok (a1, s2) => completeEmbeds (some c) recur rest a1
              (intersect allT ((s1.store.getD j {}).allTypes)) s2) = _
      rw [if_neg hj]
      show (match addInherited (some c) pos (((s.store.getD j {}).allMethods).getD [])
          a s with
        | Except.error e => Except.error e
        | Except.ok (a1, s2) => completeEmbeds (some c) recur rest a1
            (intersect allT ((s.store.getD j {}).allTypes)) s2) = _
      rw [h1]
      show completeEmbeds (some c) recur rest a1
          (intersect allT ((s.store.getD j {}).allTypes)) s1 = _
      rw [h2, List.foldl_cons,
        foldl_contrib_congr rest _ (fun q _ => contrib_of_store_eq hst1 q.1)]
      rfl
    | union ts =>
      obtain ⟨a2, s2, h2, hst2, htd2⟩ := completeEmbeds_fold hg recur rest a
        (intersect allT (some ts.toFinset)) s hrest
      exact ⟨a2, s2, h2, hst2, htd2⟩
    | typeParam ts =>
      obtain ⟨a2, s2, h2, hst2, htd2⟩ := completeEmbeds_fold hg recur rest a
        (intersect allT (some ts.toFinset)) s hrest
      refine ⟨a2, s2, ?_, hst2, htd2⟩
      show (if c.go118 then completeEmbeds (some c) recur rest a
          (intersect allT (some ts.toFinset)) s
        else completeEmbeds (some c) recur rest a allT
          { s with errs := s.errs ++ [.typeParamNotIface pos] }) = _
      rw [if_pos hg]
      exact h2
    | invalid =>
      obtain ⟨a2, s2, h2, hst2, htd2⟩ := completeEmbeds_fold hg recur rest a allT s hrest
      refine ⟨a2, s2, ?_, hst2, htd2⟩
      show completeEmbeds (some c) recur rest a allT s = _
      rw [h2, List.foldl_cons]
      rw [show intersect allT (contrib s EType.invalid) = allT from intersect_none_right _]
    | other k u =>
      obtain ⟨a2, s2, h2, hst2, htd2⟩ := completeEmbeds_fold hg recur rest a
        (intersect allT (some ({⟨false, u⟩} : TermSet))) s hrest
      refine ⟨a2, s2, ?_, hst2, htd2⟩
      show (if c.go118 then completeEmbeds (some c) recur rest a
          (intersect allT (some ({⟨false, u⟩} : TermSet))) s
        else completeEmbeds (some c) recur rest a allT
          { s with errs := s.errs ++ [.notAnIface pos] }) = _
      rw [if_pos hg]
      exact h2

theorem completeInterface_fold {c : Checker} {fuel pos i : Nat} {s : CompState}
    (hg : c.go118 = true) (hno : (s.store.getD i {}).allMethods = none)
    (hlt : i < s.store.length)
    (hready : ∀ p ∈ pairsOf (some c) (s.store.getD i {}), embReadyAway s i p.1) :
    ∃ s', completeInterface (some c) (fuel + 1) pos i s = .ok s' ∧
      (s'.store.getD i {}).allTypes =
        (pairsOf (some c) (s.store.getD i {})).foldl
          (fun acc p => intersect acc (contrib s p.1)) none := by
  obtain ⟨a, s2, hE, hstE, htdE⟩ :=
    addExplicits_some_ok c ((s.store.getD i {}).methods) {} (markSt s i)
  have hready2 : ∀ p ∈ pairsOf (some c) (s.store.getD i {}), embReady s2 p.1 := by
    intro p hp
    have hr := hready p hp
    cases hp1 : p.1 with
    | iface k j =>
      rw [hp1] at hr
      show ((s2.store.getD j {}).allMethods ≠ none)
      rw [hstE]
      show (((markSt s i).store.getD j {}).allMethods ≠ none)
      unfold markSt
      rw [getD_set_ne _ _ _ _ _ (fun hh => hr.1 hh.symm)]
      exact hr.2
    | union ts => trivial
    | typeParam ts => trivial
    | invalid => trivial
    | other k u => trivial
  obtain ⟨a2, s3, hC, hst3, htd3⟩ := completeEmbeds_fold hg
    (completeInterface (some c) fuel) (pairsOf (some c) (s.store.getD i {})) a none
    s2 hready2
  have hcontr : ∀ p ∈ pairsOf (some c) (s.store.getD i {}), contrib s2 p.1 = contrib s p.1 := by
    intro p hp
    have hr := hready p hp
    cases hp1 : p.1 with
    | iface k j =>
      rw [hp1] at hr
      show (s2.store.getD j {}).allTypes = (s.store.getD j {}).allTypes
      rw [hstE]
      show ((markSt s i).store.getD j {}).allTypes = (s.store.getD j {}).allTypes
      unfold markSt
      rw [getD_set_ne _ _ _ _ _ (fun hh => hr.1 hh.symm)]
    | union ts => rfl
    | typeParam ts => rfl
    | invalid => rfl
    | other k u => rfl
  have hlt3 : i < s3.store.length := by
    rw [hst3, hstE]
    simpa [markSt] using hlt
  refine ⟨finalize s3 i a2
    ((pairsOf (some c) (s.store.getD i {})).foldl
      (fun acc p => intersect acc (contrib s2 p.1)) none), ?_, ?_⟩
  · rw [completeInterface_succ, if_pos hno, hE]
    show (match completeEmbeds (some c) (completeInterface (some c) fuel)
        (pairsOf (some c) (s.store.getD i {})) a none s2 with
      | Except.error e => Except.error e
      | Except.ok (a2, allT, s3) =>
        match processTodo a2.todo with
        | some e => Except.error e
        | none => Except.ok (finalize s3 i a2 allT)) = _
    rw [hC]
    show (match processTodo a2.todo with
      | some e => Except.error e
      | none => Except.ok (finalize s3 i a2 _)) = _
    rw [htd3, htdE]
    rfl
  · rw [finalize_getD_self_allTypes hlt3]
    exact foldl_contrib_congr _ _ hcontr

/-- C7: the completed allTypes is the fold of the constraint intersection
over the contributions of the embedded elements (shown here when those
elements are already complete, so the fold needs no recursion), the
unconstrained value is the identity of the intersection on both sides and
is the result when no embedded element contributes a constraint, the
intersection is commutative and associative so that folding the
contributions in any order gives the same constraint, and intersecting two
disjoint term sets succeeds with the empty term set rather than failing. -/
theorem alltypes_intersection :
    (∀ x, intersect none x = x ∧ intersect x none = x) ∧
    (∀ (l : List (EType × Nat)), (∀ p ∈ l, contrib ⟨[], [], []⟩ p.1 = none) →
      l.foldl (fun acc p => intersect acc (contrib ⟨[], [], []⟩ p.1)) none = none) ∧
    (∀ x y, intersect x y = intersect y x) ∧
    (∀ x y z, intersect (intersect x y) z = intersect x (intersect y z)) ∧
    (∀ (l1 l2 : List (Option TermSet)) (init : Option TermSet), l1.Perm l2 →
      l1.foldl intersect init = l2.foldl intersect init) ∧
    (∀ (a b : TermSet), a ∩ b = ∅ → intersect (some a) (some b) = some ∅) ∧
    (∀ (c : Checker) (fuel pos i : Nat) (s : CompState), c.go118 = true →
      (s.store.getD i {}).allMethods = none → i < s.store.length →
      (∀ p ∈ pairsOf (some c) (s.store.getD i {}), embReadyAway s i p.1) →
      ∃ s', completeInterface (some c) (fuel + 1) pos i s = .ok s' ∧
        (s'.store.getD i {}).allTypes =
          (pairsOf (some c) (s.store.getD i {})).foldl
            (fun acc p => intersect acc (contrib s p.1)) none) := by
  refine ⟨fun x => ⟨rfl, intersect_none_right x⟩, ?_, intersect_comm, intersect_assoc,
    fun l1 l2 init h => foldl_intersect_perm h init, ?_, ?_⟩
  · intro l hl
    induction l with
    | nil => rfl
    | cons p rest ih =>
      rw [List.foldl_cons, hl p (List.mem_cons_self _ _)]
      exact ih (fun q hq => hl q (List.mem_cons_of_mem _ hq))
  · intro a b hab
    show some (a ∩ b) = some ∅
    rw [hab]
  · intro c fuel pos i s hg hno hlt hready
    exact completeInterface_fold hg hno hlt hready

/-- a store whose first interface embeds a union, an already-complete
interface carrying a constraint, an invalid element, and a second union
disjoint from the first. -/
def interStore : CompState :=
  ⟨[{ methods := [⟨1, "p", "m", 100⟩],
      embeddeds := [.union [⟨false, 1⟩, ⟨false, 2⟩], .iface none 1, .invalid,
        .union [⟨false, 9⟩]],
      embPos := [3, 4, 5, 6] },
    { allMethods := some [], allTypes := some {⟨false, 2⟩, ⟨false, 3⟩} }], [], []⟩

theorem alltypes_intersection_witness :
    intersect none (some ({⟨false, 1⟩} : TermSet)) = some {⟨false, 1⟩} ∧
    ([some ({⟨false, 1⟩} : TermSet), none, some {⟨false, 2⟩}].foldl intersect none =
      [some ({⟨false, 2⟩} : TermSet), some {⟨false, 1⟩}, none].foldl intersect none) ∧
    intersect (some ({⟨false, 1⟩} : TermSet)) (some {⟨false, 2⟩}) = some ∅ ∧
    (∃ s', completeInterface (some demoChecker) 1 0 0 interStore = .ok s' ∧
      (s'.store.getD 0 {}).allTypes =
        (pairsOf (some demoChecker) (interStore.store.getD 0 {})).foldl
          (fun acc p => intersect acc (contrib interStore p.1)) none) :=
  ⟨(alltypes_intersection.1 (some {⟨false, 1⟩})).1,
   alltypes_intersection.2.2.2.2.1 _ _ none (by decide),
   alltypes_intersection.2.2.2.2.2.1 _ _ (by decide),
   alltypes_intersection.2.2.2.2.2.2 demoChecker 0 0 0 interStore (by decide) (by decide)
     (by decide) (by decide)⟩

/-! Order independence of ingestion and completion.  The original claim is
refuted by duplicate identity keys (first occurrence wins, so the surviving
method depends on declaration order); with pairwise distinct keys ingestion
is order independent, and the constraint fold is order independent always. -/

/-- a member that ingests as a plain method: named, not blank, not a type
list marker, resolving to a signature without type parameters. -/
def plainMethod (check : Checker) (f : Member) : Bool :=
  match f.name, check.typOf f.typ with
  | some name, .sig tp _ => !(name = "_") && !(name = "type") && !tp
  | _, _ => false

/-- the method slot collected for a plain method member. -/
def funcOf (check : Checker) (f : Member) : Func :=
  match f.name, check.typOf f.typ with
  | some name, .sig _ sid => ⟨f.namePos, check.pkg, name, sid⟩
  | _, _ => ⟨0, "", "", 0⟩

theorem ingest_plain_step (check : Checker) (st : IngestSt) (idx : Nat) {f : Member}
    (h : plainMethod check f = true) :
    ingestMember check st idx f = { st with methods := st.methods ++ [funcOf check f] } := by
  cases hn : f.name with
  | none => rw [plainMethod, hn] at h; simp at h
  | some name =>
    cases ht : check.typOf f.typ with
    | sig tp sid =>
      rw [plainMethod, hn, ht] at h
      simp only [Bool.and_eq_true, Bool.not_eq_true', decide_eq_false_iff_not,
        Bool.not_eq_true] at h
      obtain ⟨⟨h1, h2⟩, h3⟩ := h
      subst h3
      simp [ingestMember, funcOf, hn, ht, h1, h2, acceptMethodTypeParams]
    | invalid => rw [plainMethod, hn, ht] at h; simp at h
    | nonsig t => rw [plainMethod, hn, ht] at h; simp at h

theorem ingest_plain_fold (check : Checker) : ∀ (ps : List (Nat × Member)) (st : IngestSt),
    (∀ p ∈ ps, plainMethod check p.2 = true) →
    ps.foldl (fun st p => ingestMember check st p.1 p.2) st =
      { st with methods := st.methods ++ ps.map (fun p => funcOf check p.2) }
  | [], st, _ => by simp
  | p :: rest, st, h => by
    rw [List.foldl_cons, ingest_plain_step check st p.1 (h p (List.mem_cons_self _ _)),
      ingest_plain_fold check rest _ (fun q hq => h q (List.mem_cons_of_mem _ hq))]
    simp

theorem interfaceType_plain (check : Checker) (i : Nat) (s : CompState)
    (l : List Member) (hne : l ≠ []) (hpl : ∀ f ∈ l, plainMethod check f = true) :
    interfaceType check i l s =
      (CompState.mk
        (s.store.set i (Iface.mk (sortMethods (l.map (funcOf check))) [] [] none none))
        s.errs s.delayed, true) := by
  have hf : ∀ p ∈ l.enum, plainMethod check p.2 = true := by
    intro p hp
    apply hpl
    have := List.mem_map_of_mem Prod.snd hp
    rwa [List.enum_map_snd] at this
  have hmap : (l.enum).map (fun p => funcOf check p.2) = l.map (funcOf check) := by
    have h2 : (l.enum).map (fun p => funcOf check p.2) =
        ((l.enum).map Prod.snd).map (funcOf check) := by
      rw [List.map_map]
      rfl
    rw [h2, List.enum_map_snd]
  have hne2 : l.map (funcOf check) ≠ [] := by
    intro hc
    exact hne (List.map_eq_nil_iff.mp hc)
  simp only [interfaceType]
  rw [ingest_plain_fold check _ _ hf, hmap]
  simp [hne2]
  rfl

/-- a member that ingests without diagnostics: an embedded element or a
plain method. -/
def mixedMember (check : Checker) (f : Member) : Bool :=
  f.name.isNone || plainMethod check f

/-- the method slots one member contributes. -/
def memberFuncs (check : Checker) (f : Member) : List Func :=
  if f.name.isNone then [] else [funcOf check f]

/-- the embedded elements one member contributes. -/
def memberEmbeds (check : Checker) (f : Member) : List EType :=
  if f.name.isNone then [parseUnion check (flattenUnion [] f.typ)] else []

/-- the embedding positions one member contributes. -/
def memberEmbPos (f : Member) : List Nat :=
  if f.name.isNone then [f.typ.pos] else []

theorem ingest_mixed_step (check : Checker) (st : IngestSt) (idx : Nat) {f : Member}
    (h : mixedMember check f = true) :
    ingestMember check st idx f =
      { st with
        methods := st.methods ++ memberFuncs check f,
        embeddeds := st.embeddeds ++ memberEmbeds check f,
        embPos := st.embPos ++ memberEmbPos f } := by
  cases hn : f.name with
  | none =>
    simp [ingestMember, memberFuncs, memberEmbeds, memberEmbPos, hn]
  | some name =>
    have hp : plainMethod check f = true := by
      rw [mixedMember, hn] at h
      simpa using h
    rw [ingest_plain_step check st idx hp]
    simp [memberFuncs, memberEmbeds, memberEmbPos, hn]

theorem ingest_mixed_fold (check : Checker) : ∀ (ps : List (Nat × Member)) (st : IngestSt),
    (∀ p ∈ ps, mixedMember check p.2 = true) →
    ps.foldl (fun st p => ingestMember check st p.1 p.2) st =
      { st with
        methods := st.methods ++ (ps.map (fun p => memberFuncs check p.2)).flatten,
        embeddeds := st.embeddeds ++ (ps.map (fun p => memberEmbeds check p.2)).flatten,
        embPos := st.embPos ++ (ps.map (fun p => memberEmbPos p.2)).flatten }
  | [], st, _ => by simp
  | p :: rest, st, h => by
    rw [List.foldl_cons, ingest_mixed_step check st p.1 (h p (List.mem_cons_self _ _)),
      ingest_mixed_fold check rest _ (fun q hq => h q (List.mem_cons_of_mem _ hq))]
    simp

theorem interfaceType_mixed (check : Checker) (i : Nat) (s : CompState)
    (l : List Member) (hne : l ≠ []) (hpl : ∀ f ∈ l, mixedMember check f = true) :
    interfaceType check i l s =
      (CompState.mk
        (s.store.set i (Iface.mk (sortMethods ((l.map (memberFuncs check)).flatten))
          (sortTypes ((l.map (memberEmbeds check)).flatten))
          ((l.map memberEmbPos).flatten) none none))
        s.errs s.delayed, true) := by
  have hf : ∀ p ∈ l.enum, mixedMember check p.2 = true := by
    intro p hp
    apply hpl
    have := List.mem_map_of_mem Prod.snd hp
    rwa [List.enum_map_snd] at this
  have hm1 : (l.enum).map (fun p => memberFuncs check p.2) = l.map (memberFuncs check) := by
    have h2 : (l.enum).map (fun p => memberFuncs check p.2) =
        ((l.enum).map Prod.snd).map (memberFuncs check) := by
      rw [List.map_map]
      rfl
    rw [h2, List.enum_map_snd]
  have hm2 : (l.enum).map (fun p => memberEmbeds check p.2) = l.map (memberEmbeds check) := by
    have h2 : (l.enum).map (fun p => memberEmbeds check p.2) =
        ((l.enum).map Prod.snd).map (memberEmbeds check) := by
      rw [List.map_map]
      rfl
    rw [h2, List.enum_map_snd]
  have hm3 : (l.enum).map (fun p => memberEmbPos p.2) = l.map memberEmbPos := by
    have h2 : (l.enum).map (fun p => memberEmbPos p.2) =
        ((l.enum).map Prod.snd).map memberEmbPos := by
      rw [List.map_map]
      rfl
    rw [h2, List.enum_map_snd]
  simp only [interfaceType]
  rw [ingest_mixed_fold check _ _ hf, hm1, hm2, hm3]
  simp
  intro hall
  cases hl : l with
  | nil => exact absurd hl hne
  | cons f fs =>
    refine ⟨f, List.mem_cons_self _ _, ?_⟩
    cases hn : f.name with
    | none =>
      rw [memberEmbeds, hn]
      simp
    | some name =>
      have hc := hall f (by rw [hl]; exact List.mem_cons_self _ _)
      rw [memberFuncs, hn] at hc
      simp at hc

theorem interfaceType_mixed_entry (check : Checker) (i : Nat) (s : CompState)
    (l : List Member) (hlt : i < s.store.length) (hne : l ≠ [])
    (hpl : ∀ f ∈ l, mixedMember check f = true) :
    (interfaceType check i l s).1.store.getD i {} =
      Iface.mk (sortMethods ((l.map (memberFuncs check)).flatten))
        (sortTypes ((l.map (memberEmbeds check)).flatten))
        ((l.map memberEmbPos).flatten) none none ∧
    (interfaceType check i l s).1.errs = s.errs ∧
    (interfaceType check i l s).1.delayed = s.delayed ∧
    (interfaceType check i l s).1.store.length = s.store.length ∧
    (∀ j, j ≠ i → (interfaceType check i l s).1.store.getD j {} = s.store.getD j {}) ∧
    (interfaceType check i l s).2 = true := by
  rw [interfaceType_mixed check i s l hne hpl]
  refine ⟨getD_set_self _ _ _ _ hlt, rfl, rfl, by simp, ?_, rfl⟩
  intro j hj
  exact getD_set_ne _ _ _ _ _ (fun hh => hj hh.symm)

/-- the closure contributed by one embedded element, read against a given
state. -/
def inheritedOf (s : CompState) : EType → List Func
  | .iface _ j => ((s.store.getD j {}).allMethods).getD []
  | _ => []

/-- the objset keys track exactly the collected method slots. -/
def seenExact (a : AddSt) : Prop := a.seen.map Prod.fst = a.methods.map Id

theorem pw_append_cons_not_mem {xs ys : List Func} {y : Func}
    (h : (xs ++ y :: ys).Pairwise (fun a b => Id a ≠ Id b)) : Id y ∉ xs.map Id := by
  rw [List.pairwise_append] at h
  intro hc
  obtain ⟨a, ha, hae⟩ := List.mem_map.mp hc
  exact h.2.2 a ha y (List.mem_cons_self _ _) hae

theorem addMethod_fresh_of_pw {check : Option Checker} {a : AddSt} {s : CompState}
    {pos : Nat} {m : Func} {ex : Bool} (hse : seenExact a)
    (hnm : Id m ∉ a.methods.map Id) :
    addMethod check a s pos m ex =
      .ok ({ a with
             seen := a.seen ++ [(Id m, m)],
             methods := a.methods ++ [m],
             mpos := a.mpos ++ [(m, pos)] }, s) :=
  addMethod_fresh (seenLookup_none_iff.mpr (by rw [hse]; exact hnm))

theorem seenExact_snoc {a : AddSt} {m : Func} {pos : Nat} (hse : seenExact a) :
    seenExact { a with
      seen := a.seen ++ [(Id m, m)],
      methods := a.methods ++ [m],
      mpos := a.mpos ++ [(m, pos)] } := by
  unfold seenExact at hse ⊢
  simp [hse]

theorem addInherited_fresh {check : Option Checker} {pos : Nat} :
    ∀ {ms : List Func} {a : AddSt} {s : CompState}, seenExact a →
    (a.methods ++ ms).Pairwise (fun x y => Id x ≠ Id y) →
    ∃ a1, addInherited check pos ms a s = .ok (a1, s) ∧
      a1.methods = a.methods ++ ms ∧ seenExact a1 ∧ a1.todo = a.todo
  | [], a, s, hse, _ => ⟨a, rfl, (List.append_nil _).symm, hse, rfl⟩
  | m :: ms, a, s, hse, hpw => by
    have hnm : Id m ∉ a.methods.map Id := pw_append_cons_not_mem hpw
    have hpw2 : (({ a with
        seen := a.seen ++ [(Id m, m)],
        methods := a.methods ++ [m],
        mpos := a.mpos ++ [(m, pos)] } : AddSt).methods ++ ms).Pairwise
          (fun x y => Id x ≠ Id y) := by
      show ((a.methods ++ [m]) ++ ms).Pairwise _
      rw [List.append_assoc]
      exact hpw
    obtain ⟨a1, h1, hm1, hse1, ht1⟩ := addInherited_fresh (seenExact_snoc hse) hpw2
    refine ⟨a1, ?_, ?_, hse1, ht1⟩
    · show (match addMethod check a s pos m false with
        | Except.error e => Except.error e
        | Except.ok (a1, s1) => addInherited check pos ms a1 s1) = _
      rw [@addMethod_fresh_of_pw check a s pos m false hse hnm]
      exact h1
    · rw [hm1]
      show (a.methods ++ [m]) ++ ms = _
      rw [List.append_assoc]
      rfl

theorem addExplicits_fresh {check : Option Checker} :
    ∀ {ms : List Func} {a : AddSt} {s : CompState}, seenExact a →
    (a.methods ++ ms).Pairwise (fun x y => Id x ≠ Id y) →
    ∃ a1, addExplicits check ms a s = .ok (a1, s) ∧
      a1.methods = a.methods ++ ms ∧ seenExact a1 ∧ a1.todo = a.todo
  | [], a, s, hse, _ => ⟨a, rfl, (List.append_nil _).symm, hse, rfl⟩
  | m :: ms, a, s, hse, hpw => by
    have hnm : Id m ∉ a.methods.map Id := pw_append_cons_not_mem hpw
    have hpw2 : (({ a with
        seen := a.seen ++ [(Id m, m)],
        methods := a.methods ++ [m],
        mpos := a.mpos ++ [(m, m.pos)] } : AddSt).methods ++ ms).Pairwise
          (fun x y => Id x ≠ Id y) := by
      show ((a.methods ++ [m]) ++ ms).Pairwise _
      rw [List.append_assoc]
      exact hpw
    obtain ⟨a1, h1, hm1, hse1, ht1⟩ := addExplicits_fresh (seenExact_snoc hse) hpw2
    refine ⟨a1, ?_, ?_, hse1, ht1⟩
    · show (match addMethod check a s m.pos m true with
        | Except.error e => Except.error e
        | Except.ok (a1, s1) => addExplicits check ms a1 s1) = _
      rw [@addMethod_fresh_of_pw check a s m.pos m true hse hnm]
      exact h1
    · rw [hm1]
      show (a.methods ++ [m]) ++ ms = _
      rw [List.append_assoc]
      rfl

theorem completeEmbeds_fresh {c : Checker} (hg : c.go118 = true)
    (recur : Nat → Nat → CompState → Except Failure CompState) :
    ∀ (pairs : List (EType × Nat)) (a : AddSt) (allT : Option TermSet) (s : CompState),
    (∀ p ∈ pairs, embReady s p.1) → seenExact a →
    (a.methods ++ (pairs.map (fun p => inheritedOf s p.1)).flatten).Pairwise
      (fun x y => Id x ≠ Id y) →
    ∃ a2, completeEmbeds (some c) recur pairs a allT s =
        .ok (a2, pairs.foldl (fun acc p => intersect acc (contrib s p.1)) allT, s) ∧
      a2.methods = a.methods ++ (pairs.map (fun p => inheritedOf s p.1)).flatten ∧
      seenExact a2 ∧ a2.todo = a.todo
  | [], a, allT, s, _, hse, _ => ⟨a, rfl, (List.append_nil _).symm, hse, rfl⟩
  | (t, pos) :: rest, a, allT, s, h, hse, hpw => by
    have hrest := fun p hp => h p (List.mem_cons_of_mem _ hp)
    cases t with
    | iface k j =>
      have hj : (s.store.getD j {}).allMethods ≠ none :=
        h (.iface k j, pos) (List.mem_cons_self _ _)
      have hpwI : (a.methods ++ inheritedOf s (.iface k j)).Pairwise
          (fun x y => Id x ≠ Id y) := by
        refine List.Pairwise.sublist ?_ hpw
        rw [show ((((EType.iface k j, pos) :: rest).map
            (fun p => inheritedOf s p.1)).flatten) =
          inheritedOf s (.iface k j) ++
            ((rest.map (fun p => inheritedOf s p.1)).flatten) from rfl]
        rw [← List.append_assoc]
        exact List.sublist_append_left _ _
      obtain ⟨a1, h1, hm1, hse1, ht1⟩ :=
        @addInherited_fresh (some c) pos (inheritedOf s (.iface k j)) a s hse hpwI
      have hpw2 : (a1.methods ++
          ((rest.map (fun p => inheritedOf s p.1)).flatten)).Pairwise
            (fun x y => Id x ≠ Id y) := by
        rw [hm1, List.append_assoc]
        exact hpw
      obtain ⟨a2, h2, hm2, hse2, ht2⟩ := completeEmbeds_fresh hg recur rest a1
        (intersect allT ((s.store.getD j {}).allTypes)) s hrest hse1 hpw2
      refine ⟨a2, ?_, ?_, hse2, by rw [ht2, ht1]⟩
      · show (match (if (s.store.getD j {}).allMethods = none
            then recur pos j s else Except.ok s) with
          | Except.error e => Except.error e
          | Except.ok s1 =>
            match addInherited (some c) pos (((s1.store.getD j {}).allMethods).getD [])
                a s1 with
            | Except.error e => Except.error e
            | Except.ok (a1, s2) => completeEmbeds (some c) recur rest a1
                (intersect allT ((s1.store.getD j {}).allTypes)) s2) = _
        rw [if_neg hj]
        show (match addInherited (some c) pos (((s.store.getD j {}).allMethods).getD [])
            a s with
          | Except.error e => Except.error e
          | Except.ok (a1, s2) => completeEmbeds (some c) recur rest a1
              (intersect allT ((s.store.getD j {}).allTypes)) s2) = _
        rw [show (((s.store.getD j {}).allMethods).getD []) =
          inheritedOf s (.iface k j) from rfl]
        rw [h1]
        show completeEmbeds (some c) recur rest a1
            (intersect allT ((s.store.getD j {}).allTypes)) s = _
        rw [h2]
        rfl
      · rw [hm2, hm1, List.append_assoc]
        rfl
    | union ts =>
      obtain ⟨a2, h2, hm2, hse2, ht2⟩ := completeEmbeds_fresh hg recur rest a
        (intersect allT (some ts.toFinset)) s hrest hse hpw
      exact ⟨a2, h2, hm2, hse2, ht2⟩
    | typeParam ts =>
      obtain ⟨a2, h2, hm2, hse2, ht2⟩ := completeEmbeds_fresh hg recur rest a
        (intersect allT (some ts.toFinset)) s hrest hse hpw
      refine ⟨a2, ?_, hm2, hse2, ht2⟩
      show (if c.go118 then completeEmbeds (some c) recur rest a
          (intersect allT (some ts.toFinset)) s
        else completeEmbeds (some c) recur rest a allT
          { s with errs := s.errs ++ [.typeParamNotIface pos] }) = _
      rw [if_pos hg]
      exact h2
    | invalid =>
      obtain ⟨a2, h2, hm2, hse2, ht2⟩ :=
        completeEmbeds_fresh hg recur rest a allT s hrest hse hpw
      refine ⟨a2, ?_, hm2, hse2, ht2⟩
      show completeEmbeds (some c) recur rest a allT s = _
      rw [h2, List.foldl_cons]
      rw [show intersect allT (contrib s EType.invalid) = allT from intersect_none_right _]
    | other k u =>
      obtain ⟨a2, h2, hm2, hse2, ht2⟩ := completeEmbeds_fresh hg recur rest a
        (intersect allT (some ({⟨false, u⟩} : TermSet))) s hrest hse hpw
      refine ⟨a2, ?_, hm2, hse2, ht2⟩
      show (if c.go118 then completeEmbeds (some c) recur rest a
          (intersect allT (some ({⟨false, u⟩} : TermSet))) s
        else completeEmbeds (some c) recur rest a allT
          { s with errs := s.errs ++ [.notAnIface pos] }) = _
      rw [if_pos hg]
      exact h2

theorem completeInterface_fresh {c : Checker} {fuel pos i : Nat} {s : CompState}
    (hg : c.go118 = true) (hno : (s.store.getD i {}).allMethods = none)
    (hlt : i < s.store.length)
    (hlen : (s.store.getD i {}).embeddeds.length = (s.store.getD i {}).embPos.length)
    (hready : ∀ e ∈ (s.store.getD i {}).embeddeds, embReadyAway s i e)
    (hkeys : ((s.store.getD i {}).methods ++
      ((s.store.getD i {}).embeddeds.map (inheritedOf s)).flatten).Pairwise
        (fun x y => Id x ≠ Id y)) :
    ∃ s', completeInterface (some c) (fuel + 1) pos i s = .ok s' ∧
      (s'.store.getD i {}).allMethods =
        some (sortMethods ((s.store.getD i {}).methods ++
          ((s.store.getD i {}).embeddeds.map (inheritedOf s)).flatten)) ∧
      (s'.store.getD i {}).allTypes =
        ((s.store.getD i {}).embeddeds.map (contrib s)).foldl intersect none := by
  have hpwM : (({} : AddSt).methods ++ (s.store.getD i {}).methods).Pairwise
      (fun x y => Id x ≠ Id y) := by
    show ([] ++ _).Pairwise _
    rw [List.nil_append]
    exact List.Pairwise.sublist (List.sublist_append_left _ _) hkeys
  obtain ⟨a, hE, hmE, hseE, htE⟩ :=
    @addExplicits_fresh (some c) ((s.store.getD i {}).methods) {} (markSt s i) rfl hpwM
  have hfst : (pairsOf (some c) (s.store.getD i {})).map Prod.fst =
      (s.store.getD i {}).embeddeds := by
    show (((s.store.getD i {}).embeddeds.zip (s.store.getD i {}).embPos).map Prod.fst) = _
    exact List.map_fst_zip _ _ (le_of_eq hlen)
  have hmem_fst : ∀ p ∈ pairsOf (some c) (s.store.getD i {}),
      p.1 ∈ (s.store.getD i {}).embeddeds := by
    intro p hp
    rw [← hfst]
    exact List.mem_map_of_mem Prod.fst hp
  have hinh : ∀ e ∈ (s.store.getD i {}).embeddeds,
      inheritedOf (markSt s i) e = inheritedOf s e := by
    intro e he
    have hr := hready e he
    cases he1 : e with
    | iface k j =>
      rw [he1] at hr
      show (((markSt s i).store.getD j {}).allMethods).getD [] = _
      unfold markSt
      rw [getD_set_ne _ _ _ _ _ (fun hh => hr.1 hh.symm)]
      rfl
    | union ts => rfl
    | typeParam ts => rfl
    | invalid => rfl
    | other k u => rfl
  have hjoin : ((pairsOf (some c) (s.store.getD i {})).map
      (fun p => inheritedOf (markSt s i) p.1)).flatten =
      ((s.store.getD i {}).embeddeds.map (inheritedOf s)).flatten := by
    have h1 : ((pairsOf (some c) (s.store.getD i {})).map
        (fun p => inheritedOf (markSt s i) p.1)) =
        (((pairsOf (some c) (s.store.getD i {})).map Prod.fst).map
          (inheritedOf (markSt s i))) := by
      rw [List.map_map]
      rfl
    rw [h1, hfst, List.map_congr_left hinh]
  have hreadyP : ∀ p ∈ pairsOf (some c) (s.store.getD i {}),
      embReady (markSt s i) p.1 := by
    intro p hp
    have hr := hready p.1 (hmem_fst p hp)
    cases hp1 : p.1 with
    | iface k j =>
      rw [hp1] at hr
      show ((markSt s i).store.getD j {}).allMethods ≠ none
      unfold markSt
      rw [getD_set_ne _ _ _ _ _ (fun hh => hr.1 hh.symm)]
      exact hr.2
    | union ts => trivial
    | typeParam ts => trivial
    | invalid => trivial
    | other k u => trivial
  have hpwC : (a.methods ++ ((pairsOf (some c) (s.store.getD i {})).map
      (fun p => inheritedOf (markSt s i) p.1)).flatten).Pairwise
        (fun x y => Id x ≠ Id y) := by
    rw [hmE, hjoin]
    show (([] ++ _) ++ _).Pairwise _
    rw [List.nil_append]
    exact hkeys
  obtain ⟨a2, hC, hm2, hse2, ht2⟩ := completeEmbeds_fresh hg
    (completeInterface (some c) fuel) (pairsOf (some c) (s.store.getD i {})) a none
    (markSt s i) hreadyP hseE hpwC
  have hmeth : a2.methods = (s.store.getD i {}).methods ++
      ((s.store.getD i {}).embeddeds.map (inheritedOf s)).flatten := by
    rw [hm2, hmE, hjoin]
    show ([] ++ _) ++ _ = _
    rw [List.nil_append]
  have hfold : (pairsOf (some c) (s.store.getD i {})).foldl
      (fun acc p => intersect acc (contrib (markSt s i) p.1)) none =
      ((s.store.getD i {}).embeddeds.map (contrib s)).foldl intersect none := by
    rw [foldl_contrib_as_map]
    have h1 : ((pairsOf (some c) (s.store.getD i {})).map
        (fun p => contrib (markSt s i) p.1)) =
        (((pairsOf (some c) (s.store.getD i {})).map Prod.fst).map
          (contrib (markSt s i))) := by
      rw [List.map_map]
      rfl
    have hce : ∀ e ∈ (s.store.getD i {}).embeddeds,
        contrib (markSt s i) e = contrib s e := by
      intro e he
      have hr := hready e he
      cases he1 : e with
      | iface k j =>
        rw [he1] at hr
        show ((markSt s i).store.getD j {}).allTypes = _
        unfold markSt
        rw [getD_set_ne _ _ _ _ _ (fun hh => hr.1 hh.symm)]
        rfl
      | union ts => rfl
      | typeParam ts => rfl
      | invalid => rfl
      | other k u => rfl
    rw [h1, hfst, List.map_congr_left hce]
  have hlt2 : i < (markSt s i).store.length := by simpa [markSt] using hlt
  refine ⟨finalize (markSt s i) i a2
      ((pairsOf (some c) (s.store.getD i {})).foldl
        (fun acc p => intersect acc (contrib (markSt s i) p.1)) none), ?_, ?_, ?_⟩
  · rw [completeInterface_succ, if_pos hno, hE]
    show (match completeEmbeds (some c) (completeInterface (some c) fuel)
        (pairsOf (some c) (s.store.getD i {})) a none (markSt s i) with
      | Except.error e => Except.error e
      | Except.ok (a2, allT, s3) =>
        match processTodo a2.todo with
        | some e => Except.error e
        | none => Except.ok (finalize s3 i a2 allT)) = _
    rw [hC]
    show (match processTodo a2.todo with
      | some e => Except.error e
      | none => Except.ok (finalize (markSt s i) i a2 _)) = _
    rw [ht2, htE]
    rfl
  · rw [finalize_getD_self_allMethods hlt2, hmeth]
    by_cases hLnil : ((s.store.getD i {}).methods ++
        ((s.store.getD i {}).embeddeds.map (inheritedOf s)).flatten) = []
    · rw [if_pos hLnil]
      rw [show ((markSt s i).store.getD i {}).allMethods = some [] from by
        rw [markSt_getD_self hlt]]
      rw [hLnil]
      rfl
    · rw [if_neg hLnil]
  · rw [finalize_getD_self_allTypes hlt2]
    exact hfold

theorem ingest_perm_invariant (check : Checker) (i : Nat) (s : CompState)
    (l1 l2 : List Member) (hlt : i < s.store.length) (hp : l1.Perm l2)
    (hpl : ∀ f ∈ l1, mixedMember check f = true)
    (hkeys : ((l1.map (memberFuncs check)).flatten).Pairwise (fun x y => Id x ≠ Id y)) :
    ((interfaceType check i l1 s).1.store.getD i {}).methods =
      ((interfaceType check i l2 s).1.store.getD i {}).methods ∧
    ((interfaceType check i l1 s).1.store.getD i {}).embeddeds.Perm
      ((interfaceType check i l2 s).1.store.getD i {}).embeddeds ∧
    ((interfaceType check i l1 s).1.store.getD i {}).allMethods =
      ((interfaceType check i l2 s).1.store.getD i {}).allMethods ∧
    ((interfaceType check i l1 s).1.store.getD i {}).allTypes =
      ((interfaceType check i l2 s).1.store.getD i {}).allTypes ∧
    (interfaceType check i l1 s).2 = (interfaceType check i l2 s).2 := by
  rcases eq_or_ne l1 [] with rfl | hne1
  · have h2 : l2 = [] := hp.symm.eq_nil
    subst h2
    exact ⟨rfl, List.Perm.refl _, rfl, rfl, rfl⟩
  · have hne2 : l2 ≠ [] := by
      intro hc
      rw [hc] at hp
      exact hne1 hp.eq_nil
    have hpl2 : ∀ f ∈ l2, mixedMember check f = true :=
      fun g hg => hpl g (hp.symm.subset hg)
    obtain ⟨e1, _, _, _, _, f1⟩ := interfaceType_mixed_entry check i s l1 hlt hne1 hpl
    obtain ⟨e2, _, _, _, _, f2⟩ := interfaceType_mixed_entry check i s l2 hlt hne2 hpl2
    rw [e1, e2, f1, f2]
    refine ⟨?_, ?_, rfl, rfl, rfl⟩
    · show sortMethods ((l1.map (memberFuncs check)).flatten) =
        sortMethods ((l2.map (memberFuncs check)).flatten)
      exact sortMethods_eq_of_perm ((hp.map (memberFuncs check)).flatten) hkeys
    · show (sortTypes ((l1.map (memberEmbeds check)).flatten)).Perm
        (sortTypes ((l2.map (memberEmbeds check)).flatten))
      exact ((List.perm_insertionSort tLe _).trans
        ((hp.map (memberEmbeds check)).flatten)).trans
        (List.perm_insertionSort tLe _).symm

theorem completion_perm_invariant {c : Checker} {fuel pos i : Nat} {s t : CompState}
    (hg : c.go118 = true) (hst : StEq i s t)
    (hperm : ((t.store.getD i {}).embeddeds).Perm ((s.store.getD i {}).embeddeds))
    (hno : (s.store.getD i {}).allMethods = none) (hlt : i < s.store.length)
    (hlens : (s.store.getD i {}).embeddeds.length = (s.store.getD i {}).embPos.length)
    (hlent : (t.store.getD i {}).embeddeds.length = (t.store.getD i {}).embPos.length)
    (hready : ∀ e ∈ (s.store.getD i {}).embeddeds, embReadyAway s i e)
    (hkeys : ((s.store.getD i {}).methods ++
      ((s.store.getD i {}).embeddeds.map (inheritedOf s)).flatten).Pairwise
        (fun x y => Id x ≠ Id y)) :
    ∃ s' t', completeInterface (some c) (fuel + 1) pos i s = .ok s' ∧
      completeInterface (some c) (fuel + 1) pos i t = .ok t' ∧
      (s'.store.getD i {}).allMethods = (t'.store.getD i {}).allMethods ∧
      (s'.store.getD i {}).allTypes = (t'.store.getD i {}).allTypes := by
  have hnot : (t.store.getD i {}).allMethods = none := by rw [hst.allM]; exact hno
  have hltt : i < t.store.length := by rw [hst.len]; exact hlt
  have hreadyt : ∀ e ∈ (t.store.getD i {}).embeddeds, embReadyAway t i e := by
    intro e he
    have hr := hready e (hperm.subset he)
    cases he1 : e with
    | iface k j =>
      rw [he1] at hr
      exact ⟨hr.1, by rw [hst.agree j hr.1]; exact hr.2⟩
    | union ts => trivial
    | typeParam ts => trivial
    | invalid => trivial
    | other k u => trivial
  have hinht : ∀ e ∈ (t.store.getD i {}).embeddeds, inheritedOf t e = inheritedOf s e := by
    intro e he
    have hr := hready e (hperm.subset he)
    cases he1 : e with
    | iface k j =>
      rw [he1] at hr
      show ((t.store.getD j {}).allMethods).getD [] = _
      rw [hst.agree j hr.1]
      rfl
    | union ts => rfl
    | typeParam ts => rfl
    | invalid => rfl
    | other k u => rfl
  have hpm : ((t.store.getD i {}).methods ++
      ((t.store.getD i {}).embeddeds.map (inheritedOf t)).flatten).Perm
      ((s.store.getD i {}).methods ++
        ((s.store.getD i {}).embeddeds.map (inheritedOf s)).flatten) := by
    rw [hst.methods, List.map_congr_left hinht]
    exact List.Perm.append_left _ ((hperm.map (inheritedOf s)).flatten)
  have hkeyt : ((t.store.getD i {}).methods ++
      ((t.store.getD i {}).embeddeds.map (inheritedOf t)).flatten).Pairwise
        (fun x y => Id x ≠ Id y) :=
    (hpm.pairwise_iff (by intro x y h e; exact h e.symm)).mpr hkeys
  obtain ⟨s', hs', hMs, hTs⟩ := completeInterface_fresh hg hno hlt hlens hready hkeys
  obtain ⟨t', ht', hMt, hTt⟩ := completeInterface_fresh hg hnot hltt hlent hreadyt hkeyt
  refine ⟨s', t', hs', ht', ?_, ?_⟩
  · rw [hMs, hMt]
    rw [sortMethods_eq_of_perm hpm.symm hkeys]
  · rw [hTs, hTt]
    have hcontr : ∀ e ∈ (t.store.getD i {}).embeddeds, contrib t e = contrib s e := by
      intro e he
      have hr := hready e (hperm.subset he)
      cases he1 : e with
      | iface k j =>
        rw [he1] at hr
        show (t.store.getD j {}).allTypes = _
        rw [hst.agree j hr.1]
        rfl
      | union ts => rfl
      | typeParam ts => rfl
      | invalid => rfl
      | other k u => rfl
    rw [List.map_congr_left hcontr]
    exact (foldl_intersect_perm (hperm.map (contrib s)) none).symm

theorem member_embeds_pos_length (check : Checker) : ∀ (l : List Member),
    ((l.map (memberEmbeds check)).flatten).length = ((l.map memberEmbPos).flatten).length
  | [] => rfl
  | f :: fs => by
    simp only [List.map_cons, List.flatten_cons, List.length_append,
      member_embeds_pos_length check fs]
    have h1 : (memberEmbeds check f).length = (memberEmbPos f).length := by
      unfold memberEmbeds memberEmbPos
      cases hn : f.name.isNone <;> simp [hn]
    rw [h1]

/-- C1 (amended): order independence holds exactly in the absence of
duplicate identity keys.  Permuting the members of a declaration — plain
method members and embedded elements in any interleaving — whose collected
method slots have pairwise distinct identity keys yields the same ingested
methods (the canonical sort erases declaration order) and the same embedded
elements up to order; completing an interface against any permutation of
its embedded elements yields the same all_methods closure and the same
all_types constraint, and the two stages compose: the permuted declaration
completes to the same closure and constraint.  The completion stage is
shown with the go1.18 gate open and against embedded interfaces that are
already complete and distinct from the completed interface (the
representative non-recursive case), with the collected and inherited
identity keys pairwise distinct.  With a duplicate identity key the
property fails: the surviving slot depends on declaration order. -/
theorem order_independence :
    (∀ (check : Checker) (i : Nat) (s : CompState) (l1 l2 : List Member),
      i < s.store.length → l1.Perm l2 →
      (∀ f ∈ l1, mixedMember check f = true) →
      ((l1.map (memberFuncs check)).flatten).Pairwise (fun x y => Id x ≠ Id y) →
      ((interfaceType check i l1 s).1.store.getD i {}).methods =
        ((interfaceType check i l2 s).1.store.getD i {}).methods ∧
      ((interfaceType check i l1 s).1.store.getD i {}).embeddeds.Perm
        ((interfaceType check i l2 s).1.store.getD i {}).embeddeds ∧
      ((interfaceType check i l1 s).1.store.getD i {}).allMethods =
        ((interfaceType check i l2 s).1.store.getD i {}).allMethods ∧
      ((interfaceType check i l1 s).1.store.getD i {}).allTypes =
        ((interfaceType check i l2 s).1.store.getD i {}).allTypes ∧
      (interfaceType check i l1 s).2 = (interfaceType check i l2 s).2) ∧
    (∀ (c : Checker) (fuel pos i : Nat) (s t : CompState), c.go118 = true →
      StEq i s t →
      ((t.store.getD i {}).embeddeds).Perm ((s.store.getD i {}).embeddeds) →
      (s.store.getD i {}).allMethods = none → i < s.store.length →
      (s.store.getD i {}).embeddeds.length = (s.store.getD i {}).embPos.length →
      (t.store.getD i {}).embeddeds.length = (t.store.getD i {}).embPos.length →
      (∀ e ∈ (s.store.getD i {}).embeddeds, embReadyAway s i e) →
      ((s.store.getD i {}).methods ++
        ((s.store.getD i {}).embeddeds.map (inheritedOf s)).flatten).Pairwise
          (fun x y => Id x ≠ Id y) →
      ∃ s' t', completeInterface (some c) (fuel + 1) pos i s = .ok s' ∧
        completeInterface (some c) (fuel + 1) pos i t = .ok t' ∧
        (s'.store.getD i {}).allMethods = (t'.store.getD i {}).allMethods ∧
        (s'.store.getD i {}).allTypes = (t'.store.getD i {}).allTypes) ∧
    (∀ (c : Checker) (fuel pos i : Nat) (s : CompState) (l1 l2 : List Member),
      c.go118 = true → i < s.store.length → l1 ≠ [] → l1.Perm l2 →
      (∀ f ∈ l1, mixedMember c f = true) →
      ((l1.map (memberFuncs c)).flatten).Pairwise (fun x y => Id x ≠ Id y) →
      (∀ e ∈ ((interfaceType c i l1 s).1.store.getD i {}).embeddeds,
        embReadyAway ((interfaceType c i l1 s).1) i e) →
      (((interfaceType c i l1 s).1.store.getD i {}).methods ++
        (((interfaceType c i l1 s).1.store.getD i {}).embeddeds.map
          (inheritedOf ((interfaceType c i l1 s).1))).flatten).Pairwise
            (fun x y => Id x ≠ Id y) →
      ∃ s' t',
        completeInterface (some c) (fuel + 1) pos i ((interfaceType c i l1 s).1) = .ok s' ∧
        completeInterface (some c) (fuel + 1) pos i ((interfaceType c i l2 s).1) = .ok t' ∧
        (s'.store.getD i {}).allMethods = (t'.store.getD i {}).allMethods ∧
        (s'.store.getD i {}).allTypes = (t'.store.getD i {}).allTypes) := by
  refine ⟨fun check i s l1 l2 hlt hp hpl hkeys =>
      ingest_perm_invariant check i s l1 l2 hlt hp hpl hkeys,
    fun c fuel pos i s t hg hst hperm hno hlt hlens hlent hready hkeys =>
      completion_perm_invariant hg hst hperm hno hlt hlens hlent hready hkeys, ?_⟩
  intro c fuel pos i s l1 l2 hg hlt hne1 hp hpl hkeys hready hkeys2
  have hne2 : l2 ≠ [] := by
    intro hc
    rw [hc] at hp
    exact hne1 hp.eq_nil
  have hpl2 : ∀ f ∈ l2, mixedMember c f = true :=
    fun g hg2 => hpl g (hp.symm.subset hg2)
  have hA := ingest_perm_invariant c i s l1 l2 hlt hp hpl hkeys
  obtain ⟨e1, herr1, hdel1, hlen1, hagree1, hf1⟩ :=
    interfaceType_mixed_entry c i s l1 hlt hne1 hpl
  obtain ⟨e2, herr2, hdel2, hlen2, hagree2, hf2⟩ :=
    interfaceType_mixed_entry c i s l2 hlt hne2 hpl2
  have hsteq : StEq i ((interfaceType c i l1 s).1) ((interfaceType c i l2 s).1) := by
    refine ⟨?_, ?_, ?_, ?_, hA.1.symm, hA.2.2.1.symm, hA.2.2.2.1.symm⟩
    · rw [herr1, herr2]
    · rw [hdel1, hdel2]
    · rw [hlen1, hlen2]
    · intro j hj
      rw [hagree1 j hj, hagree2 j hj]
  have hno1 : ((interfaceType c i l1 s).1.store.getD i {}).allMethods = none := by
    rw [e1]
  have hlt1 : i < (interfaceType c i l1 s).1.store.length := by
    rw [hlen1]
    exact hlt
  have hlen1e : ((interfaceType c i l1 s).1.store.getD i {}).embeddeds.length =
      ((interfaceType c i l1 s).1.store.getD i {}).embPos.length := by
    rw [e1]
    exact ((List.perm_insertionSort tLe _).length_eq).trans
      (member_embeds_pos_length c l1)
  have hlen2e : ((interfaceType c i l2 s).1.store.getD i {}).embeddeds.length =
      ((interfaceType c i l2 s).1.store.getD i {}).embPos.length := by
    rw [e2]
    exact ((List.perm_insertionSort tLe _).length_eq).trans
      (member_embeds_pos_length c l2)
  exact completion_perm_invariant hg hsteq hA.2.1.symm hno1 hlt1 hlen1e hlen2e
    hready hkeys2

/-- the counterexample to the unamended claim: the same two methods with one
identity key, ingested and completed in both declaration orders, leave
different surviving slots in the closure. -/
def closureOf (check : Checker) (members : List Member) : Option (List Func) :=
  match completeInterface (some check) 1 0 0
      (interfaceType check 0 members ⟨[{}], [], []⟩).1 with
  | .ok s => (s.store.getD 0 {}).allMethods
  | .error _ => none

theorem order_independence_cex :
    [(⟨some "M", 3, .atom 11 4⟩ : Member), ⟨some "M", 1, .atom 10 2⟩].Perm
      [⟨some "M", 1, .atom 10 2⟩, ⟨some "M", 3, .atom 11 4⟩] ∧
    closureOf demoChecker [⟨some "M", 1, .atom 10 2⟩, ⟨some "M", 3, .atom 11 4⟩] =
      some [⟨1, "p", "M", 100⟩] ∧
    closureOf demoChecker [⟨some "M", 3, .atom 11 4⟩, ⟨some "M", 1, .atom 10 2⟩] =
      some [⟨3, "p", "M", 200⟩] := by
  refine ⟨List.Perm.swap _ _ _, by decide, by decide⟩

/-- the embedded elements of interStore in reversed order, positions moved
along with their elements. -/
def interStorePerm : CompState :=
  ⟨[{ methods := [⟨1, "p", "m", 100⟩],
      embeddeds := [.union [⟨false, 9⟩], .invalid, .iface none 1,
        .union [⟨false, 1⟩, ⟨false, 2⟩]],
      embPos := [6, 5, 4, 3] },
    { allMethods := some [], allTypes := some {⟨false, 2⟩, ⟨false, 3⟩} }], [], []⟩

theorem order_independence_witness :
    (((interfaceType demoChecker 0
        [⟨some "a", 1, .atom 10 2⟩, ⟨none, 0, .atom 20 7⟩, ⟨some "b", 3, .atom 11 4⟩]
        ⟨[{}], [], []⟩).1.store.getD 0 {}).methods =
      ((interfaceType demoChecker 0
        [⟨some "b", 3, .atom 11 4⟩, ⟨none, 0, .atom 20 7⟩, ⟨some "a", 1, .atom 10 2⟩]
        ⟨[{}], [], []⟩).1.store.getD 0 {}).methods ∧
     ((interfaceType demoChecker 0
        [⟨some "a", 1, .atom 10 2⟩, ⟨none, 0, .atom 20 7⟩, ⟨some "b", 3, .atom 11 4⟩]
        ⟨[{}], [], []⟩).1.store.getD 0 {}).embeddeds.Perm
      ((interfaceType demoChecker 0
        [⟨some "b", 3, .atom 11 4⟩, ⟨none, 0, .atom 20 7⟩, ⟨some "a", 1, .atom 10 2⟩]
        ⟨[{}], [], []⟩).1.store.getD 0 {}).embeddeds ∧
     ((interfaceType demoChecker 0
        [⟨some "a", 1, .atom 10 2⟩, ⟨none, 0, .atom 20 7⟩, ⟨some "b", 3, .atom 11 4⟩]
        ⟨[{}], [], []⟩).1.store.getD 0 {}).allMethods =
      ((interfaceType demoChecker 0
        [⟨some "b", 3, .atom 11 4⟩, ⟨none, 0, .atom 20 7⟩, ⟨some "a", 1, .atom 10 2⟩]
        ⟨[{}], [], []⟩).1.store.getD 0 {}).allMethods ∧
     ((interfaceType demoChecker 0
        [⟨some "a", 1, .atom 10 2⟩, ⟨none, 0, .atom 20 7⟩, ⟨some "b", 3, .atom 11 4⟩]
        ⟨[{}], [], []⟩).1.store.getD 0 {}).allTypes =
      ((interfaceType demoChecker 0
        [⟨some "b", 3, .atom 11 4⟩, ⟨none, 0, .atom 20 7⟩, ⟨some "a", 1, .atom 10 2⟩]
        ⟨[{}], [], []⟩).1.store.getD 0 {}).allTypes ∧
     (interfaceType demoChecker 0
        [⟨some "a", 1, .atom 10 2⟩, ⟨none, 0, .atom 20 7⟩, ⟨some "b", 3, .atom 11 4⟩]
        ⟨[{}], [], []⟩).2 =
      (interfaceType demoChecker 0
        [⟨some "b", 3, .atom 11 4⟩, ⟨none, 0, .atom 20 7⟩, ⟨some "a", 1, .atom 10 2⟩]
        ⟨[{}], [], []⟩).2) ∧
    (∃ s' t', completeInterface (some demoChecker) 1 0 0 interStore = .ok s' ∧
      completeInterface (some demoChecker) 1 0 0 interStorePerm = .ok t' ∧
      (s'.store.getD 0 {}).allMethods = (t'.store.getD 0 {}).allMethods ∧
      (s'.store.getD 0 {}).allTypes = (t'.store.getD 0 {}).allTypes) ∧
    (∃ s' t',
      completeInterface (some demoChecker) 1 0 0
        ((interfaceType demoChecker 0
          [⟨some "a", 1, .atom 10 2⟩, ⟨none, 0, .atom 20 7⟩, ⟨none, 0, .atom 21 8⟩]
          ⟨[{}], [], []⟩).1) = .ok s' ∧
      completeInterface (some demoChecker) 1 0 0
        ((interfaceType demoChecker 0
          [⟨none, 0, .atom 21 8⟩, ⟨some "a", 1, .atom 10 2⟩, ⟨none, 0, .atom 20 7⟩]
          ⟨[{}], [], []⟩).1) = .ok t' ∧
      (s'.store.getD 0 {}).allMethods = (t'.store.getD 0 {}).allMethods ∧
      (s'.store.getD 0 {}).allTypes = (t'.store.getD 0 {}).allTypes) :=
  ⟨order_independence.1 demoChecker 0 ⟨[{}], [], []⟩
      [⟨some "a", 1, .atom 10 2⟩, ⟨none, 0, .atom 20 7⟩, ⟨some "b", 3, .atom 11 4⟩]
      [⟨some "b", 3, .atom 11 4⟩, ⟨none, 0, .atom 20 7⟩, ⟨some "a", 1, .atom 10 2⟩]
      (by decide) (by decide) (by decide) (by decide),
   order_independence.2.1 demoChecker 0 0 0 interStore interStorePerm (by decide)
      ⟨rfl, rfl, rfl,
        fun j hj => by
          cases j with
          | zero => exact absurd rfl hj
          | succ n => rfl,
        rfl, rfl, rfl⟩
      (by decide) (by decide) (by decide) (by decide) (by decide) (by decide) (by decide),
   order_independence.2.2 demoChecker 0 0 0 ⟨[{}], [], []⟩
      [⟨some "a", 1, .atom 10 2⟩, ⟨none, 0, .atom 20 7⟩, ⟨none, 0, .atom 21 8⟩]
      [⟨none, 0, .atom 21 8⟩, ⟨some "a", 1, .atom 10 2⟩, ⟨none, 0, .atom 20 7⟩]
      (by decide) (by decide) (by decide) (by decide) (by decide) (by decide) (by decide)
      (by decide)⟩

/-! Type-list members: never ingested as methods, accumulated into one
synthetic union embedding, one diagnostic for a repeated list. -/

theorem ingestMember_methods_names (check : Checker) (st : IngestSt) (idx : Nat)
    (f : Member) : ∀ m ∈ (ingestMember check st idx f).methods,
    m ∈ st.methods ∨ (m.name ≠ "type" ∧ m.name ≠ "_") := by
  intro m hm
  unfold ingestMember at hm
  split at hm
  · exact Or.inl hm
  next name =>
    split at hm
    · exact Or.inl hm
    · split at hm
      · exact Or.inl hm
      next h1 h2 =>
        split at hm
        next tparams sid heq =>
          rcases List.mem_append.mp hm with h | h
          · exact Or.inl h
          · simp only [List.mem_singleton] at h
            subst h
            exact Or.inr ⟨h2, h1⟩
        next => exact Or.inl hm
        next => exact Or.inl hm

theorem ingest_fold_methods_names (check : Checker) :
    ∀ (ps : List (Nat × Member)) (st : IngestSt),
    ∀ m ∈ (ps.foldl (fun st p => ingestMember check st p.1 p.2) st).methods,
    m ∈ st.methods ∨ (m.name ≠ "type" ∧ m.name ≠ "_")
  | [], _, _, hm => Or.inl hm
  | p :: rest, st, m, hm => by
    rw [List.foldl_cons] at hm
    rcases ingest_fold_methods_names check rest _ m hm with h | h
    · exact ingestMember_methods_names check st p.1 p.2 m h
    · exact Or.inr h

theorem mem_methods_set_self {l : List Iface} {i : Nat} {it : Iface} {m : Func}
    (hlt : i < l.length) (hm : m ∈ ((l.set i it).getD i {}).methods) : m ∈ it.methods := by
  rwa [getD_set_self _ _ _ _ hlt] at hm

theorem interfaceType_no_marker_methods (check : Checker) (i : Nat) (s : CompState)
    (members : List Member) (hlt : i < s.store.length) :
    ∀ m ∈ (((interfaceType check i members s).1).store.getD i {}).methods,
      m.name ≠ "type" ∧ m.name ≠ "_" := by
  intro m hm
  simp only [interfaceType] at hm
  split at hm
  · split at hm
    · exact absurd (mem_methods_set_self hlt hm) (List.not_mem_nil m)
    · have hm2 := (sortMethods_perm _).subset (mem_methods_set_self hlt hm)
      rcases ingest_fold_methods_names check _ {} m hm2 with h | h
      · simp at h
      · exact h
  · split at hm
    · exact absurd (mem_methods_set_self hlt hm) (List.not_mem_nil m)
    · have hm2 := (sortMethods_perm _).subset (mem_methods_set_self hlt hm)
      rcases ingest_fold_methods_names check _ {} m hm2 with h | h
      · simp at h
      · exact h

/-- C8: no type-list marker member is ever ingested as a method (nor a blank
one); in the two-type-list scenario exactly one multiple-type-lists
diagnostic is reported at the second marker while the terms of both lists
are concatenated into one synthetic union embedding appended after the
loop, whose recorded position is the first listed type's. -/
theorem typelist_union :
    (∀ (check : Checker) (i : Nat) (s : CompState) (members : List Member),
      i < s.store.length →
      ∀ m ∈ (((interfaceType check i members s).1).store.getD i {}).methods,
        m.name ≠ "type" ∧ m.name ≠ "_") ∧
    ((interfaceType demoChecker 0
        [⟨some "type", 1, .atom 20 2⟩, ⟨some "M", 3, .atom 10 4⟩,
         ⟨some "type", 5, .atom 21 6⟩] ⟨[{}], [], []⟩).1.errs =
      [.multipleTypeLists 5] ∧
     (interfaceType demoChecker 0
        [⟨some "type", 1, .atom 20 2⟩, ⟨some "M", 3, .atom 10 4⟩,
         ⟨some "type", 5, .atom 21 6⟩] ⟨[{}], [], []⟩).1.store.getD 0 {} =
      Iface.mk [⟨3, "p", "M", 100⟩] [.union [⟨true, 20⟩, ⟨true, 21⟩]] [2] none none) := by
  refine ⟨interfaceType_no_marker_methods, by decide, by decide⟩

theorem typelist_union_witness :
    (⟨3, "p", "M", 100⟩ : Func).name ≠ "type" ∧
      (⟨3, "p", "M", 100⟩ : Func).name ≠ "_" :=
  typelist_union.1 demoChecker 0 ⟨[{}], [], []⟩
    [⟨some "type", 1, .atom 20 2⟩, ⟨some "M", 3, .atom 10 4⟩,
     ⟨some "type", 5, .atom 21 6⟩] (by decide) ⟨3, "p", "M", 100⟩ (by decide)

/-! Embedding positions: the closure loop pairs inherited methods with
positions index-wise from the position list recorded at ingestion, but
ingestion sorts the embedded elements without sorting the position list, so
the pairing can point at the wrong embedding. -/

/-- a checker whose embedded-type resolver yields a keyed interface for
atom 20 and an anonymous (unkeyed) interface for atom 21; the latter sorts
before keyed elements. -/
def posChecker : Checker where
  pkg := "p"
  compilerErrorMessages := false
  go118 := true
  go114 := fun _ => true
  typOf := fun e => match e with
    | .atom 10 _ => .sig false 100
    | _ => .invalid
  resolveEmbed := fun t => match t with
    | 20 => .iface (some ⟨"B", "p"⟩) 1
    | 21 => .iface none 2
    | _ => .invalid

/-- the store in which interface 0 is declared: interface 1 (named B) is
complete and empty, interface 2 (an anonymous interface literal) is complete
with one method M that collides with the declared method M. -/
def posStore : CompState :=
  ⟨[{}, { allMethods := some [] },
    { allMethods := some [⟨11, "p", "M", 100⟩] }], [], []⟩

/-- C9: refuted by the source pairing: the interface embeds B (written at
source position 7, resolving to store index 1) and then an anonymous
interface literal (written at source position 8, resolving to store index
2, whose method M collides with the explicit method M).  Ingestion sorts
the embedded elements, moving the anonymous element first, but leaves the
recorded position list in declaration order, so completion pairs the
element at index 2 with position 7 — the position of the other embedding —
and the deferred duplicate check for the method inherited from the
element written at position 8 carries position 7. -/
theorem inherited_position_misaligned :
    ((interfaceType posChecker 0
        [⟨none, 0, .atom 20 7⟩, ⟨none, 0, .atom 21 8⟩, ⟨some "M", 1, .atom 10 2⟩]
        posStore).1.store.getD 0 {}).embeddeds =
      [.iface none 2, .iface (some ⟨"B", "p"⟩) 1] ∧
    ((interfaceType posChecker 0
        [⟨none, 0, .atom 20 7⟩, ⟨none, 0, .atom 21 8⟩, ⟨some "M", 1, .atom 10 2⟩]
        posStore).1.store.getD 0 {}).embPos = [7, 8] ∧
    (match completeInterface (some posChecker) 1 0 0
        (interfaceType posChecker 0
          [⟨none, 0, .atom 20 7⟩, ⟨none, 0, .atom 21 8⟩, ⟨some "M", 1, .atom 10 2⟩]
          posStore).1 with
     | .ok s' => s'.delayed
     | .error _ => []) =
      [⟨7, ⟨11, "p", "M", 100⟩, ⟨1, "p", "M", 100⟩, 1⟩] := by
  refine ⟨by decide, by decide, by decide⟩

/-! Provenance of closure slots: every collected method is an explicit
method of the interface or the very same Func value found in the final
closure of an embedded interface (methods are reused, never cloned). -/

theorem addMethod_methods_sub {check : Option Checker} {a : AddSt} {s : CompState}
    {pos : Nat} {m : Func} {x : Bool} {a1 : AddSt} {s1 : CompState}
    (h : addMethod check a s pos m x = .ok (a1, s1)) :
    ∀ y ∈ a1.methods, y ∈ a.methods ∨ y = m := by
  intro y hy
  rcases addMethod_ok_methods h with he | he
  · exact Or.inl (he ▸ hy)
  · rw [he] at hy
    rcases List.mem_append.mp hy with h' | h'
    · exact Or.inl h'
    · simp only [List.mem_singleton] at h'
      exact Or.inr h'

theorem addInherited_methods_sub {check : Option Checker} {pos : Nat} :
    ∀ {ms : List Func} {a : AddSt} {s : CompState} {a1 : AddSt} {s1 : CompState},
    addInherited check pos ms a s = .ok (a1, s1) →
    ∀ y ∈ a1.methods, y ∈ a.methods ∨ y ∈ ms
  | [], a, s, a1, s1, h, y, hy => by
    simp only [addInherited, Except.ok.injEq, Prod.mk.injEq] at h
    exact Or.inl (h.1 ▸ hy)
  | m :: ms, a, s, a1, s1, h, y, hy => by
    simp only [addInherited] at h
    cases hm : addMethod check a s pos m false <;> rw [hm] at h
    · simp at h
    · obtain ⟨a', s'⟩ := ‹AddSt × CompState›
      rcases addInherited_methods_sub h y hy with h' | h'
      · rcases addMethod_methods_sub hm y h' with h'' | h''
        · exact Or.inl h''
        · exact Or.inr (by rw [h'']; exact List.mem_cons_self _ _)
      · exact Or.inr (List.mem_cons_of_mem _ h')

theorem addExplicits_methods_sub {check : Option Checker} :
    ∀ {ms : List Func} {a : AddSt} {s : CompState} {a1 : AddSt} {s1 : CompState},
    addExplicits check ms a s = .ok (a1, s1) →
    ∀ y ∈ a1.methods, y ∈ a.methods ∨ y ∈ ms
  | [], a, s, a1, s1, h, y, hy => by
    simp only [addExplicits, Except.ok.injEq, Prod.mk.injEq] at h
    exact Or.inl (h.1 ▸ hy)
  | m :: ms, a, s, a1, s1, h, y, hy => by
    simp only [addExplicits] at h
    cases hm : addMethod check a s m.pos m true <;> rw [hm] at h
    · simp at h
    · obtain ⟨a', s'⟩ := ‹AddSt × CompState›
      rcases addExplicits_methods_sub h y hy with h' | h'
      · rcases addMethod_methods_sub hm y h' with h'' | h''
        · exact Or.inl h''
        · exact Or.inr (by rw [h'']; exact List.mem_cons_self _ _)
      · exact Or.inr (List.mem_cons_of_mem _ h')

theorem completeEmbeds_methods_from {check : Option Checker}
    {recur : Nat → Nat → CompState → Except Failure CompState}
    (hrec : ∀ pos j sa sb, recur pos j sa = .ok sb → Pres sa sb) :
    ∀ {pairs : List (EType × Nat)} {a : AddSt} {allT : Option TermSet} {s : CompState}
      {a2 : AddSt} {allT2 : Option TermSet} {s2 : CompState},
    completeEmbeds check recur pairs a allT s = .ok (a2, allT2, s2) →
    ∀ m ∈ a2.methods, m ∈ a.methods ∨
      ∃ p ∈ pairs, ∃ k j, p.1 = EType.iface k j ∧
        m ∈ ((s2.store.getD j {}).allMethods.getD [])
  | [], a, allT, s, a2, allT2, s2, h, m, hm => by
    simp only [completeEmbeds, Except.ok.injEq, Prod.mk.injEq] at h
    exact Or.inl (h.1 ▸ hm)
  | (t, pos) :: rest, a, allT, s, a2, allT2, s2, h, m, hm => by
    cases t with
    | iface k j =>
      simp only [completeEmbeds] at h
      split at h
      next e heq => simp at h
      next sI heq =>
        split at h
        next e heq2 => simp at h
        next a' sJ heq2 =>
          have hpresJ2 : Pres sJ s2 := completeEmbeds_pres hrec h
          have hstJ : sJ.store = sI.store := addInherited_ok_store heq2
          rcases completeEmbeds_methods_from hrec h m hm with h' | h'
          · rcases addInherited_methods_sub heq2 m h' with h'' | h''
            · exact Or.inl h''
            · right
              refine ⟨(EType.iface k j, pos), List.mem_cons_self _ _, k, j, rfl, ?_⟩
              cases hA : (sI.store.getD j {}).allMethods with
              | none =>
                rw [hA] at h''
                simp at h''
              | some l =>
                rw [hA] at h''
                have hJA : (sJ.store.getD j {}).allMethods = some l := by
                  rw [show sJ.store.getD j {} = sI.store.getD j {} from by rw [hstJ]]
                  exact hA
                have h2 : s2.store.getD j {} = sJ.store.getD j {} :=
                  hpresJ2.mono j (by rw [hJA]; simp)
                rw [h2, show sJ.store.getD j {} = sI.store.getD j {} from by rw [hstJ],
                  hA]
                exact h''
          · obtain ⟨p, hp, hr⟩ := h'
            exact Or.inr ⟨p, List.mem_cons_of_mem _ hp, hr⟩
    | union ts =>
      simp only [completeEmbeds] at h
      rcases completeEmbeds_methods_from hrec h m hm with h' | h'
      · exact Or.inl h'
      · obtain ⟨p, hp, hr⟩ := h'
        exact Or.inr ⟨p, List.mem_cons_of_mem _ hp, hr⟩
    | typeParam ts =>
      simp only [completeEmbeds] at h
      split at h
      next c =>
        split at h
        · rcases completeEmbeds_methods_from hrec h m hm with h' | h'
          · exact Or.inl h'
          · obtain ⟨p, hp, hr⟩ := h'
            exact Or.inr ⟨p, List.mem_cons_of_mem _ hp, hr⟩
        · rcases completeEmbeds_methods_from hrec h m hm with h' | h'
          · exact Or.inl h'
          · obtain ⟨p, hp, hr⟩ := h'
            exact Or.inr ⟨p, List.mem_cons_of_mem _ hp, hr⟩
      next =>
        rcases completeEmbeds_methods_from hrec h m hm with h' | h'
        · exact Or.inl h'
        · obtain ⟨p, hp, hr⟩ := h'
          exact Or.inr ⟨p, List.mem_cons_of_mem _ hp, hr⟩
    | invalid =>
      simp only [completeEmbeds] at h
      rcases completeEmbeds_methods_from hrec h m hm with h' | h'
      · exact Or.inl h'
      · obtain ⟨p, hp, hr⟩ := h'
        exact Or.inr ⟨p, List.mem_cons_of_mem _ hp, hr⟩
    | other k u =>
      simp only [completeEmbeds] at h
      split at h
      next c =>
        split at h
        · rcases completeEmbeds_methods_from hrec h m hm with h' | h'
          · exact Or.inl h'
          · obtain ⟨p, hp, hr⟩ := h'
            exact Or.inr ⟨p, List.mem_cons_of_mem _ hp, hr⟩
        · rcases completeEmbeds_methods_from hrec h m hm with h' | h'
          · exact Or.inl h'
          · obtain ⟨p, hp, hr⟩ := h'
            exact Or.inr ⟨p, List.mem_cons_of_mem _ hp, hr⟩
      next =>
        rcases completeEmbeds_methods_from hrec h m hm with h' | h'
        · exact Or.inl h'
        · obtain ⟨p, hp, hr⟩ := h'
          exact Or.inr ⟨p, List.mem_cons_of_mem _ hp, hr⟩

/-- C10: every slot of the completed closure is either an explicit method
of the interface or the very same Func value (object identity preserved, no
cloning) occurring in the final closure of one of the embedded interface
elements. -/
theorem closure_members_inherited {check : Option Checker} {fuel pos i : Nat}
    {s s' : CompState} (hlt : i < s.store.length)
    (h : completeInterface check (fuel + 1) pos i s = .ok s') :
    ∀ m ∈ ((s'.store.getD i {}).allMethods.getD []),
      m ∈ (s.store.getD i {}).methods ∨
      ∃ p ∈ pairsOf check (s.store.getD i {}), ∃ k j, p.1 = EType.iface k j ∧ j ≠ i ∧
        m ∈ ((s'.store.getD j {}).allMethods.getD []) := by
  intro m hm
  have hrecP : ∀ p j sa sb, completeInterface check fuel p j sa = .ok sb → Pres sa sb :=
    fun p j sa sb hh => (completeInterface_pres fuel hh).1
  rw [completeInterface_succ] at h
  split at h
  case isFalse => simp at h
  case isTrue hnone =>
    split at h
    next e hE => simp at h
    next a s2 hE =>
      split at h
      next e hC => simp at h
      next a2 allT s3 hC =>
        split at h
        next e hT => simp at h
        next hT =>
          simp only [Except.ok.injEq] at h
          subst h
          have hcomp : ((markSt s i).store.getD i {}).allMethods = some [] := by
            rw [markSt_getD_self hlt]
          have pres23 : Pres (markSt s i) s3 :=
            (Pres.of_store_eq (addExplicits_ok_store hE)).comp
              (completeEmbeds_pres hrecP hC)
          have hs3i : s3.store.getD i {} = (markSt s i).store.getD i {} :=
            pres23.mono i (by rw [hcomp]; simp)
          have hlt3 : i < s3.store.length := by
            rw [pres23.len]
            simpa [markSt] using hlt
          rw [finalize_getD_self_allMethods hlt3] at hm
          split at hm
          · rw [hs3i, hcomp] at hm
            simp at hm
          · have hm2 := (sortMethods_perm _).subset hm
            rcases completeEmbeds_methods_from hrecP hC m hm2 with h' | h'
            · rcases addExplicits_methods_sub hE m h' with h'' | h''
              · simp at h''
              · exact Or.inl h''
            · obtain ⟨p, hp, k, j, hpt, hmem⟩ := h'
              have hji : j ≠ i := by
                rintro rfl
                rw [hs3i, hcomp] at hmem
                simp at hmem
              right
              refine ⟨p, hp, k, j, hpt, hji, ?_⟩
              rw [finalize_getD_ne (fun hh => hji hh.symm)]
              exact hmem

/-- a store in which interface 0 has no explicit methods and inherits one
method from the complete interface 1. -/
def inheritStore : CompState :=
  ⟨[{ embeddeds := [.iface none 1], embPos := [5] },
    { allMethods := some [⟨7, "p", "N", 200⟩] }], [], []⟩

/-- the completion of inheritStore. -/
def inheritCompleted : CompState :=
  match completeInterface (some demoChecker) 1 0 0 inheritStore with
  | .ok s => s
  | .error _ => inheritStore

theorem closure_members_inherited_witness :
    (⟨7, "p", "N", 200⟩ : Func) ∈ (inheritStore.store.getD 0 {}).methods ∨
    ∃ p ∈ pairsOf (some demoChecker) (inheritStore.store.getD 0 {}), ∃ k j,
      p.1 = EType.iface k j ∧ j ≠ 0 ∧
      (⟨7, "p", "N", 200⟩ : Func) ∈
        ((inheritCompleted.store.getD j {}).allMethods.getD []) :=
  @closure_members_inherited (some demoChecker) 0 0 0 inheritStore inheritCompleted
    (by decide) (by decide) ⟨7, "p", "N", 200⟩ (by decide)

end Types2
